import Mathlib

/-!
A shallow embedding of the `typed_graph` store (src/src/graph/typed_graph.rs)
and of the branch-collecting terminals of its graph walker
(src/src/graph/graph_walker.rs).

Modelling conventions:
* Logical node/edge ids (`NK`/`EK`), runtime type tags and payloads are `Nat`.
* `HashMap` lookup tables and the `HopSlotMap` storage tables are association
  lists `List (Nat × α)`; `HopSlotMap` key allocation is modelled by an
  ever-increasing fresh counter (`nextNodeKey`/`nextEdgeKey`).  Slot reuse in
  the real slot map is unobservable through the operations studied here: slots
  are opaque to callers and every property below is stated at the level of
  logical ids.
* `IndexSet<EdgeKey>` adjacency sets are `List Nat` without duplicates;
  `insert` appends when absent, `shift_remove` removes in place preserving
  order, and `remove` (= `swap_remove`) swaps the last element into the hole.
* Fallible Rust methods on `&mut self` are modelled as
  `TypedGraph → ... → Except GError β × TypedGraph`, returning the store in
  the (possibly partially mutated) state it has when the method returns.
  `.unwrap()` on an option (a Rust panic when `None`) is modelled by
  `unwrapD`, which returns a default value; every theorem below is used under
  invariants that make the option `some`.
-/

/-- `DisAllowedEdge` of graph_traits.rs as used by typed_graph.rs
(`InvalidType` / `ToMany`). -/
inductive DisAllowedEdge where
  | invalidType
  | toMany
  deriving Repr, DecidableEq

/-- The variants of `TypedError` reachable from the embedded operations. -/
inductive GError where
  | nodeIdMissing (id : Nat)
  | edgeIdMissing (id : Nat)
  | missingNode (id : Nat)
  | missingEdge (id : Nat)
  | missingNodeKey (k : Nat)
  | missingEdgeKey (k : Nat)
  | invalidNodeType (ty : Nat)
  | invalidEdgeType (ety sty tty : Nat) (why : DisAllowedEdge)
  | invalidInternalState
  | invalidEdgeMove (a b : Nat)
  | inconsistentNodeIds (a b : Nat)
  | inconsistentEdgeIds (a b : Nat)
  deriving Repr, DecidableEq

deriving instance DecidableEq for Except

/-- A node weight: logical id, runtime type tag, payload. -/
structure NWeight where
  id : Nat
  ty : Nat
  data : Nat
  deriving Repr, DecidableEq

/-- An edge weight: logical id, runtime type tag, payload. -/
structure EWeight where
  id : Nat
  ty : Nat
  data : Nat
  deriving Repr, DecidableEq

instance : Inhabited NWeight := ⟨⟨0, 0, 0⟩⟩
instance : Inhabited EWeight := ⟨⟨0, 0, 0⟩⟩

/-- The schema capability consumed by the store (`SchemaExt`):
`allow_node(ty)` and `allow_edge(count, edge_ty, source_ty, target_ty)`.
`allowNode w = true` models `Ok(())`; `allowEdge ... = none` models `Ok(())`
and `some why` models `Err(why)`. -/
structure Schema where
  allowNode : Nat → Bool
  allowEdge : Nat → Nat → Nat → Nat → Option DisAllowedEdge

/-- `EdgeMetadata`: weight plus source/target node keys. -/
structure EdgeMetadata where
  weight : EWeight
  source : Nat
  target : Nat
  deriving Repr, DecidableEq

/-- `NodeMetada` (sic): weight plus incoming/outgoing edge-key sets. -/
structure NodeMetadata where
  weight : NWeight
  incoming : List Nat
  outgoing : List Nat
  deriving Repr, DecidableEq

instance : Inhabited EdgeMetadata := ⟨⟨default, 0, 0⟩⟩
instance : Inhabited NodeMetadata := ⟨⟨default, [], []⟩⟩

/-- `Direction` of an edge reference. -/
inductive Direction where
  | outgoing
  | incoming
  deriving Repr, DecidableEq

/-- `EdgeRef`: an edge weight together with the logical ids of its
endpoints. -/
structure EdgeRef where
  weight : EWeight
  source : Nat
  target : Nat
  dir : Direction
  deriving Repr, DecidableEq

/-- `InsertPosition` for `move_edge_order`. -/
inductive InsertPosition where
  | before
  | after
  deriving Repr, DecidableEq

/-- The typed graph store. -/
structure TypedGraph where
  nodeLut : List (Nat × Nat)
  edgeLut : List (Nat × Nat)
  nodes : List (Nat × NodeMetadata)
  edges : List (Nat × EdgeMetadata)
  nextNodeKey : Nat
  nextEdgeKey : Nat
  schema : Schema

/-- `TypedGraph::new(schema)`. -/
def TypedGraph.new (s : Schema) : TypedGraph :=
  ⟨[], [], [], [], 0, 0, s⟩

/- ### association-list and index-set helpers -/

/-- First-match association lookup (`HashMap::get` / `HopSlotMap::get`). -/
def alookup (l : List (Nat × α)) (k : Nat) : Option α :=
  match l with
  | [] => none
  | p :: rest => if p.1 = k then some p.2 else alookup rest k

/-- Remove a key (`HashMap::remove` / `HopSlotMap::remove`, value ignored). -/
def eraseKey (l : List (Nat × α)) (k : Nat) : List (Nat × α) :=
  match l with
  | [] => []
  | p :: rest => if p.1 = k then eraseKey rest k else p :: eraseKey rest k

/-- Replace the value at a key in place (`get_mut` style edits). -/
def modifyVal (l : List (Nat × α)) (k : Nat) (f : α → α) : List (Nat × α) :=
  l.map fun p => if p.1 = k then (p.1, f p.2) else p

/-- `IndexSet::insert`: append when absent. -/
def isetInsert (l : List Nat) (k : Nat) : List Nat :=
  if k ∈ l then l else l ++ [k]

/-- `IndexSet::shift_remove`: delete preserving the order of the rest. -/
def shiftRemove (l : List Nat) (k : Nat) : List Nat :=
  l.erase k

/-- Index of an element (`IndexSet::get_index_of`). -/
def idxOf (l : List Nat) (k : Nat) : Option Nat :=
  match l with
  | [] => none
  | x :: rest => if x = k then some 0 else (idxOf rest k).map (· + 1)

/-- `IndexSet::remove` (= `swap_remove`): swap the last element into the
removed position. -/
def swapRemove (l : List Nat) (k : Nat) : List Nat :=
  match idxOf l k with
  | none => l
  | some i => (l.set i (l.getLastD 0)).dropLast

/-- Delete the element at an index (helper for `move_index`). -/
def eraseAt (l : List Nat) : Nat → List Nat
  | 0 => l.tail
  | n + 1 =>
    match l with
    | [] => []
    | x :: rest => x :: eraseAt rest n

/-- Insert an element at an index (helper for `move_index`). -/
def insAt (l : List Nat) : Nat → Nat → List Nat
  | 0, x => x :: l
  | n + 1, x =>
    match l with
    | [] => [x]
    | y :: rest => y :: insAt rest n x

/-- `IndexSet::move_index(from, to)`: remove the element at `from` and
re-insert it so that it ends at index `to`, shifting everything between. -/
def moveIdx (l : List Nat) (a b : Nat) : List Nat :=
  match l.get? a with
  | none => l
  | some x => insAt (eraseAt l a) b x

/-- `Option::ok_or`. -/
def okOr (o : Option α) (e : GError) : Except GError α :=
  match o with
  | some a => .ok a
  | none => .error e

/-- `Option::unwrap` (a Rust panic when `None`, modelled by the default). -/
def unwrapD [Inhabited α] (o : Option α) : α :=
  o.getD default

/- ### read-only accessors (typed_graph.rs lines 78-193, 499-533) -/

namespace TypedGraph

/-- `get_node_key`. -/
def get_node_key (g : TypedGraph) (node_id : Nat) : Except GError Nat :=
  okOr (alookup g.nodeLut node_id) (.missingNode node_id)

/-- `get_edge_key`. -/
def get_edge_key (g : TypedGraph) (edge_id : Nat) : Except GError Nat :=
  okOr (alookup g.edgeLut edge_id) (.missingEdge edge_id)

/-- `get_node_internal`. -/
def get_node_internal (g : TypedGraph) (node_key : Nat) :
    Except GError NodeMetadata :=
  okOr (alookup g.nodes node_key) (.missingNodeKey node_key)

/-- `get_edge_internal`. -/
def get_edge_internal (g : TypedGraph) (edge_key : Nat) :
    Except GError EdgeMetadata :=
  okOr (alookup g.edges edge_key) (.missingEdgeKey edge_key)

/-- `get_node_safe`. -/
def get_node_safe (g : TypedGraph) (node_id : Nat) : Option NWeight := do
  let key ← alookup g.nodeLut node_id
  let node ← alookup g.nodes key
  some node.weight

/-- `get_edge_safe`. -/
def get_edge_safe (g : TypedGraph) (edge_id : Nat) : Option EWeight := do
  let key ← alookup g.edgeLut edge_id
  (alookup g.edges key).map (·.weight)

/-- `get_node`. -/
def get_node (g : TypedGraph) (node_id : Nat) : Except GError NWeight :=
  okOr (g.get_node_safe node_id) (.missingNode node_id)

/-- `get_edge`. -/
def get_edge (g : TypedGraph) (edge_id : Nat) : Except GError EWeight :=
  okOr (g.get_edge_safe edge_id) (.missingEdge edge_id)

/-- Turn an edge record into an `EdgeRef` (the `.unwrap()` node lookups of
`get_edge_full` / `get_outgoing` / `get_incoming`). -/
def refOf (g : TypedGraph) (em : EdgeMetadata) (dir : Direction) : EdgeRef :=
  { weight := em.weight
    source := (unwrapD (alookup g.nodes em.source)).weight.id
    target := (unwrapD (alookup g.nodes em.target)).weight.id
    dir := dir }

/-- `get_edge_full`. -/
def get_edge_full (g : TypedGraph) (edge_id : Nat) : Except GError EdgeRef :=
  match g.get_edge_key edge_id with
  | .error e => .error e
  | .ok edge_key =>
    match g.get_edge_internal edge_key with
    | .error e => .error e
    | .ok edge => .ok (g.refOf edge .outgoing)

/-- `has_node`. -/
def has_node (g : TypedGraph) (node_id : Nat) : Bool :=
  (alookup g.nodeLut node_id).isSome

/-- `has_edge`. -/
def has_edge (g : TypedGraph) (edge_id : Nat) : Bool :=
  (alookup g.edgeLut edge_id).isSome

/-- `get_outgoing` (the iterator is materialised as a list). -/
def get_outgoing (g : TypedGraph) (node_id : Nat) :
    Except GError (List EdgeRef) :=
  match okOr (alookup g.nodeLut node_id) (.nodeIdMissing node_id) with
  | .error e => .error e
  | .ok node_key =>
    match g.get_node_internal node_key with
    | .error e => .error e
    | .ok node =>
      .ok (node.outgoing.map fun ek =>
        g.refOf (unwrapD (alookup g.edges ek)) .outgoing)

/-- `get_incoming` (the iterator is materialised as a list). -/
def get_incoming (g : TypedGraph) (node_id : Nat) :
    Except GError (List EdgeRef) :=
  match okOr (alookup g.nodeLut node_id) (.nodeIdMissing node_id) with
  | .error e => .error e
  | .ok node_key =>
    match g.get_node_internal node_key with
    | .error e => .error e
    | .ok node =>
      .ok (node.incoming.map fun ek =>
        g.refOf (unwrapD (alookup g.edges ek)) .incoming)

/- ### quantity counting (the loops of add_edge lines 371-386 and
add_node lines 302-318) -/

/-- The shared counting loop: over a list of outgoing edge references, count
those whose weight type is `ety` and whose target node's type is `tty`
(the target is looked up by logical id via `get_node`, propagating errors). -/
def quantityLoop (g : TypedGraph) (ety tty : Nat) :
    List EdgeRef → Except GError Nat
  | [] => .ok 0
  | r :: rest =>
    if r.weight.ty ≠ ety then quantityLoop g ety tty rest
    else
      match g.get_node r.target with
      | .error e => .error e
      | .ok out_target_node =>
        match quantityLoop g ety tty rest with
        | .error e => .error e
        | .ok q => if out_target_node.ty ≠ tty then .ok q else .ok (q + 1)

/-- quantity computation of `add_edge`: outgoing edges of `source_id` with
the given edge type whose target has type `tty`. -/
def edgeClassQuantity (g : TypedGraph) (source_id ety tty : Nat) :
    Except GError Nat :=
  match g.get_outgoing source_id with
  | .error e => .error e
  | .ok refs => quantityLoop g ety tty refs

/- ### add_node (typed_graph.rs lines 258-353) -/

/-- The re-validation loop of `add_node` for a type-changing replacement
(lines 284-331): for every incident edge key, substitute the new weight `w`
for the node being replaced at the direction-correct endpoints, recount the
quantity and consult the schema.  The loop performs no mutation. -/
def checkIncidentEdges (g : TypedGraph) (node_key : Nat) (w : NWeight) :
    List Nat → Except GError Unit
  | [] => .ok ()
  | edge_key :: rest =>
    match g.get_edge_internal edge_key with
    | .error e => .error e
    | .ok edge =>
      let weight_type := edge.weight.ty
      match (if edge.source = node_key then Except.ok w else
          match g.get_node_internal edge.source with
          | .error e => .error e
          | .ok m => .ok m.weight) with
      | .error e => .error e
      | .ok source_node =>
        match (if edge.target = node_key then Except.ok w else
            match g.get_node_internal edge.target with
            | .error e => .error e
            | .ok m => .ok m.weight) with
        | .error e => .error e
        | .ok target_node =>
          match g.edgeClassQuantity source_node.id weight_type target_node.ty with
          | .error e => .error e
          | .ok quantity =>
            match g.schema.allowEdge (quantity + 1) weight_type
                source_node.ty target_node.ty with
            | some e =>
              .error (.invalidEdgeType weight_type source_node.ty target_node.ty e)
            | none => checkIncidentEdges g node_key w rest

/-- The fresh-insert branch of `add_node` (lines 343-349). -/
def pushNode (g : TypedGraph) (w : NWeight) : TypedGraph :=
  { g with
    nodes := g.nodes ++ [(g.nextNodeKey, ({ weight := w, incoming := [], outgoing := [] } : NodeMetadata))]
    nodeLut := g.nodeLut ++ [(w.id, g.nextNodeKey)]
    nextNodeKey := g.nextNodeKey + 1 }

/-- Replace the weight stored at a node key. -/
def setNodeWeight (g : TypedGraph) (k : Nat) (w : NWeight) : TypedGraph :=
  { g with nodes := modifyVal g.nodes k fun m => { m with weight := w } }

/-- `add_node`. -/
def add_node (g : TypedGraph) (w : NWeight) : Except GError Nat × TypedGraph :=
  if g.schema.allowNode w.ty = false then
    (.error (.invalidNodeType w.ty), g)
  else
    let node_id := w.id
    match alookup g.nodeLut node_id with
    | some node_key =>
      match alookup g.nodes node_key with
      | none => (.error (.missingNodeKey node_key), g)
      | some node =>
        if node.weight.ty ≠ w.ty then
          match checkIncidentEdges g node_key w (node.incoming ++ node.outgoing) with
          | .error e => (.error e, g)
          | .ok () => (.ok node_id, g.setNodeWeight node_key w)
        else
          (.ok node_id, g.setNodeWeight node_key w)
    | none => (.ok node_id, g.pushNode w)

/- ### add_edge (typed_graph.rs lines 357-454) -/

/-- The fresh-insert branch of `add_edge` (lines 430-450): insert the edge
record, register it in the lookup table, append the key to the source's
outgoing set and insert it into the target's incoming set. -/
def pushEdge (g : TypedGraph) (source_key target_key : Nat) (w : EWeight) :
    TypedGraph :=
  let ek := g.nextEdgeKey
  let g1 := { g with
    edges := g.edges ++ [(ek, ({ weight := w, source := source_key, target := target_key } : EdgeMetadata))]
    edgeLut := g.edgeLut ++ [(w.id, ek)]
    nextEdgeKey := ek + 1 }
  let g2 := { g1 with
    nodes := modifyVal g1.nodes source_key (fun m =>
      { m with outgoing := isetInsert m.outgoing ek }) }
  { g2 with
    nodes := modifyVal g2.nodes target_key (fun m =>
      { m with incoming := isetInsert m.incoming ek }) }

/-- The update branch of `add_edge` (lines 398-429), after the weight has
been replaced.  NOTE (faithful to the source): `source_key`/`target_key` are
shadowed by the edge record's OLD endpoints, so when an endpoint changed the
edge key is removed from the old endpoint's adjacency set twice, is never
added to the new endpoint's set, and the record's endpoints stay unchanged. -/
def updateEdgeEndpoints (g : TypedGraph) (edge_key : Nat)
    (em : EdgeMetadata) (source target : Nat) :
    Except GError Unit × TypedGraph :=
  let source_key := em.source
  let target_key := em.target
  match alookup g.nodes source_key with
  | none => (.error (.missingNodeKey source_key), g)
  | some old_source_node =>
    let old_source := old_source_node.weight.id
    let step2 : Except GError Unit × TypedGraph :=
      if old_source ≠ source then
        match alookup g.nodeLut old_source with
        | none => (.error (.missingNode old_source), g)
        | some old_source_key =>
          let ga := { g with nodes := modifyVal g.nodes old_source_key (fun m =>
            { m with outgoing := shiftRemove m.outgoing edge_key }) }
          let gb := { ga with nodes := modifyVal ga.nodes source_key (fun m =>
            { m with outgoing := shiftRemove m.outgoing edge_key }) }
          (.ok (), gb)
      else (.ok (), g)
    match step2 with
    | (.error e, g') => (.error e, g')
    | (.ok (), g') =>
      match alookup g'.nodes target_key with
      | none => (.error (.missingNodeKey target_key), g')
      | some old_target_node =>
        let old_target := old_target_node.weight.id
        if old_target ≠ target then
          match alookup g'.nodeLut old_target with
          | none => (.error (.missingNode old_target), g')
          | some old_target_key =>
            let gc := { g' with nodes := modifyVal g'.nodes old_target_key (fun m =>
              { m with incoming := swapRemove m.incoming edge_key }) }
            let gd := { gc with nodes := modifyVal gc.nodes target_key (fun m =>
              { m with incoming := swapRemove m.incoming edge_key }) }
            (.ok (), gd)
        else (.ok (), g')

/-- `add_edge`. -/
def add_edge (g : TypedGraph) (source target : Nat) (w : EWeight) :
    Except GError Nat × TypedGraph :=
  let edge_id := w.id
  match alookup g.nodeLut source with
  | none => (.error (.missingNode source), g)
  | some source_key =>
    match alookup g.nodeLut target with
    | none => (.error (.missingNode target), g)
    | some target_key =>
      match alookup g.nodes source_key with
      | none => (.error (.missingNodeKey source_key), g)
      | some source_node =>
        match alookup g.nodes target_key with
        | none => (.error (.missingNodeKey target_key), g)
        | some target_node =>
          match g.edgeClassQuantity source_node.weight.id w.ty target_node.weight.ty with
          | .error e => (.error e, g)
          | .ok quantity =>
            match g.schema.allowEdge (quantity + 1) w.ty
                source_node.weight.ty target_node.weight.ty with
            | some e =>
              (.error (.invalidEdgeType w.ty source_node.weight.ty
                target_node.weight.ty e), g)
            | none =>
              match alookup g.edgeLut edge_id with
              | some edge_key =>
                match alookup g.edges edge_key with
                | none => (.error (.missingEdgeKey edge_key), g)
                | some em =>
                  let newEdges := modifyVal g.edges edge_key
                    (fun e => { e with weight := w })
                  let g1 := { g with edges := newEdges }
                  match updateEdgeEndpoints g1 edge_key em source target with
                  | (.error e, g2) => (.error e, g2)
                  | (.ok (), g2) => (.ok edge_id, g2)
              | none => (.ok edge_id, g.pushEdge source_key target_key w)

end TypedGraph

namespace TypedGraph

/- ### remove_node (typed_graph.rs lines 457-484) -/

/-- The outgoing-edge loop of `remove_node` (lines 461-467): remove each
edge record and its id mapping, and deregister the key from the target's
incoming set unless the target is the node being removed. -/
def removeOutLoop (g : TypedGraph) (node_key : Nat) :
    List Nat → Except GError Unit × TypedGraph
  | [] => (.ok (), g)
  | edge_key :: rest =>
    match alookup g.edges edge_key with
    | none => (.error .invalidInternalState, g)
    | some edge =>
      let g1 := { g with
        edges := eraseKey g.edges edge_key
        edgeLut := eraseKey g.edgeLut edge.weight.id }
      if edge.target ≠ node_key then
        match alookup g1.nodes edge.target with
        | none => (.error (.missingNodeKey edge.target), g1)
        | some _m =>
          let g2 := { g1 with nodes := modifyVal g1.nodes edge.target (fun n =>
            { n with incoming := swapRemove n.incoming edge_key }) }
          removeOutLoop g2 node_key rest
      else removeOutLoop g1 node_key rest

/-- The incoming-edge loop of `remove_node` (lines 469-481): skip keys whose
edge is already gone (a self-loop deleted by the outgoing pass), otherwise
remove the record and deregister the key from the source's outgoing set. -/
def removeInLoop (g : TypedGraph) (node_key : Nat) :
    List Nat → Except GError Unit × TypedGraph
  | [] => (.ok (), g)
  | edge_key :: rest =>
    if (alookup g.edges edge_key).isSome = false then
      removeInLoop g node_key rest
    else
      match alookup g.edges edge_key with
      | none => (.error .invalidInternalState, g)
      | some edge =>
        let g1 := { g with
          edges := eraseKey g.edges edge_key
          edgeLut := eraseKey g.edgeLut edge.weight.id }
        if edge.source ≠ node_key then
          match alookup g1.nodes edge.source with
          | none => (.error (.missingNodeKey edge.source), g1)
          | some _m =>
            let g2 := { g1 with nodes := modifyVal g1.nodes edge.source (fun n =>
              { n with outgoing := shiftRemove n.outgoing edge_key }) }
            removeInLoop g2 node_key rest
        else removeInLoop g1 node_key rest

/-- `remove_node`. -/
def remove_node (g : TypedGraph) (node_id : Nat) :
    Except GError NWeight × TypedGraph :=
  match alookup g.nodeLut node_id with
  | none => (.error (.nodeIdMissing node_id), g)
  | some node_key =>
    let g1 := { g with nodeLut := eraseKey g.nodeLut node_id }
    let node := unwrapD (alookup g1.nodes node_key)
    let g2 := { g1 with nodes := eraseKey g1.nodes node_key }
    match removeOutLoop g2 node_key node.outgoing with
    | (.error e, g3) => (.error e, g3)
    | (.ok (), g3) =>
      match removeInLoop g3 node_key node.incoming with
      | (.error e, g4) => (.error e, g4)
      | (.ok (), g4) => (.ok node.weight, g4)

/- ### move_edge_order (typed_graph.rs lines 201-254) -/

/-- `move_edge_order`. -/
def move_edge_order (g : TypedGraph) (source_id target_id : Nat)
    (insert_position : InsertPosition) : Except GError Unit × TypedGraph :=
  if source_id = target_id then (.ok (), g)
  else
    match g.get_edge_full source_id with
    | .error e => (.error e, g)
    | .ok source_edge =>
      match g.get_edge_key source_id with
      | .error e => (.error e, g)
      | .ok source_key =>
        match g.get_edge_key target_id with
        | .error e => (.error e, g)
        | .ok target_key =>
          match g.get_node_key source_edge.source with
          | .error e => (.error e, g)
          | .ok node_key =>
            match alookup g.nodes node_key with
            | none => (.error (.missingNodeKey node_key), g)
            | some node =>
              if node.outgoing.isEmpty then (.error .invalidInternalState, g)
              else if ¬ target_key ∈ node.outgoing then
                (.error (.invalidEdgeMove source_id target_id), g)
              else
                match idxOf node.outgoing source_key with
                | none => (.error (.invalidEdgeMove source_id target_id), g)
                | some source_idx =>
                  match idxOf node.outgoing target_key with
                  | none => (.error (.invalidEdgeMove source_id target_id), g)
                  | some target_idx =>
                    let target_idx :=
                      match insert_position with
                      | .after =>
                        if target_idx + 1 ≠ node.outgoing.length ∧
                            source_idx > target_idx then target_idx + 1
                        else target_idx
                      | .before =>
                        if target_idx ≠ 0 ∧ source_idx < target_idx then
                          target_idx - 1
                        else target_idx
                    let g1 := { g with nodes := modifyVal g.nodes node_key (fun n =>
                      { n with outgoing := moveIdx n.outgoing source_idx target_idx }) }
                    (.ok (), g1)

/- ### update_schema (typed_graph.rs lines 622-686) -/

/-- Inner loop of the edge capture (lines 633-637): pop each outgoing edge
key of one node out of the edge table. -/
def captureNodeEdges (edges : List (Nat × EdgeMetadata)) :
    List Nat → Except GError (List EdgeMetadata × List (Nat × EdgeMetadata))
  | [] => .ok ([], edges)
  | ek :: rest =>
    match alookup edges ek with
    | none => .error .invalidInternalState
    | some em =>
      match captureNodeEdges (eraseKey edges ek) rest with
      | .error e => .error e
      | .ok (ems, edges') => .ok (em :: ems, edges')

/-- Edge capture of `update_schema` (lines 631-637): collect every edge in
outgoing order (per node, in storage order), removing it from the table. -/
def captureEdges (edges : List (Nat × EdgeMetadata)) :
    List (Nat × NodeMetadata) →
    Except GError (List EdgeMetadata × List (Nat × EdgeMetadata))
  | [] => .ok ([], edges)
  | p :: rest =>
    match captureNodeEdges edges p.2.outgoing with
    | .error e => .error e
    | .ok (ems, edges') =>
      match captureEdges edges' rest with
      | .error e => .error e
      | .ok (ems2, edges'') => .ok (ems ++ ems2, edges'')

/-- Node loop of `update_schema` (lines 639-654): record each old key → id,
map the weight, enforce id stability, add to the new graph. -/
def updateNodesLoop (old_schema : Schema)
    (node_map : Schema → Schema → NWeight → Option NWeight)
    (node_id_lut : List (Nat × Nat)) (new_graph : TypedGraph) :
    List (Nat × NodeMetadata) →
    Except GError (List (Nat × Nat) × TypedGraph)
  | [] => .ok (node_id_lut, new_graph)
  | p :: rest =>
    let old_id := p.2.weight.id
    let lut := node_id_lut ++ [(p.1, old_id)]
    match node_map old_schema new_graph.schema p.2.weight with
    | none => updateNodesLoop old_schema node_map lut new_graph rest
    | some n =>
      if n.id ≠ old_id then .error (.inconsistentNodeIds old_id n.id)
      else
        match new_graph.add_node n with
        | (.error e, _) => .error e
        | (.ok _, ng) => updateNodesLoop old_schema node_map lut ng rest

/-- Edge loop of `update_schema` (lines 656-683): map each captured edge,
enforce id stability, skip edges with a removed endpoint, insert the rest
and silently drop quantity (`ToMany`) rejections. -/
def updateEdgesLoop (old_schema : Schema)
    (edge_map : Schema → Schema → EWeight → Option EWeight)
    (node_id_lut : List (Nat × Nat)) (new_graph : TypedGraph) :
    List EdgeMetadata → Except GError TypedGraph
  | [] => .ok new_graph
  | edge :: rest =>
    let old_id := edge.weight.id
    match edge_map old_schema new_graph.schema edge.weight with
    | none => updateEdgesLoop old_schema edge_map node_id_lut new_graph rest
    | some e =>
      if e.id ≠ old_id then .error (.inconsistentEdgeIds old_id e.id)
      else
        match alookup node_id_lut edge.source with
        | none => .error .invalidInternalState
        | some source_id =>
          match alookup node_id_lut edge.target with
          | none => .error .invalidInternalState
          | some target_id =>
            if new_graph.has_node source_id && new_graph.has_node target_id then
              match new_graph.add_edge source_id target_id e with
              | (.error (.invalidEdgeType _ _ _ .toMany), ng) =>
                updateEdgesLoop old_schema edge_map node_id_lut ng rest
              | (.error err, _) => .error err
              | (.ok _, ng) => updateEdgesLoop old_schema edge_map node_id_lut ng rest
            else updateEdgesLoop old_schema edge_map node_id_lut new_graph rest

/-- `update_schema`. -/
def update_schema (g : TypedGraph) (schema : Schema)
    (node_map : Schema → Schema → NWeight → Option NWeight)
    (edge_map : Schema → Schema → EWeight → Option EWeight) :
    Except GError TypedGraph :=
  let old_schema := g.schema
  let new_graph := TypedGraph.new schema
  match captureEdges g.edges g.nodes with
  | .error e => .error e
  | .ok (edges, _) =>
    match updateNodesLoop old_schema node_map [] new_graph g.nodes with
    | .error e => .error e
    | .ok (node_id_lut, ng) =>
      updateEdgesLoop old_schema edge_map node_id_lut ng edges

end TypedGraph

/- ### serialization (typed_graph.rs lines 719-866) -/

/-- `EdgeWriteDTO` / `EdgeReadDTO`: an edge weight with the logical ids of
its endpoints. -/
structure EdgeDTO where
  weight : EWeight
  source : Nat
  target : Nat
  deriving Repr, DecidableEq

/-- The serialized form: the map with the three fields `schema`, `nodes`,
`edges` in this order. -/
structure SGraph where
  schema : Schema
  nodes : List NWeight
  edges : List EdgeDTO

namespace TypedGraph

/-- `Serialize for TypedGraph` (lines 727-759): nodes in storage order,
edges in outgoing-adjacency order wrapped in DTOs. -/
def serialize (g : TypedGraph) : SGraph :=
  { schema := g.schema
    nodes := g.nodes.map (fun p => p.2.weight)
    edges := g.nodes.flatMap (fun p => p.2.outgoing.map (fun ek =>
      let e := unwrapD (alookup g.edges ek)
      { weight := e.weight
        source := (unwrapD (alookup g.nodes e.source)).weight.id
        target := (unwrapD (alookup g.nodes e.target)).weight.id })) }

/-- Node pass of `TypedGraphVisitor::visit_map` (lines 824-827). -/
def addNodesLoop (g : TypedGraph) : List NWeight → Except GError TypedGraph
  | [] => .ok g
  | w :: rest =>
    match g.add_node w with
    | (.error e, _) => .error e
    | (.ok _, g') => addNodesLoop g' rest

/-- Edge pass of `TypedGraphVisitor::visit_map` (lines 835-838). -/
def addEdgesLoop (g : TypedGraph) : List EdgeDTO → Except GError TypedGraph
  | [] => .ok g
  | d :: rest =>
    match g.add_edge d.source d.target d.weight with
    | (.error e, _) => .error e
    | (.ok _, g') => addEdgesLoop g' rest

/-- `TypedGraphVisitor::visit_map` (lines 805-842): build an empty store
from the schema, add every node, then add every edge in file order. -/
def deserialize (sg : SGraph) : Except GError TypedGraph :=
  match addNodesLoop (TypedGraph.new sg.schema) sg.nodes with
  | .error e => .error e
  | .ok g => addEdgesLoop g sg.edges

end TypedGraph

/- ### graph walker collecting terminals (graph_walker.rs lines 196-218) -/

/-- `WalkerTarget`. -/
structure WalkerTarget (T State : Type _) where
  val : T
  state : State

namespace GraphWalker

/-- `GraphWalker::many`: collect the values of every branch of the front,
propagating the first branch error. -/
def many (front : List (State × Except GError T)) : Except GError (List T) :=
  match front with
  | [] => .ok []
  | (_, .error e) :: _ => .error e
  | (_, .ok t) :: rest =>
    match many rest with
    | .error e => .error e
    | .ok ts => .ok (t :: ts)

/-- `GraphWalker::many_with_state`: collect value/state pairs of every
branch, propagating the first branch error. -/
def many_with_state (front : List (State × Except GError T)) :
    Except GError (List (WalkerTarget T State)) :=
  match front with
  | [] => .ok []
  | (_, .error e) :: _ => .error e
  | (state, .ok t) :: rest =>
    match many_with_state rest with
    | .error e => .error e
    | .ok ts => .ok ({ val := t, state := state } :: ts)

end GraphWalker

/- ### observations used to state the claims -/

namespace TypedGraph

/-- The outgoing order of a node as a sequence of logical edge ids. -/
def outEdgeIds (g : TypedGraph) (node_id : Nat) : Option (List Nat) := do
  let k ← alookup g.nodeLut node_id
  let m ← alookup g.nodes k
  some (m.outgoing.map (fun ek => (unwrapD (alookup g.edges ek)).weight.id))

/-- The outgoing order of a node as a sequence of edge types. -/
def outTypes (g : TypedGraph) (node_id : Nat) : Option (List Nat) := do
  let k ← alookup g.nodeLut node_id
  let m ← alookup g.nodes k
  some (m.outgoing.map (fun ek => (unwrapD (alookup g.edges ek)).weight.ty))

/-- The logical source/target ids of an edge, by logical edge id. -/
def edgeEnds (g : TypedGraph) (edge_id : Nat) : Option (Nat × Nat) := do
  let k ← alookup g.edgeLut edge_id
  let em ← alookup g.edges k
  let sm ← alookup g.nodes em.source
  let tm ← alookup g.nodes em.target
  some (sm.weight.id, tm.weight.id)

/-- `true` when the node at key `nk` exists and lists `ek` as outgoing. -/
def outContains (g : TypedGraph) (nk ek : Nat) : Bool :=
  match alookup g.nodes nk with
  | some m => ek ∈ m.outgoing
  | none => false

/-- `true` when the node at key `nk` exists and lists `ek` as incoming. -/
def inContains (g : TypedGraph) (nk ek : Nat) : Bool :=
  match alookup g.nodes nk with
  | some m => ek ∈ m.incoming
  | none => false

/-- The data-model invariants of the store (spec §3): key sets are
duplicate-free, the id→slot tables are bijections onto the live records
whose weights carry the same id, adjacency sets are duplicate-free and
sound (each entry is a live edge with the node as the matching endpoint)
and complete (each edge is registered at both endpoints), and the fresh-key
counters dominate all live keys. -/
def Inv (g : TypedGraph) : Prop :=
  (g.nodes.map Prod.fst).Nodup ∧
  (g.edges.map Prod.fst).Nodup ∧
  (g.nodeLut.map Prod.fst).Nodup ∧
  (g.edgeLut.map Prod.fst).Nodup ∧
  (∀ p ∈ g.nodeLut, (alookup g.nodes p.2).map (fun m => m.weight.id) = some p.1) ∧
  (∀ p ∈ g.nodes, alookup g.nodeLut p.2.weight.id = some p.1) ∧
  (∀ p ∈ g.edgeLut, (alookup g.edges p.2).map (fun m => m.weight.id) = some p.1) ∧
  (∀ p ∈ g.edges, alookup g.edgeLut p.2.weight.id = some p.1) ∧
  (∀ p ∈ g.nodes, p.2.outgoing.Nodup ∧ p.2.incoming.Nodup) ∧
  (∀ p ∈ g.nodes, ∀ ek ∈ p.2.outgoing,
    (alookup g.edges ek).map (fun e => e.source) = some p.1) ∧
  (∀ p ∈ g.nodes, ∀ ek ∈ p.2.incoming,
    (alookup g.edges ek).map (fun e => e.target) = some p.1) ∧
  (∀ p ∈ g.edges, outContains g p.2.source p.1 = true ∧
    inContains g p.2.target p.1 = true) ∧
  (∀ p ∈ g.nodes, p.1 < g.nextNodeKey) ∧
  (∀ p ∈ g.edges, p.1 < g.nextEdgeKey)

instance (g : TypedGraph) : Decidable g.Inv := by
  unfold TypedGraph.Inv
  infer_instance

/-- The (edge type, target type) class pair of a live edge key. -/
def classPairOf (g : TypedGraph) (ek : Nat) : Nat × Nat :=
  let em := unwrapD (alookup g.edges ek)
  (em.weight.ty, (unwrapD (alookup g.nodes em.target)).weight.ty)

end TypedGraph

/-- Count occurrences of a class pair. -/
def cntPair : List (Nat × Nat) → (Nat × Nat) → Nat
  | [], _ => 0
  | q :: rest, p => (if q = p then 1 else 0) + cntPair rest p

/-- Walk a node's outgoing class pairs in order and check that the schema
accepts every prefix count. -/
def prefixOkB (sch : Schema) (sty : Nat) :
    List (Nat × Nat) → List (Nat × Nat) → Bool
  | [], _ => true
  | p :: rest, seen =>
    (sch.allowEdge (cntPair seen p + 1) p.1 sty p.2).isNone &&
      prefixOkB sch sty rest (seen ++ [p])

namespace TypedGraph

/-- The store's contents are (re-)acceptable to its own schema: every node
type is allowed and, for every node, every successive outgoing class-count
is allowed.  This is exactly what makes re-adding the store's contents in
serialization order succeed. -/
def SchemaValid (g : TypedGraph) : Prop :=
  (∀ p ∈ g.nodes, g.schema.allowNode p.2.weight.ty = true) ∧
  (∀ p ∈ g.nodes,
    prefixOkB g.schema p.2.weight.ty (p.2.outgoing.map (classPairOf g)) [] = true)

end TypedGraph

/- ### canonical rebuilt store -/

/-- Type tag of the (first) weight with a given id in a node-weight list. -/
def tyIn (ns : List NWeight) (id : Nat) : Nat :=
  match ns with
  | [] => 0
  | w :: rest => if w.id = id then w.ty else tyIn rest id

/-- Whether a node-weight list carries the id. -/
def hasId (ns : List NWeight) (id : Nat) : Bool :=
  match ns with
  | [] => false
  | w :: rest => w.id = id || hasId rest id

/-- Key assigned to the (first) node with a given id when the weights are
inserted in list order into a fresh store. -/
def idIdx (ns : List NWeight) (id : Nat) : Nat :=
  match ns with
  | [] => 0
  | w :: rest => if w.id = id then 0 else idIdx rest id + 1

/-- The node lookup table after inserting the weights in order. -/
def lutOf (k0 : Nat) : List NWeight → List (Nat × Nat)
  | [] => []
  | w :: rest => (w.id, k0) :: lutOf (k0 + 1) rest

/-- The edge lookup table after inserting the DTOs in order. -/
def elutOf (k0 : Nat) : List EdgeDTO → List (Nat × Nat)
  | [] => []
  | d :: rest => (d.weight.id, k0) :: elutOf (k0 + 1) rest

/-- The edge table after inserting the DTOs in order. -/
def edgesOf (ns : List NWeight) (k0 : Nat) :
    List EdgeDTO → List (Nat × EdgeMetadata)
  | [] => []
  | d :: rest =>
    (k0, ⟨d.weight, idIdx ns d.source, idIdx ns d.target⟩) ::
      edgesOf ns (k0 + 1) rest

/-- The outgoing key order a node with id `id` accumulates when the DTOs
are inserted in order starting at key `k0`. -/
def outKeysOf (id k0 : Nat) : List EdgeDTO → List Nat
  | [] => []
  | d :: rest =>
    if d.source = id then k0 :: outKeysOf id (k0 + 1) rest
    else outKeysOf id (k0 + 1) rest

/-- The incoming key set a node with id `id` accumulates when the DTOs are
inserted in order starting at key `k0`. -/
def inKeysOf (id k0 : Nat) : List EdgeDTO → List Nat
  | [] => []
  | d :: rest =>
    if d.target = id then k0 :: inKeysOf id (k0 + 1) rest
    else inKeysOf id (k0 + 1) rest

/-- The node table after inserting the weights in order and then the DTOs
in order. -/
def nodesOf (dtos : List EdgeDTO) (k0 : Nat) :
    List NWeight → List (Nat × NodeMetadata)
  | [] => []
  | w :: rest =>
    (k0, ⟨w, inKeysOf w.id 0 dtos, outKeysOf w.id 0 dtos⟩) ::
      nodesOf dtos (k0 + 1) rest

/-- The store obtained from a fresh store by adding the node weights in
order and then the edge DTOs in order, when every insertion is accepted. -/
def mkGraph (sch : Schema) (ns : List NWeight) (dtos : List EdgeDTO) :
    TypedGraph :=
  { nodeLut := lutOf 0 ns
    edgeLut := elutOf 0 dtos
    nodes := nodesOf dtos 0 ns
    edges := edgesOf ns 0 dtos
    nextNodeKey := ns.length
    nextEdgeKey := dtos.length
    schema := sch }

/-- Count, in a DTO list, the edges from source `src` whose weight type is
`ety` and whose target's type (per `ns`) is `tty`. -/
def classCnt (ns : List NWeight) (src ety tty : Nat) : List EdgeDTO → Nat
  | [] => 0
  | d :: rest =>
    (if d.source = src ∧ d.weight.ty = ety ∧ tyIn ns d.target = tty then 1 else 0)
      + classCnt ns src ety tty rest

/-- Specification of the deserialization edge pass: each DTO in turn is
offered to the schema at one more than the current same-class count; any
rejection aborts. -/
def sieveStrict (sch : Schema) (ns : List NWeight) (kept : List EdgeDTO) :
    List EdgeDTO → Except GError (List EdgeDTO)
  | [] => .ok kept
  | d :: rest =>
    match sch.allowEdge (classCnt ns d.source d.weight.ty (tyIn ns d.target) kept + 1)
        d.weight.ty (tyIn ns d.source) (tyIn ns d.target) with
    | none => sieveStrict sch ns (kept ++ [d]) rest
    | some e =>
      .error (.invalidEdgeType d.weight.ty (tyIn ns d.source) (tyIn ns d.target) e)

/-- Specification of the node pass of `update_schema`: map each weight,
fail on an id change, fail on a disallowed node type, keep the rest. -/
def mapNodesSpec (os nsch : Schema)
    (nm : Schema → Schema → NWeight → Option NWeight) :
    List NWeight → Except GError (List NWeight)
  | [] => .ok []
  | w :: rest =>
    match nm os nsch w with
    | none => mapNodesSpec os nsch nm rest
    | some n =>
      if n.id ≠ w.id then .error (.inconsistentNodeIds w.id n.id)
      else if nsch.allowNode n.ty = false then .error (.invalidNodeType n.ty)
      else
        match mapNodesSpec os nsch nm rest with
        | .error e => .error e
        | .ok ws => .ok (n :: ws)

/-- Specification of the edge pass of `update_schema`: map each DTO's
weight, fail on an id change, skip DTOs with a dropped endpoint, offer the
rest to the schema at one more than the current same-class count; a
quantity (`ToMany`) rejection drops the edge silently, any other rejection
aborts. -/
def sieveDrop (os nsch : Schema)
    (em : Schema → Schema → EWeight → Option EWeight)
    (alive : List NWeight) (kept : List EdgeDTO) :
    List EdgeDTO → Except GError (List EdgeDTO)
  | [] => .ok kept
  | d :: rest =>
    match em os nsch d.weight with
    | none => sieveDrop os nsch em alive kept rest
    | some e =>
      if e.id ≠ d.weight.id then .error (.inconsistentEdgeIds d.weight.id e.id)
      else if hasId alive d.source && hasId alive d.target then
        match nsch.allowEdge
            (classCnt alive d.source e.ty (tyIn alive d.target) kept + 1)
            e.ty (tyIn alive d.source) (tyIn alive d.target) with
        | none => sieveDrop os nsch em alive (kept ++ [⟨e, d.source, d.target⟩]) rest
        | some .toMany => sieveDrop os nsch em alive kept rest
        | some .invalidType =>
          .error (.invalidEdgeType e.ty (tyIn alive d.source) (tyIn alive d.target)
            .invalidType)
      else sieveDrop os nsch em alive kept rest

/- ### concrete stores used in examples and witnesses -/

/-- A schema that accepts everything. -/
def allSchema : Schema := ⟨fun _ => true, fun _ _ _ _ => none⟩

/-- Two nodes of type 0 with ids 0 and 1. -/
def exg2 : TypedGraph :=
  (((TypedGraph.new allSchema).add_node ⟨0, 0, 0⟩).2.add_node ⟨1, 0, 0⟩).2

/-- Five edges `0 → 1` with ids and types `[0,1,2,3,4]`, inserted in order
(the store of the repository's `edge_order` test). -/
def exg5 : TypedGraph :=
  (((((exg2.add_edge 0 1 ⟨0, 0, 0⟩).2.add_edge 0 1 ⟨1, 1, 0⟩).2.add_edge 0 1
    ⟨2, 2, 0⟩).2.add_edge 0 1 ⟨3, 3, 0⟩).2.add_edge 0 1 ⟨4, 4, 0⟩).2

/-- Three nodes (ids 0, 1, 2, all type 0) and one edge `0 → 1`
(id 0, type 5). -/
def exgC1 : TypedGraph :=
  ((exg2.add_node ⟨2, 0, 0⟩).2.add_edge 0 1 ⟨0, 5, 0⟩).2

/- ### C10 -/

/-- Claim C10: for every store, every edge id `e` (live or not) and either
insert position, `move_edge_order(e, e, position)` returns `Ok(())` and
leaves the store unchanged — the identity check precedes every existence
and shared-source validation, so no missing-edge or invalid-edge-move error
is raised when the two ids are equal. -/
theorem move_edge_order_self_noop (g : TypedGraph) (e : Nat)
    (p : InsertPosition) : g.move_edge_order e e p = (.ok (), g) := by
  simp [TypedGraph.move_edge_order]

/- ### C5 -/

/-- Claim C5: with five outgoing edges of types `[0,1,2,3,4]` from node A
to node B, moving the type-3 edge before the type-1 edge yields
`[0,3,1,2,4]`; moving it after the type-1 edge yields `[0,1,3,2,4]`; and
moving any edge before or after itself is the identity on the store. -/
theorem move_edge_order_cases :
    (exg5.outTypes 0 = some [0, 1, 2, 3, 4]) ∧
    ((exg5.move_edge_order 3 1 .before).1 = .ok () ∧
      (exg5.move_edge_order 3 1 .before).2.outTypes 0 = some [0, 3, 1, 2, 4]) ∧
    ((exg5.move_edge_order 3 1 .after).1 = .ok () ∧
      (exg5.move_edge_order 3 1 .after).2.outTypes 0 = some [0, 1, 3, 2, 4]) ∧
    (∀ (g : TypedGraph) (e : Nat) (p : InsertPosition),
      g.move_edge_order e e p = (.ok (), g)) := by
  refine ⟨by decide, ⟨by decide, by decide⟩, ⟨by decide, by decide⟩, ?_⟩
  intro g e p
  simp [TypedGraph.move_edge_order]

/- ### C9 -/

/-- Claim C9: the collecting walker terminals `many` and `many_with_state`
propagate a branch error to the caller and abort the whole collection
whenever any branch of the front produced an error; an errored branch is
never silently excluded. -/
theorem walker_many_propagates_error {State T : Type}
    (front : List (State × Except GError T))
    (h : ∃ s e, (s, Except.error e) ∈ front) :
    ∃ e, GraphWalker.many front = .error e ∧
      GraphWalker.many_with_state front = .error e ∧
      (∃ s, (s, Except.error e) ∈ front) ∧
      (∀ l, GraphWalker.many front ≠ .ok l) := by
  induction front with
  | nil => obtain ⟨s, e, hm⟩ := h; simp at hm
  | cons hd rest ih =>
    obtain ⟨s, e, hm⟩ := h
    obtain ⟨s0, r0⟩ := hd
    cases r0 with
    | error e0 =>
      refine ⟨e0, ?_, ?_, ⟨s0, List.mem_cons_self _ _⟩, ?_⟩ <;>
        simp [GraphWalker.many, GraphWalker.many_with_state]
    | ok t0 =>
      have hrest : ∃ s e, (s, Except.error e) ∈ rest := by
        rcases List.mem_cons.mp hm with h1 | h1
        · cases h1
        · exact ⟨s, e, h1⟩
      obtain ⟨e1, hmany, hmanys, ⟨s1, hs1⟩, _⟩ := ih hrest
      refine ⟨e1, ?_, ?_, ⟨s1, List.mem_cons_of_mem _ hs1⟩, ?_⟩
      · simp [GraphWalker.many, hmany]
      · simp [GraphWalker.many_with_state, hmanys]
      · intro l
        simp [GraphWalker.many, hmany]

/-- Witness for C9 at a concrete front with one surviving and one errored
branch. -/
theorem walker_many_propagates_error_witness :
    (∃ s e, (s, Except.error e) ∈
      [((0 : Nat), Except.ok (1 : Nat)),
        (0, Except.error GError.invalidInternalState)]) ∧
    ∃ e, GraphWalker.many
        [((0 : Nat), Except.ok (1 : Nat)),
          (0, Except.error GError.invalidInternalState)] = .error e ∧
      GraphWalker.many_with_state
        [((0 : Nat), Except.ok (1 : Nat)),
          (0, Except.error GError.invalidInternalState)] = .error e ∧
      (∃ s, (s, Except.error e) ∈
        [((0 : Nat), Except.ok (1 : Nat)),
          (0, Except.error GError.invalidInternalState)]) ∧
      (∀ l, GraphWalker.many
        [((0 : Nat), Except.ok (1 : Nat)),
          (0, Except.error GError.invalidInternalState)] ≠ .ok l) :=
  ⟨⟨0, GError.invalidInternalState, by decide⟩,
    walker_many_propagates_error _ ⟨0, GError.invalidInternalState, by decide⟩⟩

/- ### C1 -/

/-- Claim C1 (code bug): on `exgC1`, re-adding edge id 0 with a changed
source (`add_edge(2, 1, edge-id-0)`) succeeds and replaces the weight, but
the edge record still reports the old endpoints `(0, 1)`, the edge slot is
missing from the new source's outgoing order, and it has also been removed
from the old source's outgoing order — the update branch removes the slot
from the old source twice and never appends it to the new source, because
`source_key` is shadowed by the record's old source key. -/
theorem add_edge_endpoint_update_bug :
    ((exgC1.add_edge 2 1 ⟨0, 5, 9⟩).1 = .ok 0) ∧
    ((exgC1.add_edge 2 1 ⟨0, 5, 9⟩).2.get_edge_safe 0 = some ⟨0, 5, 9⟩) ∧
    ((exgC1.add_edge 2 1 ⟨0, 5, 9⟩).2.edgeEnds 0 = some (0, 1)) ∧
    ((exgC1.add_edge 2 1 ⟨0, 5, 9⟩).2.outEdgeIds 2 = some []) ∧
    ((exgC1.add_edge 2 1 ⟨0, 5, 9⟩).2.outEdgeIds 0 = some []) ∧
    ¬ ((exgC1.add_edge 2 1 ⟨0, 5, 9⟩).2.edgeEnds 0 = some (2, 1)) := by
  decide

/- ### basic lemmas about the table helpers -/

theorem alookup_mem {l : List (Nat × α)} {k : Nat} {v : α}
    (h : alookup l k = some v) : (k, v) ∈ l := by
  induction l with
  | nil => simp [alookup] at h
  | cons p rest ih =>
    by_cases hk : p.1 = k
    · simp [alookup, hk] at h
      subst h
      have hp : p = (k, p.2) := by
        rw [← hk]
      exact hp ▸ List.mem_cons_self _ _
    · simp [alookup, hk] at h
      exact List.mem_cons_of_mem _ (ih h)

theorem alookup_modifyVal (l : List (Nat × α)) (k j : Nat) (f : α → α) :
    alookup (modifyVal l k f) j =
      if j = k then (alookup l j).map f else alookup l j := by
  induction l with
  | nil => by_cases h : j = k <;> simp [alookup, modifyVal, h]
  | cons p rest ih =>
    by_cases hpk : p.1 = k <;> by_cases hpj : p.1 = j
    · have hjk : j = k := hpj ▸ hpk
      simp [alookup, modifyVal, hpk, hpj, hjk]
    · have hjk : ¬ j = k := fun h => hpj (h ▸ hpk)
      have hkj : ¬ k = j := fun h => hjk h.symm
      simp [alookup, modifyVal, hpk, hpj, hjk, hkj] at ih ⊢
      exact ih
    · have hjk : ¬ j = k := fun h => hpk (h ▸ hpj)
      simp [alookup, modifyVal, hpk, hpj, hjk]
    · simp [alookup, modifyVal, hpk, hpj] at ih ⊢
      exact ih

theorem alookup_eraseKey (l : List (Nat × α)) (k j : Nat) :
    alookup (eraseKey l k) j = if j = k then none else alookup l j := by
  induction l with
  | nil => by_cases h : j = k <;> simp [alookup, eraseKey, h]
  | cons p rest ih =>
    by_cases hpk : p.1 = k <;> by_cases hpj : p.1 = j
    · have hjk : j = k := hpj ▸ hpk
      subst hjk
      simp [eraseKey, hpk, ih]
    · have hjk : ¬ j = k := fun h => hpj (h ▸ hpk)
      have hkj : ¬ k = j := fun h => hjk h.symm
      simp [alookup, eraseKey, hpk, hpj, hjk, hkj, ih]
    · have hjk : ¬ j = k := fun h => hpk (h ▸ hpj)
      simp [alookup, eraseKey, hpk, hpj, hjk]
    · simp [alookup, eraseKey, hpk, hpj, ih]

theorem alookup_append_some {l1 : List (Nat × α)} {k : Nat} {v : α}
    (l2 : List (Nat × α)) (h : alookup l1 k = some v) :
    alookup (l1 ++ l2) k = some v := by
  induction l1 with
  | nil => simp [alookup] at h
  | cons p rest ih =>
    by_cases hpk : p.1 = k <;> simp [alookup, hpk] at h ⊢
    · exact h
    · exact ih h

theorem alookup_append_none {l1 : List (Nat × α)} {k : Nat}
    (l2 : List (Nat × α)) (h : alookup l1 k = none) :
    alookup (l1 ++ l2) k = alookup l2 k := by
  induction l1 with
  | nil => simp
  | cons p rest ih =>
    by_cases hpk : p.1 = k <;> simp [alookup, hpk] at h ⊢
    exact ih h

@[simp] theorem okOr_some (a : α) (e : GError) : okOr (some a) e = .ok a := rfl

@[simp] theorem okOr_none (e : GError) : okOr (none : Option α) e = .error e := rfl

@[simp] theorem unwrapD_some [Inhabited α] (a : α) : unwrapD (some a) = a := rfl

/- ### consequences of the invariants -/

namespace TypedGraph

theorem Inv.nodesNodup {g : TypedGraph} (h : g.Inv) :
    (g.nodes.map Prod.fst).Nodup := h.1

theorem Inv.edgesNodup {g : TypedGraph} (h : g.Inv) :
    (g.edges.map Prod.fst).Nodup := h.2.1

theorem Inv.nlutNodup {g : TypedGraph} (h : g.Inv) :
    (g.nodeLut.map Prod.fst).Nodup := h.2.2.1

theorem Inv.elutNodup {g : TypedGraph} (h : g.Inv) :
    (g.edgeLut.map Prod.fst).Nodup := h.2.2.2.1

theorem Inv.nlutSound {g : TypedGraph} (h : g.Inv) :
    ∀ p ∈ g.nodeLut,
      (alookup g.nodes p.2).map (fun m => m.weight.id) = some p.1 :=
  h.2.2.2.2.1

theorem Inv.nlutComplete {g : TypedGraph} (h : g.Inv) :
    ∀ p ∈ g.nodes, alookup g.nodeLut p.2.weight.id = some p.1 :=
  h.2.2.2.2.2.1

theorem Inv.elutSound {g : TypedGraph} (h : g.Inv) :
    ∀ p ∈ g.edgeLut,
      (alookup g.edges p.2).map (fun m => m.weight.id) = some p.1 :=
  h.2.2.2.2.2.2.1

theorem Inv.elutComplete {g : TypedGraph} (h : g.Inv) :
    ∀ p ∈ g.edges, alookup g.edgeLut p.2.weight.id = some p.1 :=
  h.2.2.2.2.2.2.2.1

theorem Inv.adjNodup {g : TypedGraph} (h : g.Inv) :
    ∀ p ∈ g.nodes, p.2.outgoing.Nodup ∧ p.2.incoming.Nodup :=
  h.2.2.2.2.2.2.2.2.1

theorem Inv.outSound {g : TypedGraph} (h : g.Inv) :
    ∀ p ∈ g.nodes, ∀ ek ∈ p.2.outgoing,
      (alookup g.edges ek).map (fun e => e.source) = some p.1 :=
  h.2.2.2.2.2.2.2.2.2.1

theorem Inv.inSound {g : TypedGraph} (h : g.Inv) :
    ∀ p ∈ g.nodes, ∀ ek ∈ p.2.incoming,
      (alookup g.edges ek).map (fun e => e.target) = some p.1 :=
  h.2.2.2.2.2.2.2.2.2.2.1

theorem Inv.edgeInOut {g : TypedGraph} (h : g.Inv) :
    ∀ p ∈ g.edges, outContains g p.2.source p.1 = true ∧
      inContains g p.2.target p.1 = true :=
  h.2.2.2.2.2.2.2.2.2.2.2.1

theorem Inv.nodeKeyLt {g : TypedGraph} (h : g.Inv) :
    ∀ p ∈ g.nodes, p.1 < g.nextNodeKey :=
  h.2.2.2.2.2.2.2.2.2.2.2.2.1

theorem Inv.edgeKeyLt {g : TypedGraph} (h : g.Inv) :
    ∀ p ∈ g.edges, p.1 < g.nextEdgeKey :=
  h.2.2.2.2.2.2.2.2.2.2.2.2.2

/-- A live edge's source node is live and lists the edge as outgoing. -/
theorem edge_source_live {g : TypedGraph} (hInv : g.Inv) {ek : Nat}
    {em : EdgeMetadata} (h : alookup g.edges ek = some em) :
    ∃ m, alookup g.nodes em.source = some m ∧ ek ∈ m.outgoing := by
  have h2 := (hInv.edgeInOut _ (alookup_mem h)).1
  unfold outContains at h2
  cases hnd : alookup g.nodes em.source with
  | none => rw [hnd] at h2; simp at h2
  | some m =>
    rw [hnd] at h2
    simp at h2
    exact ⟨m, rfl, h2⟩

/-- A live edge's target node is live and lists the edge as incoming. -/
theorem edge_target_live {g : TypedGraph} (hInv : g.Inv) {ek : Nat}
    {em : EdgeMetadata} (h : alookup g.edges ek = some em) :
    ∃ m, alookup g.nodes em.target = some m ∧ ek ∈ m.incoming := by
  have h2 := (hInv.edgeInOut _ (alookup_mem h)).2
  unfold inContains at h2
  cases hnd : alookup g.nodes em.target with
  | none => rw [hnd] at h2; simp at h2
  | some m =>
    rw [hnd] at h2
    simp at h2
    exact ⟨m, rfl, h2⟩

/-- A live node's id maps back to its key. -/
theorem node_key_lookup {g : TypedGraph} (hInv : g.Inv) {k : Nat}
    {m : NodeMetadata} (h : alookup g.nodes k = some m) :
    alookup g.nodeLut m.weight.id = some k :=
  hInv.nlutComplete _ (alookup_mem h)

/-- A node-lut entry points at a live node carrying the same id. -/
theorem lut_node {g : TypedGraph} (hInv : g.Inv) {id k : Nat}
    (h : alookup g.nodeLut id = some k) :
    ∃ m, alookup g.nodes k = some m ∧ m.weight.id = id := by
  have h2 := hInv.nlutSound _ (alookup_mem h)
  cases hm : alookup g.nodes k with
  | none => rw [hm] at h2; simp at h2
  | some m =>
    rw [hm] at h2
    simp at h2
    exact ⟨m, rfl, h2⟩

/-- An edge-lut entry points at a live edge carrying the same id. -/
theorem lut_edge {g : TypedGraph} (hInv : g.Inv) {id k : Nat}
    (h : alookup g.edgeLut id = some k) :
    ∃ em, alookup g.edges k = some em ∧ em.weight.id = id := by
  have h2 := hInv.elutSound _ (alookup_mem h)
  cases hm : alookup g.edges k with
  | none => rw [hm] at h2; simp at h2
  | some em =>
    rw [hm] at h2
    simp at h2
    exact ⟨em, rfl, h2⟩

/-- `get_node_safe` finds a live node by the id it carries. -/
theorem get_node_safe_of_key {g : TypedGraph} (hInv : g.Inv) {k : Nat}
    {m : NodeMetadata} (h : alookup g.nodes k = some m) :
    g.get_node_safe m.weight.id = some m.weight := by
  simp [get_node_safe, node_key_lookup hInv h, h]

/-- `quantityLoop` succeeds when every reference's target id is live. -/
theorem quantityLoop_ok (g : TypedGraph) (ety tty : Nat) (refs : List EdgeRef)
    (h : ∀ r ∈ refs, (g.get_node_safe r.target).isSome) :
    ∃ q, quantityLoop g ety tty refs = .ok q := by
  induction refs with
  | nil => exact ⟨0, rfl⟩
  | cons r rest ih =>
    obtain ⟨q, hq⟩ := ih (fun r hr => h r (List.mem_cons_of_mem _ hr))
    by_cases hty : r.weight.ty ≠ ety
    · exact ⟨q, by simpa [quantityLoop, hty] using hq⟩
    · have hs := h r (List.mem_cons_self _ _)
      cases hW : g.get_node_safe r.target with
      | none => rw [hW] at hs; simp at hs
      | some wt =>
        by_cases htt : wt.ty ≠ tty
        · exact ⟨q, by simp [quantityLoop, hty, get_node, hW, hq, htt]⟩
        · exact ⟨q + 1, by simp [quantityLoop, hty, get_node, hW, hq, htt]⟩

/-- Every outgoing reference of a live node has a live target id. -/
theorem outgoing_targets_live {g : TypedGraph} (hInv : g.Inv) {k : Nat}
    {m : NodeMetadata} (h : alookup g.nodes k = some m) :
    ∀ r ∈ m.outgoing.map
      (fun ek => g.refOf (unwrapD (alookup g.edges ek)) .outgoing),
      (g.get_node_safe r.target).isSome := by
  intro r hr
  obtain ⟨ek, hek, rfl⟩ := List.mem_map.mp hr
  have hsound := hInv.outSound _ (alookup_mem h) ek hek
  cases hem : alookup g.edges ek with
  | none => rw [hem] at hsound; simp at hsound
  | some em =>
    obtain ⟨mt, hmt, _⟩ := edge_target_live hInv hem
    simp only [refOf, unwrapD, hem, Option.getD_some, hmt]
    rw [get_node_safe_of_key hInv hmt]
    simp

/-- `edgeClassQuantity` succeeds on a live source id. -/
theorem edgeClassQuantity_ok {g : TypedGraph} (hInv : g.Inv) {src_id k : Nat}
    (h : alookup g.nodeLut src_id = some k) (ety tty : Nat) :
    ∃ q, g.edgeClassQuantity src_id ety tty = .ok q := by
  obtain ⟨m, hm, _⟩ := lut_node hInv h
  obtain ⟨q, hq⟩ := quantityLoop_ok g ety tty _ (outgoing_targets_live hInv hm)
  exact ⟨q, by simp [edgeClassQuantity, get_outgoing, h, get_node_internal, hm, hq]⟩

end TypedGraph

namespace TypedGraph

/-- Under the invariants the re-validation loop of `add_node` only fails
with an `InvalidEdgeType` schema rejection. -/
theorem checkIncidentEdges_shape {g : TypedGraph} (hInv : g.Inv)
    {node_key : Nat} (w : NWeight)
    (hlut : alookup g.nodeLut w.id = some node_key)
    (eks : List Nat)
    (heks : ∀ ek ∈ eks, (alookup g.edges ek).isSome) :
    checkIncidentEdges g node_key w eks = .ok () ∨
      ∃ a b c r₀, checkIncidentEdges g node_key w eks =
        .error (.invalidEdgeType a b c r₀) := by
  induction eks with
  | nil => exact Or.inl rfl
  | cons ek rest ih =>
    have hek := heks ek (List.mem_cons_self _ _)
    cases hem : alookup g.edges ek with
    | none => rw [hem] at hek; simp at hek
    | some em =>
      have hsrc : ∃ sn kk, (if em.source = node_key then Except.ok w else
          match g.get_node_internal em.source with
          | .error e => .error e
          | .ok m => .ok m.weight) = Except.ok sn ∧
          alookup g.nodeLut sn.id = some kk := by
        by_cases hsk : em.source = node_key
        · exact ⟨w, node_key, by simp [hsk], hlut⟩
        · obtain ⟨ms, hms, _⟩ := edge_source_live hInv hem
          exact ⟨ms.weight, em.source,
            by simp [hsk, get_node_internal, hms], node_key_lookup hInv hms⟩
      have htgt : ∃ tn, (if em.target = node_key then Except.ok w else
          match g.get_node_internal em.target with
          | .error e => .error e
          | .ok m => .ok m.weight) = Except.ok tn := by
        by_cases htk : em.target = node_key
        · exact ⟨w, by simp [htk]⟩
        · obtain ⟨mt, hmt, _⟩ := edge_target_live hInv hem
          exact ⟨mt.weight, by simp [htk, get_node_internal, hmt]⟩
      obtain ⟨sn, kk, hsn, hkk⟩ := hsrc
      obtain ⟨tn, htn⟩ := htgt
      obtain ⟨q, hq⟩ := edgeClassQuantity_ok hInv hkk em.weight.ty tn.ty
      cases hallow : g.schema.allowEdge (q + 1) em.weight.ty sn.ty tn.ty with
      | some r₀ =>
        right
        exact ⟨em.weight.ty, sn.ty, tn.ty, r₀,
          by simp [checkIncidentEdges, get_edge_internal, hem, hsn, htn, hq, hallow]⟩
      | none =>
        rcases ih (fun e he => heks e (List.mem_cons_of_mem _ he)) with h | h
        · left
          simp [checkIncidentEdges, get_edge_internal, hem, hsn, htn, hq, hallow, h]
        · right
          obtain ⟨a, b, c, r₀, hr⟩ := h
          exact ⟨a, b, c, r₀,
            by simp [checkIncidentEdges, get_edge_internal, hem, hsn, htn, hq,
              hallow, hr]⟩

/-- Claim C4: replacing a node at an existing id by a weight of a different
runtime type never changes the id; when the schema rejects some incident
edge re-validated against the new type, `add_node` returns the
`InvalidEdgeType` rejection and the entire store is unchanged; when every
incident edge validates, only the node's weight is replaced — the lookup
tables, the edge records and every adjacency set are untouched. -/
theorem add_node_type_change_atomic (g : TypedGraph) (w : NWeight)
    (hInv : g.Inv) (node_key : Nat) (node : NodeMetadata)
    (hlut : alookup g.nodeLut w.id = some node_key)
    (hnode : alookup g.nodes node_key = some node)
    (hty : node.weight.ty ≠ w.ty)
    (hallow : g.schema.allowNode w.ty = true) :
    (∃ e, checkIncidentEdges g node_key w (node.incoming ++ node.outgoing) =
        .error e ∧
      g.add_node w = (.error e, g) ∧
      ∃ a b c r₀, e = .invalidEdgeType a b c r₀) ∨
    (checkIncidentEdges g node_key w (node.incoming ++ node.outgoing) = .ok () ∧
      g.add_node w = (.ok w.id, g.setNodeWeight node_key w) ∧
      (g.setNodeWeight node_key w).get_node_safe w.id = some w ∧
      (∀ id, id ≠ w.id →
        (g.setNodeWeight node_key w).get_node_safe id = g.get_node_safe id) ∧
      (g.setNodeWeight node_key w).edges = g.edges ∧
      (g.setNodeWeight node_key w).edgeLut = g.edgeLut ∧
      (g.setNodeWeight node_key w).nodeLut = g.nodeLut ∧
      (∀ k, (alookup (g.setNodeWeight node_key w).nodes k).map
          (fun m => m.incoming) = (alookup g.nodes k).map (fun m => m.incoming)) ∧
      (∀ k, (alookup (g.setNodeWeight node_key w).nodes k).map
          (fun m => m.outgoing) = (alookup g.nodes k).map (fun m => m.outgoing))) := by
  have heks : ∀ ek ∈ node.incoming ++ node.outgoing,
      (alookup g.edges ek).isSome := by
    intro ek hek
    rcases List.mem_append.mp hek with h | h
    · have := hInv.inSound _ (alookup_mem hnode) ek h
      cases he : alookup g.edges ek with
      | none => rw [he] at this; simp at this
      | some _ => simp
    · have := hInv.outSound _ (alookup_mem hnode) ek h
      cases he : alookup g.edges ek with
      | none => rw [he] at this; simp at this
      | some _ => simp
  have hidw : node.weight.id = w.id := by
    have h2 := hInv.nlutSound _ (alookup_mem hlut)
    rw [hnode] at h2
    simpa using h2
  rcases checkIncidentEdges_shape hInv w hlut (node.incoming ++ node.outgoing)
      heks with hchk | hchk
  · right
    refine ⟨hchk, ?_, ?_, ?_, rfl, rfl, rfl, ?_, ?_⟩
    · simp [add_node, hallow, hlut, hnode, hty, hchk]
    · simp [get_node_safe, setNodeWeight, hlut, alookup_modifyVal, hnode]
    · intro id hid
      simp only [get_node_safe, setNodeWeight]
      cases hk : alookup g.nodeLut id with
      | none => simp
      | some k =>
        have hkne : k ≠ node_key := by
          intro hkeq
          subst hkeq
          have h2 := hInv.nlutSound _ (alookup_mem hk)
          rw [hnode] at h2
          simp at h2
          exact hid (h2.symm.trans hidw)
        simp [alookup_modifyVal, hkne]
    · intro k
      by_cases hk : k = node_key <;>
        simp [setNodeWeight, alookup_modifyVal, hk, hnode]
    · intro k
      by_cases hk : k = node_key <;>
        simp [setNodeWeight, alookup_modifyVal, hk, hnode]
  · obtain ⟨a, b, c, r₀, hr⟩ := hchk
    left
    exact ⟨_, hr, by simp [add_node, hallow, hlut, hnode, hty, hr], a, b, c, r₀, rfl⟩

end TypedGraph

/-- Witness for C4: replacing node 1 of `exgC1` (type 0, one incoming edge)
by a weight of type 3 keeps the id. -/
theorem add_node_type_change_atomic_witness :
    exgC1.Inv ∧ (exgC1.add_node ⟨1, 3, 7⟩).1 = .ok 1 := by
  have h := TypedGraph.add_node_type_change_atomic exgC1 ⟨1, 3, 7⟩ (by decide) 1
    ⟨⟨1, 0, 0⟩, [0], []⟩ (by decide) (by decide) (by decide) (by decide)
  refine ⟨by decide, ?_⟩
  rcases h with ⟨e, hc, _, _⟩ | ⟨_, ha, _⟩
  · rw [show TypedGraph.checkIncidentEdges exgC1 1 ⟨1, 3, 7⟩ ([0] ++ []) =
      .ok () from by decide] at hc
    cases hc
  · rw [ha]

/- ### C6: counterexample (update of an already-counted edge) -/

/-- Two nodes 0,1 (type 0) and one edge id 0 of type 5 from 0 to 1. -/
def exgC6 : TypedGraph := (exg2.add_edge 0 1 ⟨0, 5, 0⟩).2

/-- Claim C6 as stated is false on the update path: re-adding edge id 0
(same source, same type, same target type) passes `quantity + 1 = 2` to
`allow_edge`, but after the call completes only `1` edge of the
(type 5, target-type 0) combination leaves node 0 — the edge being updated
is itself included in the pre-count. -/
theorem add_edge_update_quantity_cex :
    exgC6.edgeClassQuantity 0 5 0 = .ok 1 ∧
    (exgC6.add_edge 0 1 ⟨0, 5, 1⟩).1 = .ok 0 ∧
    (exgC6.add_edge 0 1 ⟨0, 5, 1⟩).2.edgeClassQuantity 0 5 0 = .ok 1 ∧
    1 + 1 ≠ 1 := by
  decide

/- ### the insert path of add_edge and its quantity accounting -/

theorem alookup_lt_none {l : List (Nat × α)} {K : Nat}
    (h : ∀ p ∈ l, p.1 < K) : alookup l K = none := by
  cases hv : alookup l K with
  | none => rfl
  | some v => exact absurd (h _ (alookup_mem hv)) (lt_irrefl K)

theorem unwrapD_weight_eq {o1 o2 : Option NodeMetadata}
    (h : o1.map (fun m => m.weight) = o2.map (fun m => m.weight)) :
    (unwrapD o1).weight = (unwrapD o2).weight := by
  cases o1 <;> cases o2 <;> simp [unwrapD] at h ⊢ <;> first | exact h | rfl

namespace TypedGraph

theorem pushEdge_nodeLut (g : TypedGraph) (sk tk : Nat) (w : EWeight) :
    (g.pushEdge sk tk w).nodeLut = g.nodeLut := rfl

theorem pushEdge_edgeLut (g : TypedGraph) (sk tk : Nat) (w : EWeight) :
    (g.pushEdge sk tk w).edgeLut = g.edgeLut ++ [(w.id, g.nextEdgeKey)] := rfl

theorem pushEdge_edges (g : TypedGraph) (sk tk : Nat) (w : EWeight) :
    (g.pushEdge sk tk w).edges =
      g.edges ++ [(g.nextEdgeKey, ⟨w, sk, tk⟩)] := rfl

theorem pushEdge_nodes (g : TypedGraph) (sk tk : Nat) (w : EWeight) :
    (g.pushEdge sk tk w).nodes =
      modifyVal (modifyVal g.nodes sk (fun m =>
          { m with outgoing := isetInsert m.outgoing g.nextEdgeKey })) tk
        (fun m => { m with incoming := isetInsert m.incoming g.nextEdgeKey }) :=
  rfl

theorem alookup_modifyVal_map_weight (l : List (Nat × NodeMetadata))
    (k j : Nat) (f : NodeMetadata → NodeMetadata)
    (hf : ∀ m, (f m).weight = m.weight) :
    (alookup (modifyVal l k f) j).map (fun m => m.weight) =
      (alookup l j).map (fun m => m.weight) := by
  rw [alookup_modifyVal]
  by_cases h : j = k
  · subst h
    cases alookup l j <;> simp [hf]
  · simp [h]

theorem pushEdge_nodes_weight (g : TypedGraph) (sk tk : Nat) (w : EWeight)
    (k : Nat) :
    (alookup (g.pushEdge sk tk w).nodes k).map (fun m => m.weight) =
      (alookup g.nodes k).map (fun m => m.weight) := by
  rw [pushEdge_nodes]
  have h2 := alookup_modifyVal_map_weight
    (modifyVal g.nodes sk (fun m =>
      { m with outgoing := isetInsert m.outgoing g.nextEdgeKey })) tk k
    (fun m => { m with incoming := isetInsert m.incoming g.nextEdgeKey })
    (fun m => rfl)
  have h1 := alookup_modifyVal_map_weight g.nodes sk k
    (fun m => { m with outgoing := isetInsert m.outgoing g.nextEdgeKey })
    (fun m => rfl)
  exact h2.trans h1

theorem pushEdge_get_node_safe (g : TypedGraph) (sk tk : Nat) (w : EWeight)
    (id : Nat) :
    (g.pushEdge sk tk w).get_node_safe id = g.get_node_safe id := by
  unfold get_node_safe
  rw [pushEdge_nodeLut]
  cases hk : alookup g.nodeLut id with
  | none => simp [hk]
  | some k =>
    have hw := pushEdge_nodes_weight g sk tk w k
    cases h1 : alookup (g.pushEdge sk tk w).nodes k <;>
      cases h2 : alookup g.nodes k <;> rw [h1, h2] at hw <;> simp at hw <;>
        simp [hk, h1, h2, hw]

theorem pushEdge_get_node (g : TypedGraph) (sk tk : Nat) (w : EWeight)
    (id : Nat) : (g.pushEdge sk tk w).get_node id = g.get_node id := by
  unfold get_node
  rw [pushEdge_get_node_safe]

theorem pushEdge_refOf (g : TypedGraph) (sk tk : Nat) (w : EWeight)
    (em : EdgeMetadata) (dir : Direction) :
    (g.pushEdge sk tk w).refOf em dir = g.refOf em dir := by
  unfold refOf
  rw [unwrapD_weight_eq (pushEdge_nodes_weight g sk tk w em.source),
    unwrapD_weight_eq (pushEdge_nodes_weight g sk tk w em.target)]

theorem quantityLoop_congr {g g' : TypedGraph} (ety tty : Nat)
    (refs : List EdgeRef)
    (h : ∀ r ∈ refs, g'.get_node r.target = g.get_node r.target) :
    quantityLoop g' ety tty refs = quantityLoop g ety tty refs := by
  induction refs with
  | nil => rfl
  | cons r rest ih =>
    have ih2 := ih (fun r hr => h r (List.mem_cons_of_mem _ hr))
    by_cases hty : r.weight.ty ≠ ety
    · simp [quantityLoop, hty, ih2]
    · simp [quantityLoop, hty, ih2, h r (List.mem_cons_self _ _)]

theorem quantityLoop_append_ok {g : TypedGraph} {ety tty : Nat}
    {refs : List EdgeRef} {r : EdgeRef} {q : Nat} {wt : NWeight}
    (hq : quantityLoop g ety tty refs = .ok q)
    (hr : g.get_node r.target = .ok wt) :
    quantityLoop g ety tty (refs ++ [r]) =
      .ok (q + if r.weight.ty = ety ∧ wt.ty = tty then 1 else 0) := by
  induction refs generalizing q with
  | nil =>
    simp [quantityLoop] at hq
    subst hq
    by_cases h1 : r.weight.ty = ety <;> by_cases h2 : wt.ty = tty <;>
      simp [quantityLoop, h1, h2, hr]
  | cons r0 rest ih =>
    by_cases hty : r0.weight.ty ≠ ety
    · simp only [List.cons_append, quantityLoop, if_pos hty] at hq ⊢
      exact ih hq
    · cases h0 : g.get_node r0.target with
      | error e => simp [quantityLoop, hty, h0] at hq
      | ok wt0 =>
        cases hrec : quantityLoop g ety tty rest with
        | error e => simp [quantityLoop, hty, h0, hrec] at hq
        | ok q0 =>
          have hih := ih hrec
          by_cases htt : wt0.ty ≠ tty
          · simp [quantityLoop, hty, h0, hrec, htt] at hq
            simp [quantityLoop, hty, h0, hih, htt]
            omega
          · simp [quantityLoop, hty, h0, hrec, htt] at hq
            simp [quantityLoop, hty, h0, hih, htt]
            omega

end TypedGraph

theorem unwrapD_weight_of_map {o : Option NodeMetadata} {wv : NWeight}
    (h : o.map (fun m => m.weight) = some wv) : (unwrapD o).weight = wv := by
  cases o <;> simp [unwrapD] at h ⊢ <;> exact h

namespace TypedGraph

/-- Amended claim C6: for a call that inserts a NEW edge id, the count
passed to `allow_edge` is `q + 1` where `q` is the pre-add count of
outgoing edges from the source of the same (edge type, target type)
combination, and after the insert completes the store holds exactly
`q + 1` edges of that combination outgoing from the source.  (For an
update of an existing edge id the same `q + 1` is passed, but when the
updated edge already belongs to that combination the post-call count stays
`q`, one less than the count passed — see the counterexample.) -/
theorem add_edge_insert_quantity (g : TypedGraph) (hInv : g.Inv)
    (source target : Nat) (w : EWeight) (sk tk : Nat) (ms mt : NodeMetadata)
    (hs : alookup g.nodeLut source = some sk)
    (ht : alookup g.nodeLut target = some tk)
    (hms : alookup g.nodes sk = some ms)
    (hmt : alookup g.nodes tk = some mt)
    (hfresh : alookup g.edgeLut w.id = none) :
    ∃ q, g.edgeClassQuantity ms.weight.id w.ty mt.weight.ty = .ok q ∧
      (g.schema.allowEdge (q + 1) w.ty ms.weight.ty mt.weight.ty = none →
        g.add_edge source target w = (.ok w.id, g.pushEdge sk tk w) ∧
        (g.pushEdge sk tk w).edgeClassQuantity ms.weight.id w.ty mt.weight.ty =
          .ok (q + 1)) := by
  have hmsl : alookup g.nodeLut ms.weight.id = some sk := node_key_lookup hInv hms
  obtain ⟨q, hq⟩ := edgeClassQuantity_ok hInv hmsl w.ty mt.weight.ty
  refine ⟨q, hq, fun hallow => ⟨?_, ?_⟩⟩
  · simp [add_edge, hs, ht, hms, hmt, hq, hallow, hfresh]
  · have hfreshKey : alookup g.edges g.nextEdgeKey = none :=
      alookup_lt_none hInv.edgeKeyLt
    have hnotmem : g.nextEdgeKey ∉ ms.outgoing := by
      intro hmem
      have h := hInv.outSound _ (alookup_mem hms) _ hmem
      rw [hfreshKey] at h
      simp at h
    have hiset : isetInsert ms.outgoing g.nextEdgeKey =
        ms.outgoing ++ [g.nextEdgeKey] := by
      simp [isetInsert, hnotmem]
    have houtv : (alookup (g.pushEdge sk tk w).nodes sk).map
        (fun m => m.outgoing) = some (ms.outgoing ++ [g.nextEdgeKey]) := by
      rw [pushEdge_nodes, alookup_modifyVal, alookup_modifyVal]
      by_cases h : sk = tk
      · subst h
        simp [hms, hiset]
      · simp [h, hms, hiset]
    have hsk' : ∃ msf, alookup (g.pushEdge sk tk w).nodes sk = some msf ∧
        msf.outgoing = ms.outgoing ++ [g.nextEdgeKey] := by
      cases hv : alookup (g.pushEdge sk tk w).nodes sk with
      | none => rw [hv] at houtv; simp at houtv
      | some msf =>
        rw [hv] at houtv
        simp at houtv
        exact ⟨msf, rfl, houtv⟩
    obtain ⟨msf, hmsf, hout⟩ := hsk'
    have hednew : alookup (g.pushEdge sk tk w).edges g.nextEdgeKey =
        some ⟨w, sk, tk⟩ := by
      rw [pushEdge_edges, alookup_append_none _ hfreshKey]
      simp [alookup]
    have hedold : ∀ ek ∈ ms.outgoing,
        alookup (g.pushEdge sk tk w).edges ek = alookup g.edges ek := by
      intro ek hek
      have hsound := hInv.outSound _ (alookup_mem hms) ek hek
      cases he : alookup g.edges ek with
      | none => rw [he] at hsound; simp at hsound
      | some em => rw [pushEdge_edges, alookup_append_some _ he]
    have hrefs : ms.outgoing.map (fun ek => (g.pushEdge sk tk w).refOf
          (unwrapD (alookup (g.pushEdge sk tk w).edges ek)) .outgoing) =
        ms.outgoing.map
          (fun ek => g.refOf (unwrapD (alookup g.edges ek)) .outgoing) := by
      apply List.map_congr_left
      intro ek hek
      rw [hedold ek hek, pushEdge_refOf]
    have hql : quantityLoop g w.ty mt.weight.ty (ms.outgoing.map
        (fun ek => g.refOf (unwrapD (alookup g.edges ek)) .outgoing)) = .ok q := by
      simpa [edgeClassQuantity, get_outgoing, hmsl, get_node_internal, hms]
        using hq
    have hcongr : ∀ refs, quantityLoop (g.pushEdge sk tk w) w.ty mt.weight.ty
        refs = quantityLoop g w.ty mt.weight.ty refs := fun refs =>
      quantityLoop_congr _ _ _ (fun r _ => pushEdge_get_node g sk tk w r.target)
    have hwsk := pushEdge_nodes_weight g sk tk w sk
    have hwtk := pushEdge_nodes_weight g sk tk w tk
    rw [hms] at hwsk
    rw [hmt] at hwtk
    simp only [Option.map_some'] at hwsk hwtk
    have hrstar : (g.pushEdge sk tk w).refOf (⟨w, sk, tk⟩ : EdgeMetadata)
        Direction.outgoing =
        (⟨w, ms.weight.id, mt.weight.id, Direction.outgoing⟩ : EdgeRef) := by
      unfold refOf
      rw [unwrapD_weight_of_map hwsk, unwrapD_weight_of_map hwtk]
    have hgetmt : (g.pushEdge sk tk w).get_node mt.weight.id = .ok mt.weight := by
      rw [pushEdge_get_node]
      unfold get_node
      rw [get_node_safe_of_key hInv hmt]
      rfl
    have happ := quantityLoop_append_ok (g := g.pushEdge sk tk w)
      (r := (⟨w, ms.weight.id, mt.weight.id, Direction.outgoing⟩ : EdgeRef))
      ((hcongr _).trans hql) hgetmt
    have hgo : (g.pushEdge sk tk w).get_outgoing ms.weight.id =
        .ok (msf.outgoing.map (fun ek => (g.pushEdge sk tk w).refOf
          (unwrapD (alookup (g.pushEdge sk tk w).edges ek)) .outgoing)) := by
      unfold get_outgoing
      rw [pushEdge_nodeLut, hmsl]
      simp [get_node_internal, hmsf]
    unfold edgeClassQuantity
    rw [hgo, hout, List.map_append, hrefs]
    simp only [List.map_cons, List.map_nil, hednew, unwrapD_some]
    rw [hrstar, happ]
    simp
end TypedGraph

/-- Witness for the amended C6 at a fresh edge insertion on `exg2`. -/
theorem add_edge_insert_quantity_witness :
    exg2.Inv ∧
    ∃ q, exg2.edgeClassQuantity 0 5 0 = .ok q ∧
      (exg2.schema.allowEdge (q + 1) 5 0 0 = none →
        exg2.add_edge 0 1 ⟨0, 5, 0⟩ = (.ok 0, exg2.pushEdge 0 1 ⟨0, 5, 0⟩) ∧
        (exg2.pushEdge 0 1 ⟨0, 5, 0⟩).edgeClassQuantity 0 5 0 = .ok (q + 1)) :=
  ⟨by decide, TypedGraph.add_edge_insert_quantity exg2 (by decide) 0 1
    ⟨0, 5, 0⟩ 0 1 ⟨⟨0, 0, 0⟩, [], []⟩ ⟨⟨1, 0, 0⟩, [], []⟩ (by decide)
    (by decide) (by decide) (by decide) (by decide)⟩

/- ### list facts for the removal loops -/

theorem idxOf_none_iff (l : List Nat) (k : Nat) :
    idxOf l k = none ↔ k ∉ l := by
  induction l with
  | nil => simp [idxOf]
  | cons x xs ih =>
    have hkx : (k = x) ∨ ¬ (k = x) := em _
    by_cases hx : x = k
    · simp [idxOf, hx]
    · have hkx2 : ¬ k = x := fun h => hx h.symm
      simp [idxOf, hx, hkx2, ih]

theorem idxOf_mem {l : List Nat} {k : Nat} {i : Nat}
    (h : idxOf l k = some i) : k ∈ l := by
  by_contra hnm
  rw [(idxOf_none_iff l k).mpr hnm] at h
  cases h

/-- `swap_remove` is a permutation of erasing the element. -/
theorem swapRemove_perm (l : List Nat) (k : Nat) :
    (swapRemove l k).Perm (l.erase k) := by
  induction l with
  | nil => simp [swapRemove, idxOf]
  | cons x xs ih =>
    by_cases hx : x = k
    · subst hx
      have hsw : swapRemove (x :: xs) x =
          ((x :: xs).set 0 ((x :: xs).getLastD 0)).dropLast := by
        simp [swapRemove, idxOf]
      rw [hsw, List.erase_cons_head]
      cases xs with
      | nil => simp
      | cons y ys =>
        have hne : (y :: ys) ≠ [] := by simp
        rw [List.getLastD_cons]
        show (((y :: ys).getLastD x :: y :: ys).dropLast).Perm (y :: ys)
        rw [List.dropLast_cons_of_ne_nil hne]
        have h2 : (y :: ys).dropLast ++ [(y :: ys).getLastD x] = y :: ys := by
          rw [List.getLastD_eq_getLast?, List.getLast?_eq_getLast _ hne]
          exact List.dropLast_append_getLast hne
        have hperm := (List.perm_append_singleton ((y :: ys).getLastD x)
          ((y :: ys).dropLast)).symm
        rw [h2] at hperm
        exact hperm
    · have herase : (x :: xs).erase k = x :: xs.erase k := by
        rw [List.erase_cons_tail (by simp [hx])]
      rw [herase]
      cases hidx : idxOf xs k with
      | none =>
        have hnm : k ∉ xs := (idxOf_none_iff xs k).mp hidx
        have hsw : swapRemove (x :: xs) k = x :: xs := by
          simp [swapRemove, idxOf, hx, hidx]
        rw [hsw, List.erase_of_not_mem hnm]
      | some i =>
        have hmem : k ∈ xs := idxOf_mem hidx
        have hxs : xs ≠ [] := by
          intro h
          subst h
          simp at hmem
        have hsw : swapRemove (x :: xs) k =
            ((x :: xs).set (i + 1) ((x :: xs).getLastD 0)).dropLast := by
          simp [swapRemove, idxOf, hx, hidx]
        rw [hsw, List.getLastD_cons]
        have hd : xs.getLastD x = xs.getLastD 0 := by
          rw [List.getLastD_eq_getLast?, List.getLastD_eq_getLast?,
            List.getLast?_eq_getLast _ hxs]
          simp
        have hset : (x :: xs).set (i + 1) (xs.getLastD x) =
            x :: xs.set i (xs.getLastD x) := rfl
        rw [hset]
        have hsetne : xs.set i (xs.getLastD x) ≠ [] := by
          intro h
          have h2 := congrArg List.length h
          simp at h2
          subst h2
          simp at hmem
        rw [List.dropLast_cons_of_ne_nil hsetne]
        have hd2 : xs.getLast?.getD x = xs.getLast?.getD 0 := by
          rw [List.getLast?_eq_getLast _ hxs]
          simp
        have hrec : (xs.set i (xs.getLastD x)).dropLast = swapRemove xs k := by
          simp [swapRemove, hidx]
          rw [hd2]
        rw [hrec]
        exact ih.cons x


theorem swapRemove_subset (l : List Nat) (k : Nat) :
    ∀ x ∈ swapRemove l k, x ∈ l := fun x hx =>
  List.erase_subset _ _ ((swapRemove_perm l k).mem_iff.mp hx)

theorem swapRemove_not_mem {l : List Nat} (hl : l.Nodup) (k : Nat) :
    k ∉ swapRemove l k := by
  intro h
  have h2 := (swapRemove_perm l k).mem_iff.mp h
  exact ((hl.mem_erase_iff).mp h2).1 rfl

theorem swapRemove_nodup {l : List Nat} (hl : l.Nodup) (k : Nat) :
    (swapRemove l k).Nodup := ((swapRemove_perm l k).nodup_iff).mpr (hl.erase k)

theorem shiftRemove_subset (l : List Nat) (k : Nat) :
    ∀ x ∈ shiftRemove l k, x ∈ l := fun x hx => List.erase_subset _ _ hx

theorem shiftRemove_not_mem {l : List Nat} (hl : l.Nodup) (k : Nat) :
    k ∉ shiftRemove l k := fun h => ((hl.mem_erase_iff).mp h).1 rfl

theorem shiftRemove_nodup {l : List Nat} (hl : l.Nodup) (k : Nat) :
    (shiftRemove l k).Nodup := hl.erase k

/- ### specification of the removal loops of remove_node -/

namespace TypedGraph

/-- Behaviour of the outgoing-edge loop of `remove_node`. -/
theorem removeOutLoop_spec (nk : Nat) (eks : List Nat) :
    ∀ st : TypedGraph,
    eks.Nodup →
    (∀ ek ∈ eks, (alookup st.edges ek).isSome) →
    (∀ ek em, ek ∈ eks → alookup st.edges ek = some em → em.target ≠ nk →
      (alookup st.nodes em.target).isSome) →
    (∀ k m, alookup st.nodes k = some m → m.incoming.Nodup) →
    ∃ st', removeOutLoop st nk eks = (.ok (), st') ∧
      st'.nodeLut = st.nodeLut ∧
      (∀ ek ∈ eks, alookup st'.edges ek = none) ∧
      (∀ ek, ek ∉ eks → alookup st'.edges ek = alookup st.edges ek) ∧
      (∀ ek₀, alookup st.edges ek₀ = none → alookup st'.edges ek₀ = none) ∧
      (∀ ek em, ek ∈ eks → alookup st.edges ek = some em →
        alookup st'.edgeLut em.weight.id = none) ∧
      (∀ id, alookup st.edgeLut id = none → alookup st'.edgeLut id = none) ∧
      (∀ k, (alookup st'.nodes k).map (fun m => m.weight) =
        (alookup st.nodes k).map (fun m => m.weight)) ∧
      (∀ k, (alookup st'.nodes k).map (fun m => m.outgoing) =
        (alookup st.nodes k).map (fun m => m.outgoing)) ∧
      (∀ k m', alookup st'.nodes k = some m' →
        ∃ m0, alookup st.nodes k = some m0 ∧
          (∀ x ∈ m'.incoming, x ∈ m0.incoming) ∧ m'.incoming.Nodup) ∧
      (∀ ek em, ek ∈ eks → alookup st.edges ek = some em → em.target ≠ nk →
        ∀ m', alookup st'.nodes em.target = some m' → ek ∉ m'.incoming) := by
  induction eks with
  | nil =>
    intro st _ _ _ hnd
    refine ⟨st, rfl, rfl, by simp, fun _ _ => rfl, fun _ h => h, by simp,
      fun _ h => h, fun _ => rfl, fun _ => rfl, ?_, by simp⟩
    intro k m' hm'
    exact ⟨m', hm', fun x hx => hx, hnd k m' hm'⟩
  | cons ek rest ih =>
    intro st hnodup hsome hlive hnd
    have heks := hsome ek (List.mem_cons_self _ _)
    cases hem : alookup st.edges ek with
    | none => rw [hem] at heks; simp at heks
    | some em =>
    have heknr : ek ∉ rest := (List.nodup_cons.mp hnodup).1
    -- the state after deleting the edge record and its id
    by_cases htg : em.target ≠ nk
    case neg =>
      -- self to the removed node: no incoming deregistration
      have htg2 : em.target = nk := not_not.mp htg
      set st₂ : TypedGraph := { st with
        edges := eraseKey st.edges ek
        edgeLut := eraseKey st.edgeLut em.weight.id } with hst₂
      have hstep : removeOutLoop st nk (ek :: rest) = removeOutLoop st₂ nk rest := by
        simp [removeOutLoop, hem, htg2]
      obtain ⟨st', hrun, hlut, hdel, hkeep, hmono, hiddel, hidmono, hwts, houts,
          hshrink, hrem⟩ :=
        ih st₂ (List.nodup_cons.mp hnodup).2
          (by
            intro e he
            have hne : e ≠ ek := fun h => heknr (h ▸ he)
            rw [hst₂]
            simp only [alookup_eraseKey, if_neg hne]
            exact hsome e (List.mem_cons_of_mem _ he))
          (by
            intro e em' he hlk htg'
            have hne : e ≠ ek := fun h => heknr (h ▸ he)
            rw [hst₂] at hlk
            simp only [alookup_eraseKey, if_neg hne] at hlk
            exact hlive e em' (List.mem_cons_of_mem _ he) hlk htg')
          (by
            intro k m hm
            exact hnd k m hm)
      refine ⟨st', hstep ▸ hrun, hlut, ?_, ?_, ?_, ?_, ?_, hwts, houts, hshrink, ?_⟩
      · intro e he
        rcases List.mem_cons.mp he with h | h
        · subst h
          apply hmono
          rw [hst₂]
          simp [alookup_eraseKey]
        · exact hdel e h
      · intro e he
        have h1 : e ∉ rest := fun h => he (List.mem_cons_of_mem _ h)
        have h2 : e ≠ ek := fun h => he (h ▸ List.mem_cons_self _ _)
        rw [hkeep e h1, hst₂]
        simp [alookup_eraseKey, h2]
      · intro e h0
        apply hmono
        rw [hst₂]
        simp only [alookup_eraseKey]
        by_cases h : e = ek <;> simp [h, h0]
      · intro e em' he hlk
        rcases List.mem_cons.mp he with h | h
        · subst h
          rw [hem] at hlk
          cases hlk
          apply hidmono
          rw [hst₂]
          simp [alookup_eraseKey]
        · have hne : e ≠ ek := fun h2 => heknr (h2 ▸ h)
          apply hiddel e em' h
          rw [hst₂]
          simp [alookup_eraseKey, hne, hlk]
      · intro id h0
        apply hidmono
        rw [hst₂]
        simp only [alookup_eraseKey]
        by_cases h : id = em.weight.id <;> simp [h, h0]
      · intro e em' he hlk htg' m' hm'
        rcases List.mem_cons.mp he with h | h
        · subst h
          rw [hem] at hlk
          cases hlk
          exact absurd htg2 htg'
        · have hne : e ≠ ek := fun h2 => heknr (h2 ▸ h)
          apply hrem e em' h _ htg' m' hm'
          rw [hst₂]
          simp [alookup_eraseKey, hne, hlk]
    case pos =>
      have hlv := hlive ek em (List.mem_cons_self _ _) hem htg
      cases hmt : alookup st.nodes em.target with
      | none => rw [hmt] at hlv; simp at hlv
      | some mt =>
      set st₂ : TypedGraph := { st with
        edges := eraseKey st.edges ek
        edgeLut := eraseKey st.edgeLut em.weight.id
        nodes := modifyVal st.nodes em.target (fun n =>
          { n with incoming := swapRemove n.incoming ek }) } with hst₂
      have hstep : removeOutLoop st nk (ek :: rest) = removeOutLoop st₂ nk rest := by
        simp [removeOutLoop, hem, htg, hmt, hst₂]
      obtain ⟨st', hrun, hlut, hdel, hkeep, hmono, hiddel, hidmono, hwts, houts,
          hshrink, hrem⟩ :=
        ih st₂ (List.nodup_cons.mp hnodup).2
          (by
            intro e he
            have hne : e ≠ ek := fun h => heknr (h ▸ he)
            rw [hst₂]
            simp only [alookup_eraseKey, if_neg hne]
            exact hsome e (List.mem_cons_of_mem _ he))
          (by
            intro e em' he hlk htg'
            have hne : e ≠ ek := fun h => heknr (h ▸ he)
            rw [hst₂] at hlk ⊢
            simp only [alookup_eraseKey, if_neg hne] at hlk
            simp only [alookup_modifyVal]
            have hl := hlive e em' (List.mem_cons_of_mem _ he) hlk htg'
            by_cases h : em'.target = em.target
            · rw [if_pos h]
              cases ho : alookup st.nodes em'.target with
              | none => rw [ho] at hl; simp at hl
              | some _ => simp
            · rw [if_neg h]
              exact hl)
          (by
            intro k m hm
            rw [hst₂] at hm
            simp only [alookup_modifyVal] at hm
            by_cases h : k = em.target
            · rw [if_pos h] at hm
              cases ho : alookup st.nodes k with
              | none => rw [ho] at hm; cases hm
              | some m0 =>
                rw [ho] at hm
                simp at hm
                subst hm
                exact swapRemove_nodup (hnd _ _ ho) ek
            · rw [if_neg h] at hm
              exact hnd k m hm)
      refine ⟨st', hstep ▸ hrun, hlut, ?_, ?_, ?_, ?_, ?_, ?_, ?_, ?_, ?_⟩
      · intro e he
        rcases List.mem_cons.mp he with h | h
        · subst h
          apply hmono
          rw [hst₂]
          simp [alookup_eraseKey]
        · exact hdel e h
      · intro e he
        have h1 : e ∉ rest := fun h => he (List.mem_cons_of_mem _ h)
        have h2 : e ≠ ek := fun h => he (h ▸ List.mem_cons_self _ _)
        rw [hkeep e h1, hst₂]
        simp [alookup_eraseKey, h2]
      · intro e h0
        apply hmono
        rw [hst₂]
        simp only [alookup_eraseKey]
        by_cases h : e = ek <;> simp [h, h0]
      · intro e em' he hlk
        rcases List.mem_cons.mp he with h | h
        · subst h
          rw [hem] at hlk
          cases hlk
          apply hidmono
          rw [hst₂]
          simp [alookup_eraseKey]
        · have hne : e ≠ ek := fun h2 => heknr (h2 ▸ h)
          apply hiddel e em' h
          rw [hst₂]
          simp [alookup_eraseKey, hne, hlk]
      · intro id h0
        apply hidmono
        rw [hst₂]
        simp only [alookup_eraseKey]
        by_cases h : id = em.weight.id <;> simp [h, h0]
      · intro k
        rw [hwts k, hst₂]
        simp only [alookup_modifyVal]
        by_cases h : k = em.target <;> simp [h]
        cases alookup st.nodes em.target <;> simp
      · intro k
        rw [houts k, hst₂]
        simp only [alookup_modifyVal]
        by_cases h : k = em.target <;> simp [h]
        cases alookup st.nodes em.target <;> simp
      · intro k m' hm'
        obtain ⟨m₂, hm₂, hsub, hnd'⟩ := hshrink k m' hm'
        rw [hst₂] at hm₂
        simp only [alookup_modifyVal] at hm₂
        by_cases h : k = em.target
        · rw [if_pos h] at hm₂
          cases ho : alookup st.nodes k with
          | none =>
            rw [ho] at hm₂
            cases hm₂
          | some m0 =>
            rw [ho] at hm₂
            simp at hm₂
            subst hm₂
            refine ⟨m0, rfl, ?_, hnd'⟩
            intro x hx
            exact swapRemove_subset _ _ _ (hsub x hx)
        · rw [if_neg h] at hm₂
          exact ⟨m₂, hm₂, hsub, hnd'⟩
      · intro e em' he hlk htg' m' hm'
        rcases List.mem_cons.mp he with h | h
        · subst h
          rw [hem] at hlk
          cases hlk
          obtain ⟨m₂, hm₂, hsub, _⟩ := hshrink _ m' hm'
          rw [hst₂] at hm₂
          simp only [alookup_modifyVal, if_pos rfl] at hm₂
          rw [hmt] at hm₂
          simp at hm₂
          subst hm₂
          intro hx
          exact swapRemove_not_mem (hnd _ _ hmt) e (hsub e hx)
        · have hne : e ≠ ek := fun h2 => heknr (h2 ▸ h)
          apply hrem e em' h _ htg' m' hm'
          rw [hst₂]
          simp [alookup_eraseKey, hne, hlk]

end TypedGraph

namespace TypedGraph

/-- Behaviour of the incoming-edge loop of `remove_node`. -/
theorem removeInLoop_spec (nk : Nat) (eks : List Nat) :
    ∀ st : TypedGraph,
    eks.Nodup →
    (∀ ek em, ek ∈ eks → alookup st.edges ek = some em → em.source ≠ nk →
      (alookup st.nodes em.source).isSome) →
    (∀ k m, alookup st.nodes k = some m → m.outgoing.Nodup) →
    ∃ st', removeInLoop st nk eks = (.ok (), st') ∧
      st'.nodeLut = st.nodeLut ∧
      (∀ ek ∈ eks, alookup st'.edges ek = none) ∧
      (∀ ek, ek ∉ eks → alookup st'.edges ek = alookup st.edges ek) ∧
      (∀ ek₀, alookup st.edges ek₀ = none → alookup st'.edges ek₀ = none) ∧
      (∀ ek em, ek ∈ eks → alookup st.edges ek = some em →
        alookup st'.edgeLut em.weight.id = none) ∧
      (∀ id, alookup st.edgeLut id = none → alookup st'.edgeLut id = none) ∧
      (∀ k, (alookup st'.nodes k).map (fun m => m.weight) =
        (alookup st.nodes k).map (fun m => m.weight)) ∧
      (∀ k, (alookup st'.nodes k).map (fun m => m.incoming) =
        (alookup st.nodes k).map (fun m => m.incoming)) ∧
      (∀ k m', alookup st'.nodes k = some m' →
        ∃ m0, alookup st.nodes k = some m0 ∧
          (∀ x ∈ m'.outgoing, x ∈ m0.outgoing) ∧ m'.outgoing.Nodup) ∧
      (∀ ek em, ek ∈ eks → alookup st.edges ek = some em → em.source ≠ nk →
        ∀ m', alookup st'.nodes em.source = some m' → ek ∉ m'.outgoing) := by
  induction eks with
  | nil =>
    intro st _ _ hnd
    refine ⟨st, rfl, rfl, by simp, fun _ _ => rfl, fun _ h => h, by simp,
      fun _ h => h, fun _ => rfl, fun _ => rfl, ?_, by simp⟩
    intro k m' hm'
    exact ⟨m', hm', fun x hx => hx, hnd k m' hm'⟩
  | cons ek rest ih =>
    intro st hnodup hlive hnd
    have heknr : ek ∉ rest := (List.nodup_cons.mp hnodup).1
    cases hem : alookup st.edges ek with
    | none =>
      have hstep : removeInLoop st nk (ek :: rest) = removeInLoop st nk rest := by
        simp [removeInLoop, hem]
      obtain ⟨st', hrun, hlut, hdel, hkeep, hmono, hiddel, hidmono, hwts, hins,
          hshrink, hrem⟩ :=
        ih st (List.nodup_cons.mp hnodup).2
          (fun e em' he hlk hsrc =>
            hlive e em' (List.mem_cons_of_mem _ he) hlk hsrc)
          hnd
      refine ⟨st', hstep ▸ hrun, hlut, ?_, ?_, hmono, ?_, hidmono, hwts, hins,
        hshrink, ?_⟩
      · intro e he
        rcases List.mem_cons.mp he with h | h
        · subst h
          exact hmono e hem
        · exact hdel e h
      · intro e he
        have h1 : e ∉ rest := fun h => he (List.mem_cons_of_mem _ h)
        exact hkeep e h1
      · intro e em' he hlk
        rcases List.mem_cons.mp he with h | h
        · subst h
          rw [hem] at hlk
          cases hlk
        · exact hiddel e em' h hlk
      · intro e em' he hlk hsrc m' hm'
        rcases List.mem_cons.mp he with h | h
        · subst h
          rw [hem] at hlk
          cases hlk
        · exact hrem e em' h hlk hsrc m' hm'
    | some em =>
    by_cases hsg : em.source ≠ nk
    case neg =>
      have hsg2 : em.source = nk := not_not.mp hsg
      set st₂ : TypedGraph := { st with
        edges := eraseKey st.edges ek
        edgeLut := eraseKey st.edgeLut em.weight.id } with hst₂
      have hstep : removeInLoop st nk (ek :: rest) = removeInLoop st₂ nk rest := by
        simp [removeInLoop, hem, hsg2]
      obtain ⟨st', hrun, hlut, hdel, hkeep, hmono, hiddel, hidmono, hwts, hins,
          hshrink, hrem⟩ :=
        ih st₂ (List.nodup_cons.mp hnodup).2
          (by
            intro e em' he hlk hsrc
            have hne : e ≠ ek := fun h => heknr (h ▸ he)
            rw [hst₂] at hlk
            simp only [alookup_eraseKey, if_neg hne] at hlk
            exact hlive e em' (List.mem_cons_of_mem _ he) hlk hsrc)
          (fun k m hm => hnd k m hm)
      refine ⟨st', hstep ▸ hrun, hlut, ?_, ?_, ?_, ?_, ?_, hwts, hins, hshrink, ?_⟩
      · intro e he
        rcases List.mem_cons.mp he with h | h
        · subst h
          apply hmono
          rw [hst₂]
          simp [alookup_eraseKey]
        · exact hdel e h
      · intro e he
        have h1 : e ∉ rest := fun h => he (List.mem_cons_of_mem _ h)
        have h2 : e ≠ ek := fun h => he (h ▸ List.mem_cons_self _ _)
        rw [hkeep e h1, hst₂]
        simp [alookup_eraseKey, h2]
      · intro e h0
        apply hmono
        rw [hst₂]
        simp only [alookup_eraseKey]
        by_cases h : e = ek <;> simp [h, h0]
      · intro e em' he hlk
        rcases List.mem_cons.mp he with h | h
        · subst h
          rw [hem] at hlk
          cases hlk
          apply hidmono
          rw [hst₂]
          simp [alookup_eraseKey]
        · have hne : e ≠ ek := fun h2 => heknr (h2 ▸ h)
          apply hiddel e em' h
          rw [hst₂]
          simp [alookup_eraseKey, hne, hlk]
      · intro id h0
        apply hidmono
        rw [hst₂]
        simp only [alookup_eraseKey]
        by_cases h : id = em.weight.id <;> simp [h, h0]
      · intro e em' he hlk hsrc m' hm'
        rcases List.mem_cons.mp he with h | h
        · subst h
          rw [hem] at hlk
          cases hlk
          exact absurd hsg2 hsrc
        · have hne : e ≠ ek := fun h2 => heknr (h2 ▸ h)
          apply hrem e em' h _ hsrc m' hm'
          rw [hst₂]
          simp [alookup_eraseKey, hne, hlk]
    case pos =>
      have hlv := hlive ek em (List.mem_cons_self _ _) hem hsg
      cases hms : alookup st.nodes em.source with
      | none => rw [hms] at hlv; simp at hlv
      | some msn =>
      set st₂ : TypedGraph := { st with
        edges := eraseKey st.edges ek
        edgeLut := eraseKey st.edgeLut em.weight.id
        nodes := modifyVal st.nodes em.source (fun n =>
          { n with outgoing := shiftRemove n.outgoing ek }) } with hst₂
      have hstep : removeInLoop st nk (ek :: rest) = removeInLoop st₂ nk rest := by
        simp [removeInLoop, hem, hsg, hms, hst₂]
      obtain ⟨st', hrun, hlut, hdel, hkeep, hmono, hiddel, hidmono, hwts, hins,
          hshrink, hrem⟩ :=
        ih st₂ (List.nodup_cons.mp hnodup).2
          (by
            intro e em' he hlk hsrc
            have hne : e ≠ ek := fun h => heknr (h ▸ he)
            rw [hst₂] at hlk ⊢
            simp only [alookup_eraseKey, if_neg hne] at hlk
            simp only [alookup_modifyVal]
            have hl := hlive e em' (List.mem_cons_of_mem _ he) hlk hsrc
            by_cases h : em'.source = em.source
            · rw [if_pos h]
              cases ho : alookup st.nodes em'.source with
              | none => rw [ho] at hl; simp at hl
              | some _ => simp
            · rw [if_neg h]
              exact hl)
          (by
            intro k m hm
            rw [hst₂] at hm
            simp only [alookup_modifyVal] at hm
            by_cases h : k = em.source
            · rw [if_pos h] at hm
              cases ho : alookup st.nodes k with
              | none => rw [ho] at hm; cases hm
              | some m0 =>
                rw [ho] at hm
                simp at hm
                subst hm
                exact shiftRemove_nodup (hnd _ _ ho) ek
            · rw [if_neg h] at hm
              exact hnd k m hm)
      refine ⟨st', hstep ▸ hrun, hlut, ?_, ?_, ?_, ?_, ?_, ?_, ?_, ?_, ?_⟩
      · intro e he
        rcases List.mem_cons.mp he with h | h
        · subst h
          apply hmono
          rw [hst₂]
          simp [alookup_eraseKey]
        · exact hdel e h
      · intro e he
        have h1 : e ∉ rest := fun h => he (List.mem_cons_of_mem _ h)
        have h2 : e ≠ ek := fun h => he (h ▸ List.mem_cons_self _ _)
        rw [hkeep e h1, hst₂]
        simp [alookup_eraseKey, h2]
      · intro e h0
        apply hmono
        rw [hst₂]
        simp only [alookup_eraseKey]
        by_cases h : e = ek <;> simp [h, h0]
      · intro e em' he hlk
        rcases List.mem_cons.mp he with h | h
        · subst h
          rw [hem] at hlk
          cases hlk
          apply hidmono
          rw [hst₂]
          simp [alookup_eraseKey]
        · have hne : e ≠ ek := fun h2 => heknr (h2 ▸ h)
          apply hiddel e em' h
          rw [hst₂]
          simp [alookup_eraseKey, hne, hlk]
      · intro id h0
        apply hidmono
        rw [hst₂]
        simp only [alookup_eraseKey]
        by_cases h : id = em.weight.id <;> simp [h, h0]
      · intro k
        rw [hwts k, hst₂]
        simp only [alookup_modifyVal]
        by_cases h : k = em.source <;> simp [h]
        cases alookup st.nodes em.source <;> simp
      · intro k
        rw [hins k, hst₂]
        simp only [alookup_modifyVal]
        by_cases h : k = em.source <;> simp [h]
        cases alookup st.nodes em.source <;> simp
      · intro k m' hm'
        obtain ⟨m₂, hm₂, hsub, hnd'⟩ := hshrink k m' hm'
        rw [hst₂] at hm₂
        simp only [alookup_modifyVal] at hm₂
        by_cases h : k = em.source
        · rw [if_pos h] at hm₂
          cases ho : alookup st.nodes k with
          | none =>
            rw [ho] at hm₂
            cases hm₂
          | some m0 =>
            rw [ho] at hm₂
            simp at hm₂
            subst hm₂
            refine ⟨m0, rfl, ?_, hnd'⟩
            intro x hx
            exact shiftRemove_subset _ _ _ (hsub x hx)
        · rw [if_neg h] at hm₂
          exact ⟨m₂, hm₂, hsub, hnd'⟩
      · intro e em' he hlk hsrc m' hm'
        rcases List.mem_cons.mp he with h | h
        · subst h
          rw [hem] at hlk
          cases hlk
          obtain ⟨m₂, hm₂, hsub, _⟩ := hshrink _ m' hm'
          rw [hst₂] at hm₂
          simp only [alookup_modifyVal, if_pos rfl] at hm₂
          rw [hms] at hm₂
          simp at hm₂
          subst hm₂
          intro hx
          exact shiftRemove_not_mem (hnd _ _ hms) e (hsub e hx)
        · have hne : e ≠ ek := fun h2 => heknr (h2 ▸ h)
          apply hrem e em' h _ hsrc m' hm'
          rw [hst₂]
          simp [alookup_eraseKey, hne, hlk]

end TypedGraph

theorem map_eq_extract {o1 o2 : Option NodeMetadata} {β : Type}
    {f : NodeMetadata → β} (h : o1.map f = o2.map f) {m1 : NodeMetadata}
    (h1 : o1 = some m1) : ∃ m2, o2 = some m2 ∧ f m1 = f m2 := by
  subst h1
  cases o2 with
  | none => simp at h
  | some m2 =>
    simp at h
    exact ⟨m2, rfl, h⟩

namespace TypedGraph

/-- Claim C2: removing a live node `node_id` succeeds, returns the removed
weight, and afterwards the node is gone, every edge that was incident to it
(outgoing, incoming and self-loops) is gone together with its id mapping,
and no remaining node's adjacency set still references any removed edge. -/
theorem remove_node_cascade (g : TypedGraph) (hInv : g.Inv)
    (node_id node_key : Nat) (node : NodeMetadata)
    (hlut : alookup g.nodeLut node_id = some node_key)
    (hnode : alookup g.nodes node_key = some node) :
    ∃ g', g.remove_node node_id = (.ok node.weight, g') ∧
      g'.has_node node_id = false ∧
      g'.get_node_safe node_id = none ∧
      (∀ ek em, alookup g.edges ek = some em →
        (em.source = node_key ∨ em.target = node_key) →
        alookup g'.edges ek = none ∧
        g'.has_edge em.weight.id = false ∧
        g'.get_edge_safe em.weight.id = none) ∧
      (∀ k m', alookup g'.nodes k = some m' →
        ∀ ek em, alookup g.edges ek = some em →
          (em.source = node_key ∨ em.target = node_key) →
          ek ∉ m'.incoming ∧ ek ∉ m'.outgoing) := by
  classical
  set g2 : TypedGraph := { g with
    nodeLut := eraseKey g.nodeLut node_id
    nodes := eraseKey g.nodes node_key } with hg2
  have hg2edges : g2.edges = g.edges := rfl
  have hg2nodes : ∀ k, k ≠ node_key → alookup g2.nodes k = alookup g.nodes k := by
    intro k hk
    rw [hg2]
    simp [alookup_eraseKey, hk]
  have hg2gone : alookup g2.nodes node_key = none := by
    rw [hg2]
    simp [alookup_eraseKey]
  -- the membership facts for node's adjacency lists
  have houtmem : ∀ ek ∈ node.outgoing, ∃ em, alookup g.edges ek = some em ∧
      em.source = node_key := by
    intro ek hek
    have h := hInv.outSound _ (alookup_mem hnode) ek hek
    cases he : alookup g.edges ek with
    | none => rw [he] at h; simp at h
    | some em =>
      rw [he] at h
      simp at h
      exact ⟨em, rfl, h⟩
  have hinmem : ∀ ek ∈ node.incoming, ∃ em, alookup g.edges ek = some em ∧
      em.target = node_key := by
    intro ek hek
    have h := hInv.inSound _ (alookup_mem hnode) ek hek
    cases he : alookup g.edges ek with
    | none => rw [he] at h; simp at h
    | some em =>
      rw [he] at h
      simp at h
      exact ⟨em, rfl, h⟩
  -- the outgoing removal loop
  obtain ⟨g3, hrunO, hlutO, hdelO, hkeepO, hmonoO, hiddelO, hidmonoO, hwtsO,
      houtsO, hshrinkO, hremO⟩ :=
    removeOutLoop_spec node_key node.outgoing g2
      (hInv.adjNodup _ (alookup_mem hnode)).1
      (by
        intro ek hek
        obtain ⟨em, he, _⟩ := houtmem ek hek
        rw [hg2edges, he]
        simp)
      (by
        intro ek em hek he htg
        rw [hg2edges] at he
        obtain ⟨mt, hmt, _⟩ := edge_target_live hInv he
        rw [hg2nodes _ htg, hmt]
        simp)
      (by
        intro k m hm
        by_cases hk : k = node_key
        · rw [hk, hg2gone] at hm
          cases hm
        · rw [hg2nodes _ hk] at hm
          exact (hInv.adjNodup _ (alookup_mem hm)).2)
  -- edge lookups in g3 for keys outside node.outgoing
  have hkeepO2 : ∀ ek, ek ∉ node.outgoing →
      alookup g3.edges ek = alookup g.edges ek := by
    intro ek hek
    rw [hkeepO ek hek, hg2edges]
  -- the incoming removal loop
  obtain ⟨g4, hrunI, hlutI, hdelI, hkeepI, hmonoI, hiddelI, hidmonoI, hwtsI,
      hinsI, hshrinkI, hremI⟩ :=
    removeInLoop_spec node_key node.incoming g3
      (hInv.adjNodup _ (alookup_mem hnode)).2
      (by
        intro ek em₃ hek he hsrc
        by_cases ho : ek ∈ node.outgoing
        · rw [hdelO ek ho] at he
          cases he
        · rw [hkeepO2 ek ho] at he
          obtain ⟨ms, hms, _⟩ := edge_source_live hInv he
          have hsk : em₃.source ≠ node_key := hsrc
          have h1 := hwtsO em₃.source
          rw [hg2nodes _ hsk, hms] at h1
          obtain ⟨m2, hm2, _⟩ := map_eq_extract h1.symm rfl
          rw [hm2]
          simp)
      (by
        intro k m hm
        have h1 := houtsO k
        obtain ⟨m2, hm2, hfe⟩ := map_eq_extract h1 hm
        by_cases hk : k = node_key
        · rw [hk, hg2gone] at hm2
          cases hm2
        · rw [hg2nodes _ hk] at hm2
          rw [hfe]
          exact (hInv.adjNodup _ (alookup_mem hm2)).1)
  -- assemble
  have hrn : g.remove_node node_id = (.ok node.weight, g4) := by
    simp only [remove_node, hlut, hnode, unwrapD_some]
    rw [← hg2, hrunO]
    simp only [hrunI]
  have hlutg4 : g4.nodeLut = eraseKey g.nodeLut node_id := by
    rw [hlutI, hlutO]
  have hincident : ∀ ek em, alookup g.edges ek = some em →
      (em.source = node_key ∨ em.target = node_key) →
      alookup g4.edges ek = none ∧ alookup g4.edgeLut em.weight.id = none := by
    intro ek em he hsc
    by_cases ho : ek ∈ node.outgoing
    · constructor
      · exact hmonoI _ (hdelO ek ho)
      · exact hidmonoI _ (hiddelO ek em ho (hg2edges ▸ he))
    · have hsrc : em.source ≠ node_key := by
        intro h
        have h2 := (hInv.edgeInOut _ (alookup_mem he)).1
        unfold outContains at h2
        rw [h, hnode] at h2
        simp at h2
        exact ho h2
      have htgt : em.target = node_key := by
        rcases hsc with h | h
        · exact absurd h hsrc
        · exact h
      have hin : ek ∈ node.incoming := by
        have h2 := (hInv.edgeInOut _ (alookup_mem he)).2
        unfold inContains at h2
        rw [htgt, hnode] at h2
        simpa using h2
      have he3 : alookup g3.edges ek = some em := by
        rw [hkeepO2 ek ho]
        exact he
      exact ⟨hdelI ek hin, hiddelI ek em hin he3⟩
  refine ⟨g4, hrn, ?_, ?_, ?_, ?_⟩
  · simp [has_node, hlutg4, alookup_eraseKey]
  · simp [get_node_safe, hlutg4, alookup_eraseKey]
  · intro ek em he hsc
    obtain ⟨h1, h2⟩ := hincident ek em he hsc
    exact ⟨h1, by simp [has_edge, h2], by simp [get_edge_safe, h2]⟩
  · intro k m' hm' ek em he hsc
    -- the remaining node is not the removed one
    have hkne : k ≠ node_key := by
      intro hk
      subst hk
      have h1 := hwtsI k
      have h2 := hwtsO k
      rw [hg2gone] at h2
      simp at h2
      rw [h2] at h1
      simp at h1
      rw [hm'] at h1
      simp at h1
    constructor
    · -- no dangling incoming reference
      intro hx
      have h1 := hinsI k
      obtain ⟨m₃, hm₃, hfe⟩ := map_eq_extract h1 hm'
      have hx3 : ek ∈ m₃.incoming := by
        rw [← hfe]
        exact hx
      obtain ⟨m₂, hm₂, hsub, _⟩ := hshrinkO k m₃ hm₃
      rw [hg2nodes _ hkne] at hm₂
      have hx2 : ek ∈ m₂.incoming := hsub ek hx3
      have htk := hInv.inSound _ (alookup_mem hm₂) ek hx2
      rw [he] at htk
      simp at htk
      -- the edge's target is k, hence not the removed node
      have htgtk : em.target = k := htk
      have hsrcnk : em.source = node_key := by
        rcases hsc with h | h
        · exact h
        · exact absurd (htgtk ▸ h) hkne
      have ho : ek ∈ node.outgoing := by
        have h2 := (hInv.edgeInOut _ (alookup_mem he)).1
        unfold outContains at h2
        rw [hsrcnk, hnode] at h2
        simpa using h2
      have htgne : em.target ≠ node_key := fun h => hkne (htgtk ▸ h)
      exact hremO ek em ho (hg2edges ▸ he) htgne m₃ (htgtk ▸ hm₃) hx3
    · -- no dangling outgoing reference
      intro hx
      obtain ⟨m₃, hm₃, hsub, _⟩ := hshrinkI k m' hm'
      have hx3 : ek ∈ m₃.outgoing := hsub ek hx
      have h1 := houtsO k
      obtain ⟨m₂, hm₂, hfe⟩ := map_eq_extract h1 hm₃
      rw [hg2nodes _ hkne] at hm₂
      have hx2 : ek ∈ m₂.outgoing := by
        rw [← hfe]
        exact hx3
      have hsk := hInv.outSound _ (alookup_mem hm₂) ek hx2
      rw [he] at hsk
      simp at hsk
      have hsrck : em.source = k := hsk
      have htgnk : em.target = node_key := by
        rcases hsc with h | h
        · exact absurd (hsrck ▸ h) hkne
        · exact h
      have hin : ek ∈ node.incoming := by
        have h2 := (hInv.edgeInOut _ (alookup_mem he)).2
        unfold inContains at h2
        rw [htgnk, hnode] at h2
        simpa using h2
      have ho : ek ∉ node.outgoing := by
        intro h
        obtain ⟨em', he', hs'⟩ := houtmem ek h
        rw [he] at he'
        cases he'
        exact hkne (hsrck ▸ hs')
      have he3 : alookup g3.edges ek = some em := by
        rw [hkeepO2 ek ho]
        exact he
      have hsrcne : em.source ≠ node_key := fun h => hkne (hsrck ▸ h)
      exact hremI ek em hin he3 hsrcne m' (hsrck ▸ hm') hx

end TypedGraph

/-- `exgC1` extended with a self-loop on node 1, an edge back to node 0 and
an edge from node 2, so that removing node 1 exercises every removal path. -/
def exgC2 : TypedGraph :=
  (((exgC1.add_edge 1 1 ⟨1, 0, 0⟩).2.add_edge 1 0 ⟨2, 0, 0⟩).2.add_edge 2 1
    ⟨3, 0, 0⟩).2

/-- Witness for C2: removing node 1 of `exgC2` returns its weight and
cascades to its incident edges. -/
theorem remove_node_cascade_witness :
    exgC2.Inv ∧ (exgC2.remove_node 1).1 = .ok ⟨1, 0, 0⟩ ∧
      ((exgC2.remove_node 1).2.has_edge 0 = false) := by
  obtain ⟨g', hrn, _, _, hinc, _⟩ := TypedGraph.remove_node_cascade exgC2
    (by decide) 1 1 ⟨⟨1, 0, 0⟩, [0, 1, 3], [1, 2]⟩ (by decide) (by decide)
  refine ⟨by decide, ?_, ?_⟩
  · rw [hrn]
  · obtain ⟨_, hh, _⟩ := hinc 0 ⟨⟨0, 5, 0⟩, 0, 1⟩ (by decide) (by decide)
    rw [hrn]
    exact hh

/- ### basic facts about the canonical rebuilt store -/

/-- First weight carrying a given id. -/
def wgtIn (ns : List NWeight) (id : Nat) : NWeight :=
  match ns with
  | [] => ⟨0, 0, 0⟩
  | w :: rest => if w.id = id then w else wgtIn rest id

/-- First DTO carrying a given edge id. -/
def dtoIn (dtos : List EdgeDTO) (id : Nat) : Option EdgeDTO :=
  match dtos with
  | [] => none
  | d :: rest => if d.weight.id = id then some d else dtoIn rest id

/-- The DTOs of a list with a given source, in order. -/
def srcFilter (id : Nat) : List EdgeDTO → List EdgeDTO
  | [] => []
  | d :: rest =>
    if d.source = id then d :: srcFilter id rest else srcFilter id rest

theorem tyIn_eq_wgtIn (ns : List NWeight) (id : Nat) :
    tyIn ns id = (wgtIn ns id).ty := by
  induction ns with
  | nil => rfl
  | cons w rest ih =>
    by_cases h : w.id = id <;> simp [tyIn, wgtIn, h, ih]

theorem wgtIn_id {ns : List NWeight} {id : Nat} (h : hasId ns id = true) :
    (wgtIn ns id).id = id := by
  induction ns with
  | nil => simp [hasId] at h
  | cons w rest ih =>
    by_cases hw : w.id = id
    · simp [wgtIn, hw]
    · simp [hasId, hw] at h
      simp [wgtIn, hw, ih h]

theorem hasId_append (l1 l2 : List NWeight) (id : Nat) :
    hasId (l1 ++ l2) id = (hasId l1 id || hasId l2 id) := by
  induction l1 with
  | nil => simp [hasId]
  | cons w rest ih => by_cases h : w.id = id <;> simp [hasId, h, ih]

theorem hasId_iff_mem (ns : List NWeight) (id : Nat) :
    hasId ns id = true ↔ ∃ w ∈ ns, w.id = id := by
  induction ns with
  | nil => simp [hasId]
  | cons w rest ih =>
    by_cases h : w.id = id <;> simp [hasId, h, ih]

theorem idIdx_lt_length {ns : List NWeight} {id : Nat}
    (h : hasId ns id = true) : idIdx ns id < ns.length := by
  induction ns with
  | nil => simp [hasId] at h
  | cons w rest ih =>
    by_cases hw : w.id = id
    · simp [idIdx, hw]
    · simp [hasId, hw] at h
      simp only [idIdx, if_neg hw, List.length_cons]
      exact Nat.succ_lt_succ (ih h)

/- lookup characterizations, generalized over the first key -/

theorem alookup_lutOf_mem {ns : List NWeight} {id : Nat}
    (h : hasId ns id = true) (k0 : Nat) :
    alookup (lutOf k0 ns) id = some (k0 + idIdx ns id) := by
  induction ns generalizing k0 with
  | nil => simp [hasId] at h
  | cons w rest ih =>
    by_cases hw : w.id = id
    · simp [lutOf, alookup, idIdx, hw]
    · simp [hasId, hw] at h
      simp only [lutOf, alookup, if_neg hw, idIdx]
      rw [ih h (k0 + 1)]
      congr 1
      omega

theorem alookup_lutOf_not {ns : List NWeight} {id : Nat}
    (h : hasId ns id = false) (k0 : Nat) :
    alookup (lutOf k0 ns) id = none := by
  induction ns generalizing k0 with
  | nil => rfl
  | cons w rest ih =>
    by_cases hw : w.id = id
    · simp [hasId, hw] at h
    · simp only [hasId, hw] at h
      simp only [lutOf, alookup, if_neg hw]
      exact ih (by simpa using h) (k0 + 1)

theorem alookup_elutOf_not {dtos : List EdgeDTO} {id : Nat}
    (h : ∀ d ∈ dtos, d.weight.id ≠ id) (k0 : Nat) :
    alookup (elutOf k0 dtos) id = none := by
  induction dtos generalizing k0 with
  | nil => rfl
  | cons d rest ih =>
    have hd := h d (List.mem_cons_self _ _)
    simp only [elutOf, alookup, if_neg hd]
    exact ih (fun d' hd' => h d' (List.mem_cons_of_mem _ hd')) (k0 + 1)

theorem alookup_nodesOf_mem (dtos : List EdgeDTO) {ns : List NWeight}
    {id : Nat} (h : hasId ns id = true) (k0 : Nat) :
    alookup (nodesOf dtos k0 ns) (k0 + idIdx ns id) =
      some ⟨wgtIn ns id, inKeysOf id 0 dtos, outKeysOf id 0 dtos⟩ := by
  induction ns generalizing k0 with
  | nil => simp [hasId] at h
  | cons w rest ih =>
    by_cases hw : w.id = id
    · simp [nodesOf, alookup, idIdx, hw, wgtIn]
    · simp only [hasId, hw] at h
      simp only [nodesOf, alookup, idIdx, if_neg hw, wgtIn]
      have hne : ¬ k0 = k0 + (idIdx rest id + 1) := by omega
      rw [if_neg hne]
      have := ih (by simpa using h) (k0 + 1)
      rw [show k0 + (idIdx rest id + 1) = (k0 + 1) + idIdx rest id by omega]
      exact this

theorem nodesOf_length (dtos : List EdgeDTO) (ns : List NWeight) (k0 : Nat) :
    (nodesOf dtos k0 ns).length = ns.length := by
  induction ns generalizing k0 with
  | nil => rfl
  | cons w rest ih => simp [nodesOf, ih]

theorem edgesOf_length (ns : List NWeight) (dtos : List EdgeDTO) (k0 : Nat) :
    (edgesOf ns k0 dtos).length = dtos.length := by
  induction dtos generalizing k0 with
  | nil => rfl
  | cons d rest ih => simp [edgesOf, ih]

/- append laws -/

theorem outKeysOf_append (id k0 : Nat) (l1 l2 : List EdgeDTO) :
    outKeysOf id k0 (l1 ++ l2) =
      outKeysOf id k0 l1 ++ outKeysOf id (k0 + l1.length) l2 := by
  induction l1 generalizing k0 with
  | nil => simp [outKeysOf]
  | cons d rest ih =>
    by_cases h : d.source = id <;>
      simp [outKeysOf, h, ih (k0 + 1), Nat.add_assoc, Nat.add_comm 1]

theorem inKeysOf_append (id k0 : Nat) (l1 l2 : List EdgeDTO) :
    inKeysOf id k0 (l1 ++ l2) =
      inKeysOf id k0 l1 ++ inKeysOf id (k0 + l1.length) l2 := by
  induction l1 generalizing k0 with
  | nil => simp [inKeysOf]
  | cons d rest ih =>
    by_cases h : d.target = id <;>
      simp [inKeysOf, h, ih (k0 + 1), Nat.add_assoc, Nat.add_comm 1]

theorem edgesOf_append (ns : List NWeight) (k0 : Nat) (l1 l2 : List EdgeDTO) :
    edgesOf ns k0 (l1 ++ l2) =
      edgesOf ns k0 l1 ++ edgesOf ns (k0 + l1.length) l2 := by
  induction l1 generalizing k0 with
  | nil => simp [edgesOf]
  | cons d rest ih =>
    simp [edgesOf, ih (k0 + 1), Nat.add_assoc, Nat.add_comm 1]

theorem elutOf_append (k0 : Nat) (l1 l2 : List EdgeDTO) :
    elutOf k0 (l1 ++ l2) = elutOf k0 l1 ++ elutOf (k0 + l1.length) l2 := by
  induction l1 generalizing k0 with
  | nil => simp [elutOf]
  | cons d rest ih =>
    simp [elutOf, ih (k0 + 1), Nat.add_assoc, Nat.add_comm 1]

theorem lutOf_append (k0 : Nat) (l1 l2 : List NWeight) :
    lutOf k0 (l1 ++ l2) = lutOf k0 l1 ++ lutOf (k0 + l1.length) l2 := by
  induction l1 generalizing k0 with
  | nil => simp [lutOf]
  | cons d rest ih =>
    simp [lutOf, ih (k0 + 1), Nat.add_assoc, Nat.add_comm 1]

theorem nodesOf_append (dtos : List EdgeDTO) (k0 : Nat)
    (l1 l2 : List NWeight) :
    nodesOf dtos k0 (l1 ++ l2) =
      nodesOf dtos k0 l1 ++ nodesOf dtos (k0 + l1.length) l2 := by
  induction l1 generalizing k0 with
  | nil => simp [nodesOf]
  | cons w rest ih =>
    simp [nodesOf, ih (k0 + 1), Nat.add_assoc, Nat.add_comm 1]

/- bounds -/

theorem outKeysOf_ge {id k0 : Nat} {l : List EdgeDTO} :
    ∀ x ∈ outKeysOf id k0 l, k0 ≤ x := by
  induction l generalizing k0 with
  | nil => simp [outKeysOf]
  | cons d rest ih =>
    intro x hx
    by_cases h : d.source = id
    · simp only [outKeysOf, if_pos h] at hx
      rcases List.mem_cons.mp hx with h2 | h2
      · omega
      · have := ih x h2
        omega
    · simp only [outKeysOf, if_neg h] at hx
      have := ih x hx
      omega

theorem inKeysOf_ge {id k0 : Nat} {l : List EdgeDTO} :
    ∀ x ∈ inKeysOf id k0 l, k0 ≤ x := by
  induction l generalizing k0 with
  | nil => simp [inKeysOf]
  | cons d rest ih =>
    intro x hx
    by_cases h : d.target = id
    · simp only [inKeysOf, if_pos h] at hx
      rcases List.mem_cons.mp hx with h2 | h2
      · omega
      · have := ih x h2
        omega
    · simp only [inKeysOf, if_neg h] at hx
      have := ih x hx
      omega

theorem outKeysOf_lt {id k0 : Nat} {l : List EdgeDTO} :
    ∀ x ∈ outKeysOf id k0 l, x < k0 + l.length := by
  induction l generalizing k0 with
  | nil => simp [outKeysOf]
  | cons d rest ih =>
    intro x hx
    by_cases h : d.source = id
    · simp only [outKeysOf, if_pos h] at hx
      rcases List.mem_cons.mp hx with h2 | h2
      · simp [h2]
      · have := ih x h2
        simp only [List.length_cons]
        omega
    · simp only [outKeysOf, if_neg h] at hx
      have := ih x hx
      simp only [List.length_cons]
      omega

theorem inKeysOf_lt {id k0 : Nat} {l : List EdgeDTO} :
    ∀ x ∈ inKeysOf id k0 l, x < k0 + l.length := by
  induction l generalizing k0 with
  | nil => simp [inKeysOf]
  | cons d rest ih =>
    intro x hx
    by_cases h : d.target = id
    · simp only [inKeysOf, if_pos h] at hx
      rcases List.mem_cons.mp hx with h2 | h2
      · simp [h2]
      · have := ih x h2
        simp only [List.length_cons]
        omega
    · simp only [inKeysOf, if_neg h] at hx
      have := ih x hx
      simp only [List.length_cons]
      omega

/-- Full characterization of the canonical node table, by key. -/
theorem alookup_nodesOf (dtos : List EdgeDTO) (ns : List NWeight) :
    ∀ k0 k, alookup (nodesOf dtos k0 ns) k =
      if k0 ≤ k then
        (ns[k - k0]?).map
          (fun w => ⟨w, inKeysOf w.id 0 dtos, outKeysOf w.id 0 dtos⟩)
      else none := by
  induction ns with
  | nil =>
    intro k0 k
    by_cases h : k0 ≤ k <;> simp [nodesOf, alookup, h]
  | cons w rest ih =>
    intro k0 k
    by_cases hk : k0 = k
    · subst hk
      simp [nodesOf, alookup]
    · simp only [nodesOf, alookup, if_neg hk]
      rw [ih (k0 + 1) k]
      by_cases hle : k0 + 1 ≤ k
      · rw [if_pos hle, if_pos (by omega)]
        rw [show k - k0 = (k - (k0 + 1)) + 1 by omega]
        simp
      · rw [if_neg hle]
        by_cases hle2 : k0 ≤ k
        · have : k = k0 := by omega
          exact absurd this.symm hk
        · rw [if_neg hle2]

/-- Full characterization of the canonical edge table, by key. -/
theorem alookup_edgesOf (ns : List NWeight) (dtos : List EdgeDTO) :
    ∀ k0 k, alookup (edgesOf ns k0 dtos) k =
      if k0 ≤ k then
        (dtos[k - k0]?).map
          (fun d => ⟨d.weight, idIdx ns d.source, idIdx ns d.target⟩)
      else none := by
  induction dtos with
  | nil =>
    intro k0 k
    by_cases h : k0 ≤ k <;> simp [edgesOf, alookup, h]
  | cons d rest ih =>
    intro k0 k
    by_cases hk : k0 = k
    · subst hk
      simp [edgesOf, alookup]
    · simp only [edgesOf, alookup, if_neg hk]
      rw [ih (k0 + 1) k]
      by_cases hle : k0 + 1 ≤ k
      · rw [if_pos hle, if_pos (by omega)]
        rw [show k - k0 = (k - (k0 + 1)) + 1 by omega]
        simp
      · rw [if_neg hle]
        by_cases hle2 : k0 ≤ k
        · have : k = k0 := by omega
          exact absurd this.symm hk
        · rw [if_neg hle2]

theorem getElem_idIdx {ns : List NWeight} {id : Nat}
    (h : hasId ns id = true) :
    ns[idIdx ns id]? = some (wgtIn ns id) := by
  induction ns with
  | nil => simp [hasId] at h
  | cons w rest ih =>
    by_cases hw : w.id = id
    · simp [idIdx, wgtIn, hw]
    · simp only [hasId, hw] at h
      simp [idIdx, wgtIn, hw, ih (by simpa using h)]

theorem idIdx_unique {ns : List NWeight} {id : Nat}
    (hnodup : (ns.map NWeight.id).Nodup) :
    ∀ {i : Nat} {w : NWeight}, ns[i]? = some w → w.id = id →
      i = idIdx ns id := by
  induction ns with
  | nil => intro i w hi; simp at hi
  | cons w' rest ih =>
    intro i w hi hid
    match i with
    | 0 =>
      simp at hi
      subst hi
      simp [idIdx, hid]
    | i + 1 =>
      simp at hi
      by_cases hw : w'.id = id
      · exfalso
        have hmem : w.id ∈ rest.map NWeight.id :=
          List.mem_map.mpr ⟨w, List.getElem?_mem hi, rfl⟩
        rw [hid, ← hw] at hmem
        exact (List.nodup_cons.mp hnodup).1 hmem
      · simp only [idIdx, if_neg hw]
        have := ih (List.nodup_cons.mp hnodup).2 hi hid
        omega

/- association lists with equal Nodup key sequences and equal lookups are
equal -/

theorem alookup_not_mem_keys {l : List (Nat × α)} {k : Nat}
    (h : k ∉ l.map Prod.fst) : alookup l k = none := by
  induction l with
  | nil => rfl
  | cons p rest ih =>
    simp only [List.map_cons, List.mem_cons, not_or] at h
    have hne : ¬ p.1 = k := fun he => h.1 he.symm
    simp only [alookup, if_neg hne]
    exact ih h.2

theorem assoc_ext {l1 l2 : List (Nat × α)}
    (hkeys : l1.map Prod.fst = l2.map Prod.fst)
    (hnodup : (l1.map Prod.fst).Nodup)
    (hlook : ∀ k, alookup l1 k = alookup l2 k) : l1 = l2 := by
  induction l1 generalizing l2 with
  | nil =>
    cases l2 with
    | nil => rfl
    | cons q t2 => simp at hkeys
  | cons p t1 ih =>
    cases l2 with
    | nil => simp at hkeys
    | cons q t2 =>
      simp only [List.map_cons, List.cons.injEq] at hkeys
      have hv := hlook p.1
      simp [alookup, hkeys.1] at hv
      have hp : p = q := Prod.ext hkeys.1 hv
      subst hp
      have hnd := List.nodup_cons.mp hnodup
      have ht : t1 = t2 := by
        apply ih hkeys.2 hnd.2
        intro k
        by_cases hk : k = p.1
        · subst hk
          rw [alookup_not_mem_keys hnd.1,
            alookup_not_mem_keys (hkeys.2 ▸ hnd.1)]
        · have := hlook k
          have hne : ¬ p.1 = k := fun h => hk h.symm
          simpa [alookup, hne] using this
      rw [ht]

theorem modifyVal_keys (l : List (Nat × α)) (k : Nat) (f : α → α) :
    (modifyVal l k f).map Prod.fst = l.map Prod.fst := by
  induction l with
  | nil => rfl
  | cons p rest ih =>
    by_cases h : p.1 = k <;> simp [modifyVal, h] at ih ⊢ <;>
      simpa [modifyVal] using ih

theorem nodesOf_keys (dtos dtos' : List EdgeDTO) (ns : List NWeight)
    (k0 : Nat) :
    (nodesOf dtos k0 ns).map Prod.fst = (nodesOf dtos' k0 ns).map Prod.fst := by
  induction ns generalizing k0 with
  | nil => rfl
  | cons w rest ih => simp [nodesOf, ih (k0 + 1)]

theorem nodesOf_keys_ge (dtos : List EdgeDTO) (ns : List NWeight) (k0 : Nat) :
    ∀ x ∈ (nodesOf dtos k0 ns).map Prod.fst, k0 ≤ x := by
  induction ns generalizing k0 with
  | nil => simp [nodesOf]
  | cons w rest ih =>
    intro x hx
    simp only [nodesOf, List.map_cons, List.mem_cons] at hx
    rcases hx with h | h
    · omega
    · have := ih (k0 + 1) x h
      omega

theorem nodesOf_keys_nodup (dtos : List EdgeDTO) (ns : List NWeight)
    (k0 : Nat) : ((nodesOf dtos k0 ns).map Prod.fst).Nodup := by
  induction ns generalizing k0 with
  | nil => simp [nodesOf]
  | cons w rest ih =>
    simp only [nodesOf, List.map_cons, List.nodup_cons]
    refine ⟨fun hmem => ?_, ih (k0 + 1)⟩
    have := nodesOf_keys_ge dtos rest (k0 + 1) k0 hmem
    omega

theorem srcFilter_subset (src : Nat) {d : EdgeDTO} {kept : List EdgeDTO}
    (hd : d ∈ srcFilter src kept) : d ∈ kept := by
  induction kept with
  | nil => simp [srcFilter] at hd
  | cons x rest ih =>
    by_cases hx : x.source = src
    · simp only [srcFilter, if_pos hx] at hd
      rcases List.mem_cons.mp hd with h | h
      · exact h ▸ List.mem_cons_self _ _
      · exact List.mem_cons_of_mem _ (ih h)
    · simp only [srcFilter, if_neg hx] at hd
      exact List.mem_cons_of_mem _ (ih hd)

/- ### getters on the canonical store -/

namespace TypedGraph

theorem mkGraph_get_node_safe (sch : Schema) (ns : List NWeight)
    (dtos : List EdgeDTO) (id : Nat) :
    get_node_safe (mkGraph sch ns dtos) id =
      if hasId ns id then some (wgtIn ns id) else none := by
  by_cases h : hasId ns id
  · rw [if_pos h]
    have h1 := alookup_lutOf_mem h 0
    have h2 := alookup_nodesOf_mem dtos h 0
    rw [Nat.zero_add] at h1 h2
    simp [get_node_safe, mkGraph, h1, h2]
  · rw [if_neg h]
    have h1 := alookup_lutOf_not (Bool.not_eq_true _ ▸ h) 0
    simp [get_node_safe, mkGraph, h1]

theorem mkGraph_get_node_ok (sch : Schema) {ns : List NWeight}
    (dtos : List EdgeDTO) {id : Nat} (h : hasId ns id = true) :
    get_node (mkGraph sch ns dtos) id = .ok (wgtIn ns id) := by
  rw [get_node, mkGraph_get_node_safe, if_pos h, okOr_some]

theorem mkGraph_has_node (sch : Schema) (ns : List NWeight)
    (dtos : List EdgeDTO) (id : Nat) :
    has_node (mkGraph sch ns dtos) id = hasId ns id := by
  by_cases h : hasId ns id
  · have h1 := alookup_lutOf_mem h 0
    simp [has_node, mkGraph, h1, h]
  · have h1 := alookup_lutOf_not (Bool.not_eq_true _ ▸ h) 0
    simp [has_node, mkGraph, h1, h]

theorem mkGraph_refOf (sch : Schema) {ns : List NWeight}
    (dtos : List EdgeDTO) {s t : Nat} (hs : hasId ns s = true)
    (ht : hasId ns t = true) (w : EWeight) (dir : Direction) :
    refOf (mkGraph sch ns dtos) ⟨w, idIdx ns s, idIdx ns t⟩ dir =
      ⟨w, s, t, dir⟩ := by
  have h1 := alookup_nodesOf_mem dtos hs 0
  have h2 := alookup_nodesOf_mem dtos ht 0
  rw [Nat.zero_add] at h1 h2
  simp [refOf, mkGraph] at h1 h2 ⊢
  rw [h1, h2]
  simp [wgtIn_id hs, wgtIn_id ht]

/-- Mapping any function over the edge records named by `outKeysOf`,
looked up in the matching edge table, is mapping it over the source-filtered
DTOs. -/
theorem outKeys_map_edges {β : Type} (ns : List NWeight) (id : Nat)
    (f : EdgeMetadata → β) :
    ∀ (kept : List EdgeDTO) (k0 : Nat),
      (outKeysOf id k0 kept).map
          (fun ek => f (unwrapD (alookup (edgesOf ns k0 kept) ek))) =
        (srcFilter id kept).map
          (fun d => f ⟨d.weight, idIdx ns d.source, idIdx ns d.target⟩) := by
  intro kept
  induction kept with
  | nil => intro k0; rfl
  | cons d rest ih =>
    intro k0
    have htail : ∀ ek ∈ outKeysOf id (k0 + 1) rest,
        f (unwrapD (alookup (edgesOf ns k0 (d :: rest)) ek)) =
          f (unwrapD (alookup (edgesOf ns (k0 + 1) rest) ek)) := by
      intro ek hek
      have hge := outKeysOf_ge ek hek
      have hne : ¬ k0 = ek := by omega
      simp [edgesOf, alookup, hne]
    by_cases h : d.source = id
    · simp only [outKeysOf, srcFilter, if_pos h, List.map_cons]
      rw [List.map_congr_left htail, ih (k0 + 1)]
      simp [edgesOf, alookup]
    · simp only [outKeysOf, srcFilter, if_neg h]
      rw [List.map_congr_left htail, ih (k0 + 1)]

theorem mkGraph_get_outgoing (sch : Schema) {ns : List NWeight}
    (kept : List EdgeDTO) {src : Nat} (hs : hasId ns src = true) :
    get_outgoing (mkGraph sch ns kept) src =
      .ok ((srcFilter src kept).map
        (fun d => refOf (mkGraph sch ns kept)
          ⟨d.weight, idIdx ns d.source, idIdx ns d.target⟩ Direction.outgoing)) := by
  have h1 := alookup_lutOf_mem hs 0
  have h2 := alookup_nodesOf_mem kept hs 0
  rw [Nat.zero_add] at h1 h2
  have hout := outKeys_map_edges ns (wgtIn ns src).id
    (fun em => refOf (mkGraph sch ns kept) em Direction.outgoing) kept 0
  rw [wgtIn_id hs] at hout
  simp only [get_outgoing,
    show (mkGraph sch ns kept).nodeLut = lutOf 0 ns from rfl, h1, okOr_some,
    get_node_internal,
    show (mkGraph sch ns kept).nodes = nodesOf kept 0 ns from rfl, h2,
    show (mkGraph sch ns kept).edges = edgesOf ns 0 kept from rfl]
  exact congrArg Except.ok hout

theorem mkGraph_quantityLoop (sch : Schema) {ns : List NWeight}
    (dtos : List EdgeDTO) (ety tty src : Nat) :
    ∀ kept : List EdgeDTO, (∀ d ∈ kept, hasId ns d.target = true) →
      quantityLoop (mkGraph sch ns dtos) ety tty
          ((srcFilter src kept).map
            (fun d => (⟨d.weight, d.source, d.target, Direction.outgoing⟩ : EdgeRef))) =
        .ok (classCnt ns src ety tty kept) := by
  intro kept
  induction kept with
  | nil => intro _; rfl
  | cons d rest ih =>
    intro hk
    have hrec := ih (fun d' hd' => hk d' (List.mem_cons_of_mem _ hd'))
    by_cases h : d.source = src
    · simp only [srcFilter, if_pos h, List.map_cons]
      by_cases hty : d.weight.ty = ety
      · have hget := mkGraph_get_node_ok sch dtos (hk d (List.mem_cons_self _ _))
        by_cases htt : tyIn ns d.target = tty
        · simp [quantityLoop, hty, hget, hrec, classCnt, h, htt, Nat.add_comm]
          exact tyIn_eq_wgtIn ns d.target ▸ htt
        · have : ¬ (wgtIn ns d.target).ty = tty := tyIn_eq_wgtIn ns d.target ▸ htt
          simp [quantityLoop, hty, hget, hrec, classCnt, h, htt, this]
      · simp [quantityLoop, hty, hrec, classCnt, hty]
    · simp only [srcFilter, if_neg h]
      simp [hrec, classCnt, h]

theorem mkGraph_edgeClassQuantity (sch : Schema) {ns : List NWeight}
    {kept : List EdgeDTO} {src : Nat} (ety tty : Nat)
    (hs : hasId ns src = true)
    (hk : ∀ d ∈ kept, hasId ns d.source = true ∧ hasId ns d.target = true) :
    edgeClassQuantity (mkGraph sch ns kept) src ety tty =
      .ok (classCnt ns src ety tty kept) := by
  rw [edgeClassQuantity, mkGraph_get_outgoing sch kept hs]
  have hmap : (srcFilter src kept).map
      (fun d => refOf (mkGraph sch ns kept)
        ⟨d.weight, idIdx ns d.source, idIdx ns d.target⟩ Direction.outgoing) =
      (srcFilter src kept).map
        (fun d => (⟨d.weight, d.source, d.target, Direction.outgoing⟩ : EdgeRef)) := by
    apply List.map_congr_left
    intro d hd
    have hdmem : d ∈ kept := srcFilter_subset src hd
    exact mkGraph_refOf sch kept (hk d hdmem).1 (hk d hdmem).2 d.weight _
  rw [hmap]
  exact mkGraph_quantityLoop sch kept ety tty src kept
    (fun d hd => (hk d hd).2)

end TypedGraph

/- ### inserting one more edge into the canonical store -/

theorem nodesOf_snoc (ns : List NWeight) (kept : List EdgeDTO) (d : EdgeDTO)
    (hnodup : (ns.map NWeight.id).Nodup)
    (hs : hasId ns d.source = true) (ht : hasId ns d.target = true) :
    modifyVal (modifyVal (nodesOf kept 0 ns) (idIdx ns d.source)
        (fun m => { m with outgoing := isetInsert m.outgoing kept.length }))
      (idIdx ns d.target)
      (fun m => { m with incoming := isetInsert m.incoming kept.length }) =
    nodesOf (kept ++ [d]) 0 ns := by
  apply assoc_ext
  · rw [modifyVal_keys, modifyVal_keys]
    exact nodesOf_keys kept (kept ++ [d]) ns 0
  · rw [modifyVal_keys, modifyVal_keys]
    exact nodesOf_keys_nodup kept ns 0
  · intro k
    rw [alookup_modifyVal, alookup_modifyVal, alookup_nodesOf, alookup_nodesOf]
    simp only [Nat.zero_le, if_true, Nat.sub_zero]
    cases hk : ns[k]? with
    | none =>
      by_cases h1 : k = idIdx ns d.target <;>
        by_cases h2 : k = idIdx ns d.source <;> simp [h1, h2]
    | some w =>
      have hiffs : (k = idIdx ns d.source) ↔ (w.id = d.source) := by
        constructor
        · intro hke
          have h0 := getElem_idIdx hs
          rw [← hke, hk] at h0
          injection h0 with h0
          rw [h0]
          exact wgtIn_id hs
        · intro hid
          exact idIdx_unique hnodup hk hid
      have hifft : (k = idIdx ns d.target) ↔ (w.id = d.target) := by
        constructor
        · intro hke
          have h0 := getElem_idIdx ht
          rw [← hke, hk] at h0
          injection h0 with h0
          rw [h0]
          exact wgtIn_id ht
        · intro hid
          exact idIdx_unique hnodup hk hid
      have houtapp : outKeysOf w.id 0 (kept ++ [d]) =
          outKeysOf w.id 0 kept ++
            (if d.source = w.id then [kept.length] else []) := by
        rw [outKeysOf_append]
        by_cases hds : d.source = w.id <;> simp [outKeysOf, hds]
      have hinapp : inKeysOf w.id 0 (kept ++ [d]) =
          inKeysOf w.id 0 kept ++
            (if d.target = w.id then [kept.length] else []) := by
        rw [inKeysOf_append]
        by_cases hdt : d.target = w.id <;> simp [inKeysOf, hdt]
      have hnotout : kept.length ∉ outKeysOf w.id 0 kept := by
        intro hmem
        have := outKeysOf_lt _ hmem
        omega
      have hnotin : kept.length ∉ inKeysOf w.id 0 kept := by
        intro hmem
        have := inKeysOf_lt _ hmem
        omega
      by_cases hws : w.id = d.source <;> by_cases hwt : w.id = d.target
      · rw [if_pos (hifft.mpr hwt), if_pos (hiffs.mpr hws)]
        simp [houtapp, hinapp, hws.symm, hwt.symm, isetInsert, hnotout, hnotin]
      · rw [if_neg (fun h => hwt (hifft.mp h)), if_pos (hiffs.mpr hws)]
        simp [houtapp, hinapp, hws.symm, isetInsert, hnotout]
        exact fun h => hwt h.symm
      · rw [if_pos (hifft.mpr hwt), if_neg (fun h => hws (hiffs.mp h))]
        simp [houtapp, hinapp, hwt.symm, isetInsert, hnotin]
        exact fun h => hws h.symm
      · rw [if_neg (fun h => hwt (hifft.mp h)),
          if_neg (fun h => hws (hiffs.mp h))]
        simp [houtapp, hinapp]
        exact ⟨fun h => hwt h.symm, fun h => hws h.symm⟩

namespace TypedGraph

theorem pushEdge_mkGraph (sch : Schema) (ns : List NWeight)
    (kept : List EdgeDTO) (d : EdgeDTO)
    (hnodup : (ns.map NWeight.id).Nodup)
    (hs : hasId ns d.source = true) (ht : hasId ns d.target = true) :
    pushEdge (mkGraph sch ns kept) (idIdx ns d.source) (idIdx ns d.target)
        d.weight =
      mkGraph sch ns (kept ++ [d]) := by
  have hnodes := nodesOf_snoc ns kept d hnodup hs ht
  have hedges : edgesOf ns 0 kept ++
      [(kept.length, (⟨d.weight, idIdx ns d.source, idIdx ns d.target⟩ : EdgeMetadata))] =
      edgesOf ns 0 (kept ++ [d]) := by
    rw [edgesOf_append]
    simp [edgesOf]
  have helut : elutOf 0 kept ++ [(d.weight.id, kept.length)] =
      elutOf 0 (kept ++ [d]) := by
    rw [elutOf_append]
    simp [elutOf]
  simp only [pushEdge, mkGraph]
  rw [show (kept ++ [d]).length = kept.length + 1 by simp]
  simp [TypedGraph.mk.injEq, helut, hnodes, hedges]

/-- Master step lemma: `add_edge` on a canonical store either appends the
DTO (schema accepted the class count of the kept DTOs plus one) or fails
with `InvalidEdgeType` leaving the store unchanged. -/
theorem add_edge_mkGraph (sch : Schema) (ns : List NWeight)
    (kept : List EdgeDTO) (d : EdgeDTO)
    (hnodup : (ns.map NWeight.id).Nodup)
    (hks : ∀ d' ∈ kept, hasId ns d'.source = true ∧ hasId ns d'.target = true)
    (hs : hasId ns d.source = true) (ht : hasId ns d.target = true)
    (hfresh : ∀ d' ∈ kept, d'.weight.id ≠ d.weight.id) :
    add_edge (mkGraph sch ns kept) d.source d.target d.weight =
      match sch.allowEdge
          (classCnt ns d.source d.weight.ty (tyIn ns d.target) kept + 1)
          d.weight.ty (tyIn ns d.source) (tyIn ns d.target) with
      | none => (.ok d.weight.id, mkGraph sch ns (kept ++ [d]))
      | some e =>
        (.error (.invalidEdgeType d.weight.ty (tyIn ns d.source)
          (tyIn ns d.target) e), mkGraph sch ns kept) := by
  have h1 := alookup_lutOf_mem hs 0
  have h2 := alookup_lutOf_mem ht 0
  rw [Nat.zero_add] at h1 h2
  have h3 := alookup_nodesOf_mem kept hs 0
  have h4 := alookup_nodesOf_mem kept ht 0
  rw [Nat.zero_add] at h3 h4
  have hq := mkGraph_edgeClassQuantity sch d.weight.ty (tyIn ns d.target) hs hks
  have helut := alookup_elutOf_not hfresh 0
  have hpush := pushEdge_mkGraph sch ns kept d hnodup hs ht
  simp only [add_edge,
    show (mkGraph sch ns kept).nodeLut = lutOf 0 ns from rfl, h1, h2,
    show (mkGraph sch ns kept).nodes = nodesOf kept 0 ns from rfl, h3, h4,
    show (mkGraph sch ns kept).edgeLut = elutOf 0 kept from rfl, helut,
    show (mkGraph sch ns kept).schema = sch from rfl]
  rw [show (⟨wgtIn ns d.source, inKeysOf d.source 0 kept,
      outKeysOf d.source 0 kept⟩ : NodeMetadata).weight.id =
      d.source from wgtIn_id hs]
  rw [show (⟨wgtIn ns d.target, inKeysOf d.target 0 kept,
      outKeysOf d.target 0 kept⟩ : NodeMetadata).weight.ty =
      tyIn ns d.target from (tyIn_eq_wgtIn ns d.target).symm]
  rw [show (⟨wgtIn ns d.source, inKeysOf d.source 0 kept,
      outKeysOf d.source 0 kept⟩ : NodeMetadata).weight.ty =
      tyIn ns d.source from (tyIn_eq_wgtIn ns d.source).symm]
  rw [hq]
  cases hall : sch.allowEdge
      (classCnt ns d.source d.weight.ty (tyIn ns d.target) kept + 1)
      d.weight.ty (tyIn ns d.source) (tyIn ns d.target) with
  | some e =>
    simp [hall]
  | none =>
    simp [hall, hpush]

end TypedGraph

/- ### the two deserialization passes on canonical stores -/

namespace TypedGraph

theorem new_eq_mkGraph (sch : Schema) : TypedGraph.new sch = mkGraph sch [] [] :=
  rfl

theorem pushNode_mkGraph (sch : Schema) (ns0 : List NWeight) (w : NWeight) :
    pushNode (mkGraph sch ns0 []) w = mkGraph sch (ns0 ++ [w]) [] := by
  have hnodes : nodesOf [] 0 ns0 ++
      [(ns0.length, (⟨w, [], []⟩ : NodeMetadata))] =
      nodesOf [] 0 (ns0 ++ [w]) := by
    rw [nodesOf_append]
    simp [nodesOf, inKeysOf, outKeysOf]
  have hlut : lutOf 0 ns0 ++ [(w.id, ns0.length)] = lutOf 0 (ns0 ++ [w]) := by
    rw [lutOf_append]
    simp [lutOf]
  simp only [pushNode, mkGraph]
  rw [show (ns0 ++ [w]).length = ns0.length + 1 by simp]
  simp [TypedGraph.mk.injEq, hnodes, hlut,
    show edgesOf ns0 0 [] = edgesOf (ns0 ++ [w]) 0 [] from rfl]

theorem addNodesLoop_mkGraph (sch : Schema) :
    ∀ (ws ns0 : List NWeight),
    (((ns0 ++ ws).map NWeight.id).Nodup) →
    (∀ w ∈ ws, sch.allowNode w.ty = true) →
    addNodesLoop (mkGraph sch ns0 []) ws = .ok (mkGraph sch (ns0 ++ ws) []) := by
  intro ws
  induction ws with
  | nil => intro ns0 _ _; simp [addNodesLoop]
  | cons w rest ih =>
    intro ns0 hnodup hall
    have hw : sch.allowNode w.ty = true := hall w (List.mem_cons_self _ _)
    have hnot : hasId ns0 w.id = false := by
      by_contra hcon
      have hcon2 : hasId ns0 w.id = true := by
        cases h : hasId ns0 w.id
        · exact absurd h hcon
        · rfl
      obtain ⟨w', hw', hid⟩ := (hasId_iff_mem ns0 w.id).mp hcon2
      rw [List.map_append, List.nodup_append] at hnodup
      exact hnodup.2.2 (List.mem_map.mpr ⟨w', hw', hid⟩)
        (List.mem_map.mpr ⟨w, List.mem_cons_self _ _, rfl⟩)
    have hlutnone := alookup_lutOf_not hnot 0
    have hrec := ih (ns0 ++ [w])
      (by rwa [List.append_assoc, List.singleton_append])
      (fun w' hw' => hall w' (List.mem_cons_of_mem _ hw'))
    simp only [addNodesLoop, add_node, hw,
      show (mkGraph sch ns0 []).schema = sch from rfl,
      show (mkGraph sch ns0 []).nodeLut = lutOf 0 [] ++ lutOf 0 ns0 from
        rfl]
    simp only [show lutOf 0 ([] : List NWeight) = [] from rfl,
      List.nil_append, hlutnone]
    rw [pushNode_mkGraph sch ns0 w]
    simp only [List.append_assoc, List.singleton_append] at hrec
    simp [hrec]

theorem addEdgesLoop_mkGraph (sch : Schema) (ns : List NWeight)
    (hnodup : (ns.map NWeight.id).Nodup) :
    ∀ (dtos kept : List EdgeDTO),
    (∀ d ∈ kept, hasId ns d.source = true ∧ hasId ns d.target = true) →
    (∀ d ∈ dtos, hasId ns d.source = true ∧ hasId ns d.target = true) →
    ((kept ++ dtos).map (fun d => d.weight.id)).Nodup →
    addEdgesLoop (mkGraph sch ns kept) dtos =
      (sieveStrict sch ns kept dtos).map (mkGraph sch ns) := by
  intro dtos
  induction dtos with
  | nil => intro kept _ _ _; simp [addEdgesLoop, sieveStrict, Except.map]
  | cons d rest ih =>
    intro kept hkept hdtos hids
    have hs := (hdtos d (List.mem_cons_self _ _)).1
    have ht := (hdtos d (List.mem_cons_self _ _)).2
    have hfresh : ∀ d' ∈ kept, d'.weight.id ≠ d.weight.id := by
      intro d' hd' heq
      rw [List.map_append, List.nodup_append] at hids
      exact hids.2.2 (List.mem_map.mpr ⟨d', hd', heq⟩)
        (List.mem_map.mpr ⟨d, List.mem_cons_self _ _, rfl⟩)
    have hstep := add_edge_mkGraph sch ns kept d hnodup hkept hs ht hfresh
    have hrec := ih (kept ++ [d])
      (by
        intro d' hd'
        rcases List.mem_append.mp hd' with h | h
        · exact hkept d' h
        · rcases List.mem_singleton.mp h with rfl
          exact ⟨hs, ht⟩)
      (fun d' hd' => hdtos d' (List.mem_cons_of_mem _ hd'))
      (by rwa [List.append_assoc, List.singleton_append])
    simp only [addEdgesLoop, hstep, sieveStrict]
    cases hall : sch.allowEdge
        (classCnt ns d.source d.weight.ty (tyIn ns d.target) kept + 1)
        d.weight.ty (tyIn ns d.source) (tyIn ns d.target) with
    | some e => simp [Except.map]
    | none => simp [hrec]

theorem deserialize_mkGraph (sch : Schema) (ns : List NWeight)
    (dtos : List EdgeDTO) (hnodup : (ns.map NWeight.id).Nodup)
    (hall : ∀ w ∈ ns, sch.allowNode w.ty = true)
    (hdd : ∀ d ∈ dtos, hasId ns d.source = true ∧ hasId ns d.target = true)
    (hde : (dtos.map (fun d => d.weight.id)).Nodup) :
    deserialize ⟨sch, ns, dtos⟩ =
      (sieveStrict sch ns [] dtos).map (mkGraph sch ns) := by
  have hn := addNodesLoop_mkGraph sch ns []
    (by simpa using hnodup) hall
  rw [deserialize, new_eq_mkGraph]
  simp only [List.nil_append] at hn
  simp only [hn]
  exact addEdgesLoop_mkGraph sch ns hnodup dtos []
    (by intro d hd; simp at hd) hdd (by simpa using hde)

end TypedGraph

/- ### uniqueness consequences of duplicate-free key sequences -/

theorem alookup_of_mem_nodup {l : List (Nat × α)}
    (hnd : (l.map Prod.fst).Nodup) {k : Nat} {v : α} (h : (k, v) ∈ l) :
    alookup l k = some v := by
  induction l with
  | nil => simp at h
  | cons p rest ih =>
    rcases List.mem_cons.mp h with h | h
    · rw [← h]
      simp [alookup]
    · have hnd2 := List.nodup_cons.mp hnd
      have hne : ¬ p.1 = k := by
        intro he
        exact hnd2.1 (he ▸ List.mem_map.mpr ⟨(k, v), h, rfl⟩)
      simp only [alookup, if_neg hne]
      exact ih hnd2.2 h

theorem mem_eq_of_key {l : List (Nat × α)}
    (hnd : (l.map Prod.fst).Nodup) {p q : Nat × α}
    (hp : p ∈ l) (hq : q ∈ l) (hk : p.1 = q.1) : p = q := by
  have h1 : alookup l p.1 = some p.2 := by
    rcases p with ⟨a, b⟩
    exact alookup_of_mem_nodup hnd hp
  have h2 : alookup l q.1 = some q.2 := by
    rcases q with ⟨a, b⟩
    exact alookup_of_mem_nodup hnd hq
  rw [hk] at h1
  rw [h1] at h2
  exact Prod.ext hk (Option.some.inj h2)

namespace TypedGraph

/-- Under the invariants, the node ids in storage order are duplicate-free. -/
theorem Inv.nodeIdsNodup {g : TypedGraph} (h : g.Inv) :
    ((g.nodes.map (fun p => p.2.weight)).map NWeight.id).Nodup := by
  rw [List.map_map]
  apply List.Nodup.map_on _ (List.Nodup.of_map _ h.nodesNodup)
  intro p hp q hq hid
  apply mem_eq_of_key h.nodesNodup hp hq
  have h1 := h.nlutComplete p hp
  have h2 := h.nlutComplete q hq
  simp only [Function.comp] at hid
  rw [show p.2.weight.id = q.2.weight.id from hid] at h1
  rw [h1] at h2
  exact Option.some.inj h2

/-- Under the invariants, the edge ids in storage order are duplicate-free. -/
theorem Inv.edgeIdsNodup {g : TypedGraph} (h : g.Inv) :
    (g.edges.map (fun p => p.2.weight.id)).Nodup := by
  apply List.Nodup.map_on _ (List.Nodup.of_map _ h.edgesNodup)
  intro p hp q hq hid
  apply mem_eq_of_key h.edgesNodup hp hq
  have h1 := h.elutComplete p hp
  have h2 := h.elutComplete q hq
  rw [show p.2.weight.id = q.2.weight.id from hid] at h1
  rw [h1] at h2
  exact Option.some.inj h2

end TypedGraph

/-- With duplicate-free ids, `wgtIn` recovers any member by its id. -/
theorem wgtIn_of_mem {ns : List NWeight}
    (hnd : (ns.map NWeight.id).Nodup) {w : NWeight} (h : w ∈ ns) :
    wgtIn ns w.id = w := by
  induction ns with
  | nil => simp at h
  | cons x rest ih =>
    rcases List.mem_cons.mp h with h | h
    · rw [← h]
      simp [wgtIn]
    · have hnd2 := List.nodup_cons.mp hnd
      have hne : ¬ x.id = w.id := by
        intro he
        exact hnd2.1 (he ▸ List.mem_map.mpr ⟨w, h, rfl⟩)
      simp only [wgtIn, if_neg hne]
      exact ih hnd2.2 h

theorem hasId_of_mem {ns : List NWeight} {w : NWeight} (h : w ∈ ns) :
    hasId ns w.id = true :=
  (hasId_iff_mem ns w.id).mpr ⟨w, h, rfl⟩

/- ### the serialized edge list -/

namespace TypedGraph

/-- The DTO the serializer writes for the edge slot `ek`. -/
def dtoAt (g : TypedGraph) (ek : Nat) : EdgeDTO :=
  let e := unwrapD (alookup g.edges ek)
  { weight := e.weight
    source := (unwrapD (alookup g.nodes e.source)).weight.id
    target := (unwrapD (alookup g.nodes e.target)).weight.id }

/-- All edge slots in per-node outgoing capture order. -/
def outFlat (g : TypedGraph) : List Nat :=
  g.nodes.flatMap (fun p => p.2.outgoing)

theorem serialize_edges_eq (g : TypedGraph) :
    (serialize g).edges = (outFlat g).map (dtoAt g) := by
  rw [serialize, outFlat, List.map_flatMap]
  rfl

/-- Under the invariants the capture order enumerates every live edge slot
exactly once. -/
theorem outFlat_perm {g : TypedGraph} (hInv : g.Inv) :
    List.Perm (outFlat g) (g.edges.map Prod.fst) := by
  have hnd : (outFlat g).Nodup := by
    rw [outFlat, List.nodup_flatMap]
    constructor
    · exact fun p hp => (hInv.adjNodup p hp).1
    · have hent : g.nodes.Nodup := List.Nodup.of_map _ hInv.nodesNodup
      apply List.Pairwise.imp_of_mem _ (hent.pairwise_of_forall_ne ?hne)
      case hne => exact fun p hp q hq h => h
      intro p q hp hq hpq
      intro ek hekp hekq
      have h1 := hInv.outSound p hp ek hekp
      have h2 := hInv.outSound q hq ek hekq
      rw [h1] at h2
      exact absurd (mem_eq_of_key hInv.nodesNodup hp hq
        (Option.some.inj h2)) hpq
  have hnd2 : (g.edges.map Prod.fst).Nodup := hInv.edgesNodup
  rw [List.perm_ext_iff_of_nodup hnd hnd2]
  intro ek
  constructor
  · intro hmem
    obtain ⟨p, hp, hek⟩ := List.mem_flatMap.mp hmem
    have h1 := hInv.outSound p hp ek hek
    cases hem : alookup g.edges ek with
    | none => rw [hem] at h1; simp at h1
    | some em => exact List.mem_map.mpr ⟨(ek, em), alookup_mem hem, rfl⟩
  · intro hmem
    obtain ⟨q, hq, rfl⟩ := List.mem_map.mp hmem
    have h1 := (hInv.edgeInOut q hq).1
    unfold outContains at h1
    cases hm : alookup g.nodes q.2.source with
    | none => rw [hm] at h1; simp at h1
    | some m =>
      rw [hm] at h1
      simp at h1
      exact List.mem_flatMap.mpr ⟨(q.2.source, m), alookup_mem hm, h1⟩

/-- The edge count survives serialization. -/
theorem serialize_edges_length {g : TypedGraph} (hInv : g.Inv) :
    (serialize g).edges.length = g.edges.length := by
  rw [serialize_edges_eq, List.length_map, (outFlat_perm hInv).length_eq,
    List.length_map]

/-- The serialized edge ids are duplicate-free. -/
theorem serialize_edge_ids_nodup {g : TypedGraph} (hInv : g.Inv) :
    ((serialize g).edges.map (fun d => d.weight.id)).Nodup := by
  rw [serialize_edges_eq, List.map_map]
  have hnd : (outFlat g).Nodup :=
    ((outFlat_perm hInv).nodup_iff).mpr hInv.edgesNodup
  apply List.Nodup.map_on _ hnd
  intro ek1 h1 ek2 h2 heq
  have hm1 := (outFlat_perm hInv).mem_iff.mp h1
  have hm2 := (outFlat_perm hInv).mem_iff.mp h2
  obtain ⟨p1, hp1, rfl⟩ := List.mem_map.mp hm1
  obtain ⟨p2, hp2, rfl⟩ := List.mem_map.mp hm2
  have he1 : alookup g.edges p1.1 = some p1.2 := by
    rcases p1 with ⟨a, b⟩
    exact alookup_of_mem_nodup hInv.edgesNodup hp1
  have he2 : alookup g.edges p2.1 = some p2.2 := by
    rcases p2 with ⟨a, b⟩
    exact alookup_of_mem_nodup hInv.edgesNodup hp2
  simp only [Function.comp, dtoAt, he1, he2, unwrapD, Option.getD_some] at heq
  have hc1 := hInv.elutComplete p1 hp1
  have hc2 := hInv.elutComplete p2 hp2
  rw [heq] at hc1
  rw [hc1] at hc2
  exact Option.some.inj hc2

theorem dtoAt_spec {g : TypedGraph} (hInv : g.Inv) {ek : Nat}
    {em : EdgeMetadata} (hem : alookup g.edges ek = some em) :
    ∃ sm tm, alookup g.nodes em.source = some sm ∧
      alookup g.nodes em.target = some tm ∧
      dtoAt g ek = ⟨em.weight, sm.weight.id, tm.weight.id⟩ := by
  obtain ⟨sm, hsm, _⟩ := edge_source_live hInv hem
  obtain ⟨tm, htm, _⟩ := edge_target_live hInv hem
  refine ⟨sm, tm, hsm, htm, ?_⟩
  simp [dtoAt, hem, hsm, htm, unwrapD]

theorem serialize_edges_endpoints {g : TypedGraph} (hInv : g.Inv) :
    ∀ d ∈ (serialize g).edges,
      hasId (g.nodes.map (fun p => p.2.weight)) d.source = true ∧
      hasId (g.nodes.map (fun p => p.2.weight)) d.target = true := by
  intro d hd
  rw [serialize_edges_eq] at hd
  obtain ⟨ek, hek, rfl⟩ := List.mem_map.mp hd
  have hekmem := (outFlat_perm hInv).mem_iff.mp hek
  obtain ⟨q, hq, rfl⟩ := List.mem_map.mp hekmem
  have hem : alookup g.edges q.1 = some q.2 := by
    rcases q with ⟨a, b⟩
    exact alookup_of_mem_nodup hInv.edgesNodup hq
  obtain ⟨sm, tm, hsm, htm, hdto⟩ := dtoAt_spec hInv hem
  rw [hdto]
  constructor
  · exact hasId_of_mem (List.mem_map.mpr ⟨_, alookup_mem hsm, rfl⟩)
  · exact hasId_of_mem (List.mem_map.mpr ⟨_, alookup_mem htm, rfl⟩)

/-- By-id node reads of a store satisfying the invariants, through the
serialized node list. -/
theorem get_node_safe_char {g : TypedGraph} (hInv : g.Inv) (id : Nat) :
    g.get_node_safe id =
      if hasId (g.nodes.map (fun p => p.2.weight)) id then
        some (wgtIn (g.nodes.map (fun p => p.2.weight)) id)
      else none := by
  by_cases h : hasId (g.nodes.map (fun p => p.2.weight)) id
  · rw [if_pos h]
    obtain ⟨w, hw, hid⟩ := (hasId_iff_mem _ id).mp h
    obtain ⟨p, hp, rfl⟩ := List.mem_map.mp hw
    have hpl : alookup g.nodes p.1 = some p.2 := by
      rcases p with ⟨a, b⟩
      exact alookup_of_mem_nodup hInv.nodesNodup hp
    have := get_node_safe_of_key hInv hpl
    rw [hid] at this
    rw [this]
    congr 1
    have := wgtIn_of_mem hInv.nodeIdsNodup hw
    rw [hid] at this
    rw [this]
  · rw [if_neg h]
    cases hlut : alookup g.nodeLut id with
    | none => simp [get_node_safe, hlut]
    | some k =>
      exfalso
      obtain ⟨m, hm, hmid⟩ := lut_node hInv hlut
      exact h (hmid ▸
        hasId_of_mem (List.mem_map.mpr ⟨_, alookup_mem hm, rfl⟩))

end TypedGraph

/- ### counting and prefix-acceptance facts -/

theorem classCnt_zero {ns : List NWeight} {id : Nat} {kept : List EdgeDTO}
    (h : ∀ d ∈ kept, d.source ≠ id) (ety tty : Nat) :
    classCnt ns id ety tty kept = 0 := by
  induction kept with
  | nil => rfl
  | cons d rest ih =>
    have hd := h d (List.mem_cons_self _ _)
    have hne : ¬ (d.source = id ∧ d.weight.ty = ety ∧
        tyIn ns d.target = tty) := fun hc => hd hc.1
    simp only [classCnt, if_neg hne, Nat.zero_add]
    exact ih (fun d' hd' => h d' (List.mem_cons_of_mem _ hd'))

theorem classCnt_append (ns : List NWeight) (src ety tty : Nat)
    (l1 l2 : List EdgeDTO) :
    classCnt ns src ety tty (l1 ++ l2) =
      classCnt ns src ety tty l1 + classCnt ns src ety tty l2 := by
  induction l1 with
  | nil => simp [classCnt]
  | cons d rest ih => simp [classCnt, ih]; omega

theorem cntPair_append (l1 l2 : List (Nat × Nat)) (p : Nat × Nat) :
    cntPair (l1 ++ l2) p = cntPair l1 p + cntPair l2 p := by
  induction l1 with
  | nil => simp [cntPair]
  | cons q rest ih => simp [cntPair, ih]; omega

/-- One node's block of DTOs passes the strict sieve whenever its class
pair sequence passes the prefix check. -/
theorem sieveStrict_block (sch : Schema) (ns : List NWeight) (id : Nat) :
    ∀ (blk kept : List EdgeDTO) (seen : List (Nat × Nat)),
    (∀ d ∈ blk, d.source = id) →
    (∀ ety tty, classCnt ns id ety tty kept = cntPair seen (ety, tty)) →
    prefixOkB sch (tyIn ns id)
      (blk.map (fun d => (d.weight.ty, tyIn ns d.target))) seen = true →
    sieveStrict sch ns kept blk = .ok (kept ++ blk) := by
  intro blk
  induction blk with
  | nil => intro kept seen _ _ _; simp [sieveStrict]
  | cons d rest ih =>
    intro kept seen hsrc hcnt hpre
    have hd : d.source = id := hsrc d (List.mem_cons_self _ _)
    simp only [List.map_cons, prefixOkB, Bool.and_eq_true] at hpre
    have hnone : sch.allowEdge
        (cntPair seen (d.weight.ty, tyIn ns d.target) + 1)
        d.weight.ty (tyIn ns id) (tyIn ns d.target) = none :=
      Option.isNone_iff_eq_none.mp hpre.1
    have hcnt1 := hcnt d.weight.ty (tyIn ns d.target)
    have hstep : sch.allowEdge
        (classCnt ns d.source d.weight.ty (tyIn ns d.target) kept + 1)
        d.weight.ty (tyIn ns d.source) (tyIn ns d.target) = none := by
      rw [hd, hcnt1, hnone]
    have hrec := ih (kept ++ [d]) (seen ++ [(d.weight.ty, tyIn ns d.target)])
      (fun d' hd' => hsrc d' (List.mem_cons_of_mem _ hd'))
      (by
        intro ety tty
        rw [classCnt_append, cntPair_append, hcnt ety tty]
        congr 1
        simp only [classCnt, cntPair, hd]
        by_cases h1 : d.weight.ty = ety <;>
          by_cases h2 : tyIn ns d.target = tty <;>
            simp [h1, h2, Prod.ext_iff])
      hpre.2
    simp only [sieveStrict, hstep, hrec]
    rw [List.append_assoc, List.singleton_append]

theorem sieveStrict_append (sch : Schema) (ns : List NWeight) :
    ∀ (l1 l2 kept : List EdgeDTO),
    sieveStrict sch ns kept (l1 ++ l2) =
      match sieveStrict sch ns kept l1 with
      | .ok kept' => sieveStrict sch ns kept' l2
      | .error e => .error e := by
  intro l1
  induction l1 with
  | nil => intro l2 kept; simp [sieveStrict]
  | cons d rest ih =>
    intro l2 kept
    simp only [List.cons_append, sieveStrict]
    cases sch.allowEdge
        (classCnt ns d.source d.weight.ty (tyIn ns d.target) kept + 1)
        d.weight.ty (tyIn ns d.source) (tyIn ns d.target) with
    | some e => rfl
    | none => exact ih l2 (kept ++ [d])

namespace TypedGraph

/-- Every serialized DTO of a node carries that node's id as source. -/
theorem block_sources {g : TypedGraph} (hInv : g.Inv)
    {p : Nat × NodeMetadata} (hp : p ∈ g.nodes) :
    ∀ d ∈ p.2.outgoing.map (dtoAt g), d.source = p.2.weight.id := by
  intro d hd
  obtain ⟨ek, hek, rfl⟩ := List.mem_map.mp hd
  have hsound := hInv.outSound p hp ek hek
  cases hem : alookup g.edges ek with
  | none => rw [hem] at hsound; simp at hsound
  | some em =>
    rw [hem] at hsound
    simp at hsound
    obtain ⟨sm, tm, hsm, htm, hdto⟩ := dtoAt_spec hInv hem
    rw [hdto]
    show sm.weight.id = p.2.weight.id
    rw [hsound] at hsm
    have hpl : alookup g.nodes p.1 = some p.2 := by
      rcases p with ⟨a, b⟩
      exact alookup_of_mem_nodup hInv.nodesNodup hp
    rw [hpl] at hsm
    rw [Option.some.inj hsm]

/-- The serialized class-pair sequence of a node's block coincides with the
stored one. -/
theorem block_pairs {g : TypedGraph} (hInv : g.Inv)
    {p : Nat × NodeMetadata} (hp : p ∈ g.nodes) :
    (p.2.outgoing.map (dtoAt g)).map
        (fun d => (d.weight.ty,
          tyIn (g.nodes.map (fun q => q.2.weight)) d.target)) =
      p.2.outgoing.map (classPairOf g) := by
  rw [List.map_map]
  apply List.map_congr_left
  intro ek hek
  have hsound := hInv.outSound p hp ek hek
  cases hem : alookup g.edges ek with
  | none => rw [hem] at hsound; simp at hsound
  | some em =>
    obtain ⟨sm, tm, hsm, htm, hdto⟩ := dtoAt_spec hInv hem
    simp only [Function.comp, hdto, classPairOf, hem, htm, unwrapD,
      Option.getD_some]
    have : wgtIn (g.nodes.map (fun q => q.2.weight)) tm.weight.id =
        tm.weight :=
      wgtIn_of_mem hInv.nodeIdsNodup
        (List.mem_map.mpr ⟨_, alookup_mem htm, rfl⟩)
    rw [tyIn_eq_wgtIn, this]

/-- The stored node type is recovered by `tyIn` over the serialized list. -/
theorem tyIn_of_node {g : TypedGraph} (hInv : g.Inv)
    {p : Nat × NodeMetadata} (hp : p ∈ g.nodes) :
    tyIn (g.nodes.map (fun q => q.2.weight)) p.2.weight.id =
      p.2.weight.ty := by
  rw [tyIn_eq_wgtIn,
    wgtIn_of_mem hInv.nodeIdsNodup (List.mem_map.mpr ⟨p, hp, rfl⟩)]

/-- The strict sieve accepts the whole serialized edge list of a
schema-valid store, node block after node block. -/
theorem sieveStrict_capture {g : TypedGraph} (hInv : g.Inv)
    (hval : g.SchemaValid) :
    ∀ (L : List (Nat × NodeMetadata)), (∀ p ∈ L, p ∈ g.nodes) →
    (L.map (fun p => p.2.weight.id)).Nodup →
    ∀ (kept : List EdgeDTO),
      (∀ d ∈ kept, ∀ p ∈ L, d.source ≠ p.2.weight.id) →
    sieveStrict g.schema (g.nodes.map (fun q => q.2.weight)) kept
        (L.flatMap (fun p => p.2.outgoing.map (dtoAt g))) =
      .ok (kept ++ L.flatMap (fun p => p.2.outgoing.map (dtoAt g))) := by
  intro L
  induction L with
  | nil => intro _ _ kept _; simp [sieveStrict]
  | cons p rest ih =>
    intro hmem hnodup kept hdisj
    have hp : p ∈ g.nodes := hmem p (List.mem_cons_self _ _)
    have hblock := sieveStrict_block g.schema
      (g.nodes.map (fun q => q.2.weight)) p.2.weight.id
      (p.2.outgoing.map (dtoAt g)) kept []
      (block_sources hInv hp)
      (by
        intro ety tty
        rw [classCnt_zero
          (fun d hd => hdisj d hd p (List.mem_cons_self _ _))]
        rfl)
      (by
        rw [tyIn_of_node hInv hp, block_pairs hInv hp]
        exact hval.2 p hp)
    have hnodup2 := List.nodup_cons.mp hnodup
    have hrec := ih (fun q hq => hmem q (List.mem_cons_of_mem _ hq))
      hnodup2.2 (kept ++ p.2.outgoing.map (dtoAt g))
      (by
        intro d hd q hq
        rcases List.mem_append.mp hd with h | h
        · exact hdisj d h q (List.mem_cons_of_mem _ hq)
        · rw [block_sources hInv hp d h]
          intro he
          apply hnodup2.1
          show p.2.weight.id ∈ List.map (fun p => p.2.weight.id) rest
          rw [he]
          exact List.mem_map.mpr ⟨q, hq, rfl⟩)
    simp only [List.flatMap_cons]
    rw [sieveStrict_append, hblock]
    simp [hrec, List.append_assoc]

/-- A store whose contents its own schema still accepts passes the strict
sieve wholesale. -/
theorem sieveStrict_serialize {g : TypedGraph} (hInv : g.Inv)
    (hval : g.SchemaValid) :
    sieveStrict g.schema (g.nodes.map (fun q => q.2.weight)) []
        (serialize g).edges = .ok (serialize g).edges := by
  have hnodup : (g.nodes.map (fun p => p.2.weight.id)).Nodup := by
    have := hInv.nodeIdsNodup
    rwa [List.map_map] at this
  have := sieveStrict_capture hInv hval g.nodes (fun p hp => hp) hnodup []
    (fun d hd => by simp at hd)
  rw [show (serialize g).edges =
    g.nodes.flatMap (fun p => p.2.outgoing.map (dtoAt g)) from rfl]
  simpa using this

end TypedGraph

/- ### by-id edge reads -/

/-- Position of the first DTO with a given edge id. -/
def dtoIdx (dtos : List EdgeDTO) (id : Nat) : Nat :=
  match dtos with
  | [] => 0
  | d :: rest => if d.weight.id = id then 0 else dtoIdx rest id + 1

theorem dtoIn_eq_none_iff (dtos : List EdgeDTO) (id : Nat) :
    dtoIn dtos id = none ↔ ∀ d ∈ dtos, d.weight.id ≠ id := by
  induction dtos with
  | nil => simp [dtoIn]
  | cons d rest ih =>
    by_cases h : d.weight.id = id <;> simp [dtoIn, h, ih]

theorem dtoIn_mem {dtos : List EdgeDTO} {id : Nat} {d : EdgeDTO}
    (h : dtoIn dtos id = some d) : d ∈ dtos ∧ d.weight.id = id := by
  induction dtos with
  | nil => simp [dtoIn] at h
  | cons d0 rest ih =>
    by_cases h0 : d0.weight.id = id
    · simp [dtoIn, h0] at h
      rw [← h]
      exact ⟨List.mem_cons_self _ _, h0⟩
    · simp only [dtoIn, if_neg h0] at h
      obtain ⟨hm, hid⟩ := ih h
      exact ⟨List.mem_cons_of_mem _ hm, hid⟩

theorem dtoIn_of_mem {dtos : List EdgeDTO}
    (hnd : (dtos.map (fun d => d.weight.id)).Nodup) {d : EdgeDTO}
    (h : d ∈ dtos) : dtoIn dtos d.weight.id = some d := by
  induction dtos with
  | nil => simp at h
  | cons d0 rest ih =>
    rcases List.mem_cons.mp h with h | h
    · rw [← h]
      simp [dtoIn]
    · have hnd2 := List.nodup_cons.mp hnd
      have hne : ¬ d0.weight.id = d.weight.id := by
        intro he
        apply hnd2.1
        show d0.weight.id ∈ List.map (fun d => d.weight.id) rest
        rw [he]
        exact List.mem_map.mpr ⟨d, h, rfl⟩
      simp only [dtoIn, if_neg hne]
      exact ih hnd2.2 h

theorem getElem_dtoIdx {dtos : List EdgeDTO} {id : Nat} {d : EdgeDTO}
    (h : dtoIn dtos id = some d) :
    dtos[dtoIdx dtos id]? = some d := by
  induction dtos with
  | nil => simp [dtoIn] at h
  | cons d0 rest ih =>
    by_cases h0 : d0.weight.id = id
    · simp [dtoIn, h0] at h
      subst h
      simp [dtoIdx, h0]
    · simp only [dtoIn, if_neg h0] at h
      simp [dtoIdx, h0, ih h]

theorem alookup_elutOf_mem {dtos : List EdgeDTO} {id : Nat} {d : EdgeDTO}
    (h : dtoIn dtos id = some d) (k0 : Nat) :
    alookup (elutOf k0 dtos) id = some (k0 + dtoIdx dtos id) := by
  induction dtos generalizing k0 with
  | nil => simp [dtoIn] at h
  | cons d0 rest ih =>
    by_cases h0 : d0.weight.id = id
    · simp [elutOf, alookup, dtoIdx, h0]
    · simp only [dtoIn, if_neg h0] at h
      simp only [elutOf, alookup, if_neg h0, dtoIdx]
      rw [ih h (k0 + 1)]
      congr 1
      omega

theorem alookup_elutOf_none {dtos : List EdgeDTO} {id : Nat}
    (h : dtoIn dtos id = none) (k0 : Nat) :
    alookup (elutOf k0 dtos) id = none :=
  alookup_elutOf_not
    (fun d hd => (dtoIn_eq_none_iff dtos id).mp h d hd) k0

namespace TypedGraph

theorem mkGraph_get_edge_safe (sch : Schema) (ns : List NWeight)
    (dtos : List EdgeDTO) (id : Nat) :
    get_edge_safe (mkGraph sch ns dtos) id =
      (dtoIn dtos id).map (fun d => d.weight) := by
  cases h : dtoIn dtos id with
  | none =>
    simp [get_edge_safe,
      show (mkGraph sch ns dtos).edgeLut = elutOf 0 dtos from rfl,
      alookup_elutOf_none h 0]
  | some d =>
    have h1 := alookup_elutOf_mem h 0
    rw [Nat.zero_add] at h1
    have h2 := alookup_edgesOf ns dtos 0 (dtoIdx dtos id)
    rw [if_pos (Nat.zero_le _), Nat.sub_zero, getElem_dtoIdx h] at h2
    simp [get_edge_safe,
      show (mkGraph sch ns dtos).edgeLut = elutOf 0 dtos from rfl, h1,
      show (mkGraph sch ns dtos).edges = edgesOf ns 0 dtos from rfl, h2]

theorem mkGraph_edgeEnds (sch : Schema) (ns : List NWeight)
    (dtos : List EdgeDTO)
    (hdd : ∀ d ∈ dtos, hasId ns d.source = true ∧ hasId ns d.target = true)
    (id : Nat) :
    edgeEnds (mkGraph sch ns dtos) id =
      (dtoIn dtos id).map (fun d => (d.source, d.target)) := by
  cases h : dtoIn dtos id with
  | none =>
    simp [edgeEnds,
      show (mkGraph sch ns dtos).edgeLut = elutOf 0 dtos from rfl,
      alookup_elutOf_none h 0]
  | some d =>
    have hmem := dtoIn_mem h
    have hs := (hdd d hmem.1).1
    have ht := (hdd d hmem.1).2
    have h1 := alookup_elutOf_mem h 0
    rw [Nat.zero_add] at h1
    have h2 := alookup_edgesOf ns dtos 0 (dtoIdx dtos id)
    rw [if_pos (Nat.zero_le _), Nat.sub_zero, getElem_dtoIdx h] at h2
    have h3 := alookup_nodesOf_mem dtos hs 0
    have h4 := alookup_nodesOf_mem dtos ht 0
    rw [Nat.zero_add] at h3 h4
    simp [edgeEnds,
      show (mkGraph sch ns dtos).edgeLut = elutOf 0 dtos from rfl, h1,
      show (mkGraph sch ns dtos).edges = edgesOf ns 0 dtos from rfl, h2,
      show (mkGraph sch ns dtos).nodes = nodesOf dtos 0 ns from rfl, h3, h4,
      wgtIn_id hs, wgtIn_id ht]

theorem mkGraph_outEdgeIds (sch : Schema) (ns : List NWeight)
    (dtos : List EdgeDTO) (id : Nat) :
    outEdgeIds (mkGraph sch ns dtos) id =
      if hasId ns id then
        some ((srcFilter id dtos).map (fun d => d.weight.id))
      else none := by
  by_cases h : hasId ns id
  · rw [if_pos h]
    have h1 := alookup_lutOf_mem h 0
    have h2 := alookup_nodesOf_mem dtos h 0
    rw [Nat.zero_add] at h1 h2
    have hout := outKeys_map_edges ns (wgtIn ns id).id
      (fun em => em.weight.id) dtos 0
    rw [wgtIn_id h] at hout
    simp [outEdgeIds,
      show (mkGraph sch ns dtos).nodeLut = lutOf 0 ns from rfl, h1,
      show (mkGraph sch ns dtos).nodes = nodesOf dtos 0 ns from rfl, h2,
      show (mkGraph sch ns dtos).edges = edgesOf ns 0 dtos from rfl]
    exact hout
  · rw [if_neg h]
    have hb : hasId ns id = false := Bool.not_eq_true _ ▸ h
    simp [outEdgeIds,
      show (mkGraph sch ns dtos).nodeLut = lutOf 0 ns from rfl,
      alookup_lutOf_not hb 0]

end TypedGraph

theorem srcFilter_append (id : Nat) (l1 l2 : List EdgeDTO) :
    srcFilter id (l1 ++ l2) = srcFilter id l1 ++ srcFilter id l2 := by
  induction l1 with
  | nil => simp [srcFilter]
  | cons d rest ih =>
    by_cases h : d.source = id <;> simp [srcFilter, h, ih]

theorem srcFilter_all {id : Nat} {l : List EdgeDTO}
    (h : ∀ d ∈ l, d.source = id) : srcFilter id l = l := by
  induction l with
  | nil => rfl
  | cons d rest ih =>
    simp [srcFilter, h d (List.mem_cons_self _ _),
      ih (fun d' hd' => h d' (List.mem_cons_of_mem _ hd'))]

theorem srcFilter_nil {id : Nat} {l : List EdgeDTO}
    (h : ∀ d ∈ l, d.source ≠ id) : srcFilter id l = [] := by
  induction l with
  | nil => rfl
  | cons d rest ih =>
    simp [srcFilter, h d (List.mem_cons_self _ _),
      ih (fun d' hd' => h d' (List.mem_cons_of_mem _ hd'))]

namespace TypedGraph

/-- A membership inverse for the serialized edge list. -/
theorem mem_serialize_edges {g : TypedGraph} (hInv : g.Inv) {d : EdgeDTO}
    (hd : d ∈ (serialize g).edges) :
    ∃ ek em, alookup g.edges ek = some em ∧ d = dtoAt g ek := by
  rw [serialize_edges_eq] at hd
  obtain ⟨ek, hek, rfl⟩ := List.mem_map.mp hd
  have hekmem := (outFlat_perm hInv).mem_iff.mp hek
  obtain ⟨q, hq, rfl⟩ := List.mem_map.mp hekmem
  have hem : alookup g.edges q.1 = some q.2 := by
    rcases q with ⟨a, b⟩
    exact alookup_of_mem_nodup hInv.edgesNodup hq
  exact ⟨q.1, q.2, hem, rfl⟩

/-- Every live edge slot's DTO appears in the serialized list. -/
theorem dtoAt_mem_serialize {g : TypedGraph} (hInv : g.Inv) {ek : Nat}
    {em : EdgeMetadata} (hem : alookup g.edges ek = some em) :
    dtoAt g ek ∈ (serialize g).edges := by
  rw [serialize_edges_eq]
  apply List.mem_map_of_mem
  exact (outFlat_perm hInv).mem_iff.mpr
    (List.mem_map.mpr ⟨(ek, em), alookup_mem hem, rfl⟩)

/-- By-id edge weight reads through the serialized DTO list. -/
theorem get_edge_safe_char {g : TypedGraph} (hInv : g.Inv) (id : Nat) :
    g.get_edge_safe id =
      (dtoIn (serialize g).edges id).map (fun d => d.weight) := by
  cases hlut : alookup g.edgeLut id with
  | none =>
    have hni : dtoIn (serialize g).edges id = none := by
      rw [dtoIn_eq_none_iff]
      intro d hd hid
      obtain ⟨ek, em, hem, rfl⟩ := mem_serialize_edges hInv hd
      obtain ⟨sm, tm, hsm, htm, hdto⟩ := dtoAt_spec hInv hem
      rw [hdto] at hid
      have := hInv.elutComplete (ek, em) (alookup_mem hem)
      simp only at this
      rw [hid] at this
      rw [this] at hlut
      exact Option.noConfusion hlut
    simp [get_edge_safe, hlut, hni]
  | some k =>
    obtain ⟨em, hem, hemid⟩ := lut_edge hInv hlut
    obtain ⟨sm, tm, hsm, htm, hdto⟩ := dtoAt_spec hInv hem
    have hmem := dtoAt_mem_serialize hInv hem
    have hin : dtoIn (serialize g).edges id = some (dtoAt g k) := by
      have := dtoIn_of_mem (serialize_edge_ids_nodup hInv) hmem
      rw [hdto] at this
      simp only at this
      rw [hemid] at this
      rw [hdto]
      exact this
    rw [hin, hdto]
    simp [get_edge_safe, hlut, hem]

/-- By-id edge endpoint reads through the serialized DTO list. -/
theorem edgeEnds_char {g : TypedGraph} (hInv : g.Inv) (id : Nat) :
    g.edgeEnds id =
      (dtoIn (serialize g).edges id).map (fun d => (d.source, d.target)) := by
  cases hlut : alookup g.edgeLut id with
  | none =>
    have hni : dtoIn (serialize g).edges id = none := by
      rw [dtoIn_eq_none_iff]
      intro d hd hid
      obtain ⟨ek, em, hem, rfl⟩ := mem_serialize_edges hInv hd
      obtain ⟨sm, tm, hsm, htm, hdto⟩ := dtoAt_spec hInv hem
      rw [hdto] at hid
      have := hInv.elutComplete (ek, em) (alookup_mem hem)
      simp only at this
      rw [hid] at this
      rw [this] at hlut
      exact Option.noConfusion hlut
    simp [edgeEnds, hlut, hni]
  | some k =>
    obtain ⟨em, hem, hemid⟩ := lut_edge hInv hlut
    obtain ⟨sm, tm, hsm, htm, hdto⟩ := dtoAt_spec hInv hem
    have hmem := dtoAt_mem_serialize hInv hem
    have hin : dtoIn (serialize g).edges id = some (dtoAt g k) := by
      have := dtoIn_of_mem (serialize_edge_ids_nodup hInv) hmem
      rw [hdto] at this
      simp only at this
      rw [hemid] at this
      rw [hdto]
      exact this
    rw [hin, hdto]
    simp [edgeEnds, hlut, hem, hsm, htm]

/-- Exactly one node block feeds `srcFilter` at a live id. -/
theorem srcFilter_blocks {g : TypedGraph} (hInv : g.Inv) :
    ∀ (L : List (Nat × NodeMetadata)), (∀ q ∈ L, q ∈ g.nodes) →
    (L.map (fun q => q.2.weight.id)).Nodup →
    ∀ {p : Nat × NodeMetadata}, p ∈ L →
    srcFilter p.2.weight.id
        (L.flatMap (fun q => q.2.outgoing.map (dtoAt g))) =
      p.2.outgoing.map (dtoAt g) := by
  intro L
  induction L with
  | nil => intro _ _ p hp; simp at hp
  | cons q rest ih =>
    intro hmem hnodup p hp
    have hq : q ∈ g.nodes := hmem q (List.mem_cons_self _ _)
    have hnodup2 := List.nodup_cons.mp hnodup
    simp only [List.flatMap_cons, srcFilter_append]
    rcases List.mem_cons.mp hp with hpq | hp2
    · subst hpq
      rw [srcFilter_all (block_sources hInv hq)]
      rw [srcFilter_nil, List.append_nil]
      intro d hd
      obtain ⟨q', hq', hdq⟩ := List.mem_flatMap.mp hd
      rw [block_sources hInv (hmem q' (List.mem_cons_of_mem _ hq')) d hdq]
      intro he
      apply hnodup2.1
      show p.2.weight.id ∈ List.map (fun q => q.2.weight.id) rest
      rw [← he]
      exact List.mem_map.mpr ⟨q', hq', rfl⟩
    · rw [srcFilter_nil, List.nil_append]
      · exact ih (fun q' hq' => hmem q' (List.mem_cons_of_mem _ hq'))
          hnodup2.2 hp2
      · intro d hd
        rw [block_sources hInv hq d hd]
        intro he
        apply hnodup2.1
        show q.2.weight.id ∈ List.map (fun q => q.2.weight.id) rest
        rw [he]
        exact List.mem_map.mpr ⟨p, hp2, rfl⟩

/-- By-id outgoing order through the serialized DTO list. -/
theorem outEdgeIds_char {g : TypedGraph} (hInv : g.Inv) (id : Nat) :
    g.outEdgeIds id =
      if hasId (g.nodes.map (fun p => p.2.weight)) id then
        some ((srcFilter id (serialize g).edges).map (fun d => d.weight.id))
      else none := by
  by_cases h : hasId (g.nodes.map (fun p => p.2.weight)) id
  · rw [if_pos h]
    obtain ⟨w, hw, hid⟩ := (hasId_iff_mem _ id).mp h
    obtain ⟨p, hp, rfl⟩ := List.mem_map.mp hw
    have hpl : alookup g.nodes p.1 = some p.2 := by
      rcases p with ⟨a, b⟩
      exact alookup_of_mem_nodup hInv.nodesNodup hp
    have hlut := node_key_lookup hInv hpl
    rw [hid] at hlut
    have hids : (g.nodes.map (fun q => q.2.weight.id)).Nodup := by
      have := hInv.nodeIdsNodup
      rwa [List.map_map] at this
    have hblk := srcFilter_blocks hInv g.nodes (fun q hq => hq) hids hp
    rw [show (serialize g).edges =
      g.nodes.flatMap (fun q => q.2.outgoing.map (dtoAt g)) from rfl]
    rw [← hid, hblk]
    simp [outEdgeIds, hid, hlut, hpl, List.map_map, dtoAt]
  · rw [if_neg h]
    cases hlut : alookup g.nodeLut id with
    | none => simp [outEdgeIds, hlut]
    | some k =>
      exfalso
      obtain ⟨m, hm, hmid⟩ := lut_node hInv hlut
      exact h (hmid ▸
        hasId_of_mem (List.mem_map.mpr ⟨_, alookup_mem hm, rfl⟩))

end TypedGraph

namespace TypedGraph

instance (g : TypedGraph) : Decidable g.SchemaValid := by
  unfold TypedGraph.SchemaValid
  infer_instance

/-- C3 (amended): for every store satisfying the data-model invariants
whose contents its own schema still accepts, serialize-then-deserialize
succeeds and preserves node and edge counts, per-id node and edge weights
(hence runtime types), per-id edge endpoints, and each node's outgoing
order as a sequence. -/
theorem serialize_roundtrip (g : TypedGraph) (hInv : g.Inv)
    (hval : g.SchemaValid) :
    ∃ g', deserialize (serialize g) = .ok g' ∧
      g'.nodes.length = g.nodes.length ∧
      g'.edges.length = g.edges.length ∧
      (∀ id, g'.get_node_safe id = g.get_node_safe id) ∧
      (∀ id, g'.get_edge_safe id = g.get_edge_safe id) ∧
      (∀ id, g'.edgeEnds id = g.edgeEnds id) ∧
      (∀ id, g'.outEdgeIds id = g.outEdgeIds id) := by
  refine ⟨mkGraph g.schema (g.nodes.map (fun p => p.2.weight))
    (serialize g).edges, ?_, ?_, ?_, ?_, ?_, ?_, ?_⟩
  · have hd := deserialize_mkGraph g.schema
      (g.nodes.map (fun p => p.2.weight)) (serialize g).edges
      hInv.nodeIdsNodup
      (by
        intro w hw
        obtain ⟨p, hp, rfl⟩ := List.mem_map.mp hw
        exact hval.1 p hp)
      (serialize_edges_endpoints hInv) (serialize_edge_ids_nodup hInv)
    rw [show deserialize (serialize g) =
      (sieveStrict g.schema (g.nodes.map (fun p => p.2.weight)) []
          (serialize g).edges).map
        (mkGraph g.schema (g.nodes.map (fun p => p.2.weight))) from hd,
      sieveStrict_serialize hInv hval]
    rfl
  · simp [mkGraph, nodesOf_length]
  · simp [mkGraph, edgesOf_length, serialize_edges_length hInv]
  · intro id
    rw [mkGraph_get_node_safe, get_node_safe_char hInv]
  · intro id
    rw [mkGraph_get_edge_safe, get_edge_safe_char hInv]
  · intro id
    rw [mkGraph_edgeEnds _ _ _ (serialize_edges_endpoints hInv),
      edgeEnds_char hInv]
  · intro id
    rw [mkGraph_outEdgeIds, outEdgeIds_char hInv]

end TypedGraph

/-- A schema that caps edges onto targets of type 2 at one per
(source, edge-type, target-type) class and allows everything else. -/
def capSchema2 : Schema :=
  ⟨fun _ => true, fun q _ _ tty => if tty = 2 ∧ 1 < q then some .toMany else none⟩

/-- A store reached through the public operations whose re-import fails:
two type-5 edges onto node 1 are admitted while node 1 has type 1, then
`add_node` changes node 1 to type 2 (the incident re-validation counts
with the old node weights and sees no type-2 class). -/
def exgC3 : TypedGraph :=
  ((((TypedGraph.new capSchema2).add_node ⟨0, 0, 0⟩).2.add_node
      ⟨1, 1, 0⟩).2.add_edge 0 1 ⟨0, 5, 0⟩).2.add_edge 0 1 ⟨1, 5, 0⟩ |>.2

/-- The same store after the accepted type change. -/
def exgC3' : TypedGraph := (exgC3.add_node ⟨1, 2, 0⟩).2

/-- First error of a fallible store computation. -/
def errOf : Except GError TypedGraph → Option GError
  | .error e => some e
  | .ok _ => none

/-- C3 (counterexample to the unqualified claim): a store reachable through
the public operations — every step below returns `Ok` — whose
serialize-then-deserialize round trip fails with a quantity rejection
instead of succeeding. -/
theorem serialize_roundtrip_cex :
    ((TypedGraph.new capSchema2).add_node ⟨0, 0, 0⟩).1 = .ok 0 ∧
    (((TypedGraph.new capSchema2).add_node ⟨0, 0, 0⟩).2.add_node
        ⟨1, 1, 0⟩).1 = .ok 1 ∧
    ((((TypedGraph.new capSchema2).add_node ⟨0, 0, 0⟩).2.add_node
        ⟨1, 1, 0⟩).2.add_edge 0 1 ⟨0, 5, 0⟩).1 = .ok 0 ∧
    (((((TypedGraph.new capSchema2).add_node ⟨0, 0, 0⟩).2.add_node
        ⟨1, 1, 0⟩).2.add_edge 0 1 ⟨0, 5, 0⟩).2.add_edge 0 1
        ⟨1, 5, 0⟩).1 = .ok 1 ∧
    (exgC3.add_node ⟨1, 2, 0⟩).1 = .ok 1 ∧
    errOf (TypedGraph.deserialize (TypedGraph.serialize exgC3')) =
      some (.invalidEdgeType 5 0 2 .toMany) := by
  decide

/-- C3 witness: the amended round-trip theorem applied to a concrete
invariant-satisfying, schema-valid store. -/
theorem serialize_roundtrip_witness :
    exgC2.Inv ∧ exgC2.SchemaValid ∧
      ∃ g', TypedGraph.deserialize (TypedGraph.serialize exgC2) = .ok g' ∧
        g'.nodes.length = exgC2.nodes.length ∧
        g'.edges.length = exgC2.edges.length ∧
        (∀ id, g'.get_node_safe id = exgC2.get_node_safe id) ∧
        (∀ id, g'.get_edge_safe id = exgC2.get_edge_safe id) ∧
        (∀ id, g'.edgeEnds id = exgC2.edgeEnds id) ∧
        (∀ id, g'.outEdgeIds id = exgC2.outEdgeIds id) :=
  ⟨by decide, by decide,
    TypedGraph.serialize_roundtrip exgC2 (by decide) (by decide)⟩

/- ### the capture phase of update_schema -/

namespace TypedGraph

theorem captureNodeEdges_spec :
    ∀ (ks : List Nat) (T : List (Nat × EdgeMetadata)),
    ks.Nodup → (∀ k ∈ ks, (alookup T k).isSome) →
    ∃ rem, captureNodeEdges T ks =
        .ok (ks.map (fun k => unwrapD (alookup T k)), rem) ∧
      ∀ k, k ∉ ks → alookup rem k = alookup T k := by
  intro ks
  induction ks with
  | nil => exact fun T _ _ => ⟨T, rfl, fun _ _ => rfl⟩
  | cons k rest ih =>
    intro T hnd hsome
    have hk := hsome k (List.mem_cons_self _ _)
    cases hem : alookup T k with
    | none => rw [hem] at hk; simp at hk
    | some em =>
      have hnd2 := List.nodup_cons.mp hnd
      have hagree : ∀ k' ∈ rest, alookup (eraseKey T k) k' = alookup T k' := by
        intro k' hk'
        rw [alookup_eraseKey]
        rw [if_neg]
        intro he
        exact hnd2.1 (he ▸ hk')
      obtain ⟨rem, hrun, hrem⟩ := ih (eraseKey T k) hnd2.2
        (by
          intro k' hk'
          rw [hagree k' hk']
          exact hsome k' (List.mem_cons_of_mem _ hk'))
      refine ⟨rem, ?_, ?_⟩
      · have hmap : rest.map (fun k' => unwrapD (alookup (eraseKey T k) k')) =
            rest.map (fun k' => unwrapD (alookup T k')) :=
          List.map_congr_left (fun k' hk' => by rw [hagree k' hk'])
        simp only [captureNodeEdges, hem, hrun, hmap, List.map_cons,
          unwrapD_some]
      · intro k0 hk0
        have h1 : k0 ∉ rest := fun h => hk0 (List.mem_cons_of_mem _ h)
        have h2 : ¬ k0 = k := fun h => hk0 (h ▸ List.mem_cons_self _ _)
        rw [hrem k0 h1, alookup_eraseKey, if_neg h2]

theorem captureEdges_go (T0 : List (Nat × EdgeMetadata)) :
    ∀ (L : List (Nat × NodeMetadata)) (T : List (Nat × EdgeMetadata)),
    (L.flatMap (fun p => p.2.outgoing)).Nodup →
    (∀ ek ∈ L.flatMap (fun p => p.2.outgoing),
      alookup T ek = alookup T0 ek ∧ (alookup T0 ek).isSome) →
    ∃ rem, captureEdges T L =
        .ok ((L.flatMap (fun p => p.2.outgoing)).map
          (fun ek => unwrapD (alookup T0 ek)), rem) ∧
      ∀ k, k ∉ L.flatMap (fun p => p.2.outgoing) →
        alookup rem k = alookup T k := by
  intro L
  induction L with
  | nil => exact fun T _ _ => ⟨T, rfl, fun _ _ => rfl⟩
  | cons p rest ih =>
    intro T hnd hsome
    simp only [List.flatMap_cons] at hnd hsome ⊢
    rw [List.nodup_append] at hnd
    obtain ⟨hnd1, hnd2, hdisj⟩ := hnd
    obtain ⟨rem1, hrun1, hrem1⟩ := captureNodeEdges_spec p.2.outgoing T hnd1
      (by
        intro ek hek
        have h := hsome ek (List.mem_append.mpr (Or.inl hek))
        rw [h.1]
        exact h.2)
    obtain ⟨rem2, hrun2, hrem2⟩ := ih rem1 hnd2
      (by
        intro ek hek
        have h := hsome ek (List.mem_append.mpr (Or.inr hek))
        constructor
        · rw [hrem1 ek (fun hc => hdisj hc hek), h.1]
        · exact h.2)
    refine ⟨rem2, ?_, ?_⟩
    · have hmap : p.2.outgoing.map (fun ek => unwrapD (alookup T ek)) =
          p.2.outgoing.map (fun ek => unwrapD (alookup T0 ek)) :=
        List.map_congr_left (fun ek hek => by
          rw [(hsome ek (List.mem_append.mpr (Or.inl hek))).1])
      simp only [captureEdges, hrun1, hrun2, hmap, List.map_append]
    · intro k hk
      have h1 : k ∉ rest.flatMap (fun p => p.2.outgoing) :=
        fun h => hk (List.mem_append.mpr (Or.inr h))
      have h2 : k ∉ p.2.outgoing :=
        fun h => hk (List.mem_append.mpr (Or.inl h))
      rw [hrem2 k h1, hrem1 k h2]

/-- Under the invariants the capture phase returns every edge in
per-node outgoing order. -/
theorem captureEdges_ok {g : TypedGraph} (hInv : g.Inv) :
    ∃ rem, captureEdges g.edges g.nodes =
      .ok ((outFlat g).map (fun ek => unwrapD (alookup g.edges ek)), rem) := by
  have hnd : (outFlat g).Nodup :=
    ((outFlat_perm hInv).nodup_iff).mpr hInv.edgesNodup
  obtain ⟨rem, hrun, _⟩ := captureEdges_go g.edges g.nodes g.edges
    (show (g.nodes.flatMap (fun p => p.2.outgoing)).Nodup from hnd)
    (by
      intro ek hek
      refine ⟨rfl, ?_⟩
      have hmem := (outFlat_perm hInv).mem_iff.mp
        (show ek ∈ outFlat g from hek)
      obtain ⟨q, hq, rfl⟩ := List.mem_map.mp hmem
      rw [show alookup g.edges q.1 = some q.2 from by
        rcases q with ⟨a, b⟩
        exact alookup_of_mem_nodup hInv.edgesNodup hq]
      rfl)
  exact ⟨rem, hrun⟩

end TypedGraph

/- ### the node pass of update_schema -/

namespace TypedGraph

theorem updateNodesLoop_mkGraph (os : Schema)
    (nm : Schema → Schema → NWeight → Option NWeight) (nsch : Schema) :
    ∀ (L : List (Nat × NodeMetadata)) (lut0 : List (Nat × Nat))
      (ws0 : List NWeight),
    ((ws0.map NWeight.id ++ L.map (fun p => p.2.weight.id)).Nodup) →
    updateNodesLoop os nm lut0 (mkGraph nsch ws0 []) L =
      match mapNodesSpec os nsch nm (L.map (fun p => p.2.weight)) with
      | .error e => .error e
      | .ok ws =>
        .ok (lut0 ++ L.map (fun p => (p.1, p.2.weight.id)),
          mkGraph nsch (ws0 ++ ws) []) := by
  intro L
  induction L with
  | nil =>
    intro lut0 ws0 _
    simp [updateNodesLoop, mapNodesSpec]
  | cons p rest ih =>
    intro lut0 ws0 hnodup
    have hsub : (ws0.map NWeight.id ++
        rest.map (fun p => p.2.weight.id)).Sublist
        (ws0.map NWeight.id ++
          (p :: rest).map (fun p => p.2.weight.id)) := by
      apply List.Sublist.append_left
      simp
    cases hmap : nm os nsch p.2.weight with
    | none =>
      have hrec := ih (lut0 ++ [(p.1, p.2.weight.id)]) ws0
        (hnodup.sublist hsub)
      simp only [updateNodesLoop,
        show (mkGraph nsch ws0 []).schema = nsch from rfl, hmap,
        List.map_cons, mapNodesSpec, hrec]
      cases mapNodesSpec os nsch nm (rest.map (fun p => p.2.weight)) with
      | error e => rfl
      | ok ws => simp
    | some n =>
      by_cases hid : n.id = p.2.weight.id
      · have hnot : hasId ws0 n.id = false := by
          rw [hid]
          by_contra hcon
          have hcon2 : hasId ws0 p.2.weight.id = true := by
            cases h : hasId ws0 p.2.weight.id
            · exact absurd h hcon
            · rfl
          obtain ⟨w', hw', hid'⟩ := (hasId_iff_mem _ _).mp hcon2
          rw [List.map_cons, List.nodup_append] at hnodup
          exact hnodup.2.2 (List.mem_map.mpr ⟨w', hw', hid'⟩)
            (List.mem_cons_self _ _)
        by_cases hty : nsch.allowNode n.ty = true
        · have hlutnone := alookup_lutOf_not hnot 0
          rw [hid] at hlutnone
          have hrec := ih (lut0 ++ [(p.1, p.2.weight.id)]) (ws0 ++ [n])
            (by
              have heq : ((ws0 ++ [n]).map NWeight.id ++
                  rest.map (fun p => p.2.weight.id)) =
                  ws0.map NWeight.id ++
                    (n.id :: rest.map (fun p => p.2.weight.id)) := by
                simp
              rw [heq, hid]
              simpa using hnodup)
          have hcond : (nsch.allowNode n.ty = false) = False := by
            simp [hty]
          simp [updateNodesLoop, add_node, hmap, hid, hcond, hlutnone,
            show (mkGraph nsch ws0 []).schema = nsch from rfl,
            show (mkGraph nsch ws0 []).nodeLut = lutOf 0 ws0 from rfl,
            pushNode_mkGraph nsch ws0 n, hrec, mapNodesSpec,
            List.append_assoc]
          cases mapNodesSpec os nsch nm (rest.map (fun p => p.2.weight)) with
          | error e => rfl
          | ok ws => rfl
        · have hty2 : nsch.allowNode n.ty = false := by
            cases h : nsch.allowNode n.ty
            · rfl
            · exact absurd h hty
          simp [updateNodesLoop, add_node, hmap, hid, hty2,
            show (mkGraph nsch ws0 []).schema = nsch from rfl,
            mapNodesSpec]
      · simp [updateNodesLoop, hmap, hid, mapNodesSpec,
          show (mkGraph nsch ws0 []).schema = nsch from rfl]

end TypedGraph


/- ### the edge pass of update_schema -/

/-- The DTO view of a captured edge record through the key→id table. -/
def dtoVia (lut : List (Nat × Nat)) (em : EdgeMetadata) : EdgeDTO :=
  ⟨em.weight, unwrapD (alookup lut em.source), unwrapD (alookup lut em.target)⟩

namespace TypedGraph

theorem updateEdgesLoop_mkGraph (os : Schema)
    (em' : Schema → Schema → EWeight → Option EWeight) (nsch : Schema)
    (lut : List (Nat × Nat)) (ws : List NWeight)
    (hnodup : (ws.map NWeight.id).Nodup) :
    ∀ (ems : List EdgeMetadata) (kept : List EdgeDTO),
    (∀ d ∈ kept, hasId ws d.source = true ∧ hasId ws d.target = true) →
    ((kept.map (fun d => d.weight.id) ++
      ems.map (fun em => em.weight.id)).Nodup) →
    (∀ em ∈ ems, (alookup lut em.source).isSome ∧
      (alookup lut em.target).isSome) →
    updateEdgesLoop os em' lut (mkGraph nsch ws kept) ems =
      (sieveDrop os nsch em' ws kept (ems.map (dtoVia lut))).map
        (mkGraph nsch ws) := by
  intro ems
  induction ems with
  | nil =>
    intro kept _ _ _
    simp [updateEdgesLoop, sieveDrop, Except.map]
  | cons emd rest ih =>
    intro kept hkept hids hlut
    have hsome := hlut emd (List.mem_cons_self _ _)
    cases hsid : alookup lut emd.source with
    | none => rw [hsid] at hsome; simp at hsome
    | some sid =>
    cases htid : alookup lut emd.target with
    | none => rw [htid] at hsome; simp at hsome
    | some tid =>
    have hd : dtoVia lut emd = ⟨emd.weight, sid, tid⟩ := by
      simp [dtoVia, hsid, htid]
    have hlutrest := fun em hm => hlut em (List.mem_cons_of_mem _ hm)
    have hsubids : (kept.map (fun d => d.weight.id) ++
        rest.map (fun em => em.weight.id)).Nodup :=
      hids.sublist (by
        apply List.Sublist.append_left
        simp)
    cases hmap : em' os nsch emd.weight with
    | none =>
      have hrec := ih kept hkept hsubids hlutrest
      simp [updateEdgesLoop, sieveDrop, hmap, hd, hrec,
        show (mkGraph nsch ws kept).schema = nsch from rfl]
    | some e =>
      by_cases hide : e.id = emd.weight.id
      · by_cases hlive : hasId ws sid = true ∧ hasId ws tid = true
        · have hfr : ∀ d' ∈ kept,
              d'.weight.id ≠ (⟨e, sid, tid⟩ : EdgeDTO).weight.id := by
            intro d' hd' heq
            rw [List.nodup_append] at hids
            apply hids.2.2 (List.mem_map.mpr ⟨d', hd', heq⟩)
            apply List.mem_map.mpr
            exact ⟨emd, List.mem_cons_self _ _, by
              show emd.weight.id = (⟨e, sid, tid⟩ : EdgeDTO).weight.id
              show emd.weight.id = e.id
              rw [hide]⟩
          have hstep : add_edge (mkGraph nsch ws kept) sid tid e =
              match nsch.allowEdge
                  (classCnt ws sid e.ty (tyIn ws tid) kept + 1)
                  e.ty (tyIn ws sid) (tyIn ws tid) with
              | none => (.ok e.id, mkGraph nsch ws (kept ++ [⟨e, sid, tid⟩]))
              | some er =>
                (.error (.invalidEdgeType e.ty (tyIn ws sid)
                  (tyIn ws tid) er), mkGraph nsch ws kept) :=
            add_edge_mkGraph nsch ws kept ⟨e, sid, tid⟩ hnodup hkept
              hlive.1 hlive.2 hfr
          have hlive2 : (hasId ws sid && hasId ws tid) = true := by
            rw [hlive.1, hlive.2]
            rfl
          cases hall : nsch.allowEdge
              (classCnt ws sid e.ty (tyIn ws tid) kept + 1)
              e.ty (tyIn ws sid) (tyIn ws tid) with
          | none =>
            rw [hall] at hstep
            have hrec := ih (kept ++ [⟨e, sid, tid⟩])
              (by
                intro d' hd'
                rcases List.mem_append.mp hd' with h | h
                · exact hkept d' h
                · rcases List.mem_singleton.mp h with rfl
                  exact hlive)
              (by
                have heq : ((kept ++ [(⟨e, sid, tid⟩ : EdgeDTO)]).map
                    (fun d => d.weight.id) ++
                      rest.map (fun em => em.weight.id)) =
                    kept.map (fun d => d.weight.id) ++
                      (e.id :: rest.map (fun em => em.weight.id)) := by
                  simp
                rw [heq, hide]
                exact hids)
              hlutrest
            simp [updateEdgesLoop, sieveDrop, hmap, hd, hide, hstep, hall,
              hsid, htid, Except.map, mkGraph_has_node, hlive2, hlive.1,
              hlive.2, hrec,
              show (mkGraph nsch ws kept).schema = nsch from rfl]
          | some er =>
            rw [hall] at hstep
            cases er with
            | toMany =>
              have hrec := ih kept hkept hsubids hlutrest
              simp [updateEdgesLoop, sieveDrop, hmap, hd, hide, hstep, hall,
                hsid, htid, Except.map, mkGraph_has_node, hlive2, hlive.1,
                hlive.2, hrec,
                show (mkGraph nsch ws kept).schema = nsch from rfl]
            | invalidType =>
              simp [updateEdgesLoop, sieveDrop, hmap, hd, hide, hstep, hall,
                hsid, htid, Except.map, mkGraph_has_node, hlive2, hlive.1,
                hlive.2,
                show (mkGraph nsch ws kept).schema = nsch from rfl]
        · have hlive2 : (hasId ws sid && hasId ws tid) = false := by
            cases h1 : hasId ws sid <;> cases h2 : hasId ws tid <;>
              simp_all
          have hrec := ih kept hkept hsubids hlutrest
          simp [updateEdgesLoop, sieveDrop, hmap, hd, hide,
            hsid, htid, Except.map, mkGraph_has_node, hlive2, hrec,
            show (mkGraph nsch ws kept).schema = nsch from rfl]
      · simp [updateEdgesLoop, sieveDrop, hmap, hd, hide,
          hsid, htid, Except.map,
          show (mkGraph nsch ws kept).schema = nsch from rfl]

end TypedGraph

theorem alookup_map_wid (l : List (Nat × NodeMetadata)) (k : Nat) :
    alookup (l.map (fun p => (p.1, p.2.weight.id))) k =
      (alookup l k).map (fun m => m.weight.id) := by
  induction l with
  | nil => rfl
  | cons p rest ih =>
    by_cases h : p.1 = k <;> simp [alookup, h, ih]

/-- The node pass only keeps weights, so its output ids form a
sub-sequence of the input ids. -/
theorem mapNodesSpec_ids (os nsch : Schema)
    (nm : Schema → Schema → NWeight → Option NWeight) :
    ∀ (ns ws : List NWeight), mapNodesSpec os nsch nm ns = .ok ws →
      (ws.map NWeight.id).Sublist (ns.map NWeight.id) := by
  intro ns
  induction ns with
  | nil =>
    intro ws h
    cases h
    exact List.Sublist.refl _
  | cons w rest ih =>
    intro ws h
    cases hmap : nm os nsch w with
    | none =>
      simp only [mapNodesSpec, hmap] at h
      exact (ih ws h).trans (by simp)
    | some n =>
      simp only [mapNodesSpec, hmap] at h
      by_cases hid : n.id = w.id
      · simp only [ne_eq, hid, not_true_eq_false, if_false, ite_false] at h
        by_cases hty : nsch.allowNode n.ty = false
        · simp [hty] at h
        · rw [if_neg hty] at h
          cases hrest : mapNodesSpec os nsch nm rest with
          | error e => simp [hrest] at h
          | ok ws' =>
            simp only [hrest] at h
            have h2 : (Except.ok (n :: ws') :
                Except GError (List NWeight)) = .ok ws := h
            injection h2 with h2
            rw [← h2]
            simp only [List.map_cons]
            rw [hid]
            exact List.Sublist.cons₂ _ (ih ws' hrest)
      · simp [hid] at h

namespace TypedGraph

/-- `update_schema` in closed form: the node pass is `mapNodesSpec` on the
stored weights, and on success the edge pass is the drop-sieve over the
serialized DTO list, rebuilding the canonical store. -/
theorem update_schema_spec (g : TypedGraph) (hInv : g.Inv) (nsch : Schema)
    (nm : Schema → Schema → NWeight → Option NWeight)
    (em : Schema → Schema → EWeight → Option EWeight) :
    g.update_schema nsch nm em =
      match mapNodesSpec g.schema nsch nm
          (g.nodes.map (fun p => p.2.weight)) with
      | .error e => .error e
      | .ok ws =>
        (sieveDrop g.schema nsch em ws [] (serialize g).edges).map
          (mkGraph nsch ws) := by
  obtain ⟨rem, hcap⟩ := captureEdges_ok hInv
  have hids : (([] : List NWeight).map NWeight.id ++
      g.nodes.map (fun p => p.2.weight.id)).Nodup := by
    have := hInv.nodeIdsNodup
    rw [List.map_map] at this
    simpa using this
  have hnodes := updateNodesLoop_mkGraph g.schema nm nsch g.nodes [] [] hids
  rw [update_schema, hcap, new_eq_mkGraph, hnodes]
  cases hspec : mapNodesSpec g.schema nsch nm
      (g.nodes.map (fun p => p.2.weight)) with
  | error e => rfl
  | ok ws =>
    have hwsnodup : (ws.map NWeight.id).Nodup := by
      refine List.Nodup.sublist
        (mapNodesSpec_ids g.schema nsch nm _ ws hspec) ?_
      exact hInv.nodeIdsNodup
    have hemids : ((([] : List EdgeDTO).map (fun d => d.weight.id)) ++
        ((outFlat g).map (fun ek => unwrapD (alookup g.edges ek))).map
          (fun em => em.weight.id)).Nodup := by
      have h0 := serialize_edge_ids_nodup hInv
      rw [serialize_edges_eq, List.map_map] at h0
      simp only [List.nil_append, List.map_map]
      exact h0
    have hlut : ∀ emd ∈ (outFlat g).map
        (fun ek => unwrapD (alookup g.edges ek)),
        (alookup (g.nodes.map (fun p => (p.1, p.2.weight.id)))
          emd.source).isSome ∧
        (alookup (g.nodes.map (fun p => (p.1, p.2.weight.id)))
          emd.target).isSome := by
      intro emd hemd
      obtain ⟨ek, hek, rfl⟩ := List.mem_map.mp hemd
      have hekm := (outFlat_perm hInv).mem_iff.mp hek
      obtain ⟨q, hq, rfl⟩ := List.mem_map.mp hekm
      have hem : alookup g.edges q.1 = some q.2 := by
        rcases q with ⟨a, b⟩
        exact alookup_of_mem_nodup hInv.edgesNodup hq
      rw [hem]
      obtain ⟨sm, hsm, _⟩ := edge_source_live hInv hem
      obtain ⟨tm, htm, _⟩ := edge_target_live hInv hem
      constructor
      · rw [alookup_map_wid]
        simp [hsm]
      · rw [alookup_map_wid]
        simp [htm]
    have hedges := updateEdgesLoop_mkGraph g.schema em nsch
      (g.nodes.map (fun p => (p.1, p.2.weight.id))) ws hwsnodup
      ((outFlat g).map (fun ek => unwrapD (alookup g.edges ek))) []
      (by intro d hd; simp at hd) hemids hlut
    have hdto : ((outFlat g).map
        (fun ek => unwrapD (alookup g.edges ek))).map
          (dtoVia (g.nodes.map (fun p => (p.1, p.2.weight.id)))) =
        (serialize g).edges := by
      rw [serialize_edges_eq, List.map_map]
      apply List.map_congr_left
      intro ek hek
      have hekm := (outFlat_perm hInv).mem_iff.mp hek
      obtain ⟨q, hq, rfl⟩ := List.mem_map.mp hekm
      have hem : alookup g.edges q.1 = some q.2 := by
        rcases q with ⟨a, b⟩
        exact alookup_of_mem_nodup hInv.edgesNodup hq
      obtain ⟨sm, hsm, _⟩ := edge_source_live hInv hem
      obtain ⟨tm, htm, _⟩ := edge_target_live hInv hem
      simp [Function.comp, dtoVia, dtoAt, hem, alookup_map_wid, hsm, htm,
        unwrapD]
    simp only [List.nil_append] at hnodes ⊢
    rw [hedges, hdto]

end TypedGraph

/- ### id-stability facts about the two passes -/

theorem mapNodesSpec_stable (os nsch : Schema)
    (nm : Schema → Schema → NWeight → Option NWeight) :
    ∀ (ns ws : List NWeight), mapNodesSpec os nsch nm ns = .ok ws →
      ∀ w ∈ ns, ∀ n, nm os nsch w = some n → n.id = w.id := by
  intro ns
  induction ns with
  | nil => intro ws _ w hw; simp at hw
  | cons w0 rest ih =>
    intro ws h w hw n hn
    rcases List.mem_cons.mp hw with hw | hw
    · subst hw
      cases hmap : nm os nsch w with
      | none => rw [hmap] at hn; exact Option.noConfusion hn
      | some n0 =>
        rw [hmap] at hn
        injection hn with hn
        rw [← hn]
        simp only [mapNodesSpec, hmap] at h
        by_cases hid : n0.id = w.id
        · exact hid
        · simp [hid] at h
    · simp only [mapNodesSpec] at h
      cases hmap : nm os nsch w0 with
      | none =>
        rw [hmap] at h
        exact ih ws h w hw n hn
      | some n0 =>
        rw [hmap] at h
        by_cases hid : n0.id = w0.id
        · simp only [ne_eq, hid, not_true_eq_false, if_false,
            ite_false] at h
          by_cases hty : nsch.allowNode n0.ty = false
          · simp [hty] at h
          · rw [if_neg hty] at h
            cases hrest : mapNodesSpec os nsch nm rest with
            | error e => simp [hrest] at h
            | ok ws' => exact ih ws' hrest w hw n hn
        · simp [hid] at h

theorem sieveDrop_stable (os nsch : Schema)
    (em' : Schema → Schema → EWeight → Option EWeight)
    (alive : List NWeight) :
    ∀ (dtos kept kept' : List EdgeDTO),
      sieveDrop os nsch em' alive kept dtos = .ok kept' →
      ∀ d ∈ dtos, ∀ e, em' os nsch d.weight = some e →
        e.id = d.weight.id := by
  intro dtos
  induction dtos with
  | nil => intro kept kept' _ d hd; simp at hd
  | cons d0 rest ih =>
    intro kept kept' h d hd e hmape
    simp only [sieveDrop] at h
    cases hmap : em' os nsch d0.weight with
    | none =>
      rw [hmap] at h
      rcases List.mem_cons.mp hd with hd | hd
      · subst hd
        rw [hmap] at hmape
        exact Option.noConfusion hmape
      · exact ih kept kept' h d hd e hmape
    | some e0 =>
      rw [hmap] at h
      by_cases hid : e0.id = d0.weight.id
      · simp only [ne_eq, hid, not_true_eq_false, if_false,
          ite_false] at h
        rcases List.mem_cons.mp hd with hd | hd
        · subst hd
          rw [hmap] at hmape
          injection hmape with hmape
          subst hmape
          exact hid
        · by_cases hlive : (hasId alive d0.source &&
              hasId alive d0.target) = true
          · rw [if_pos hlive] at h
            cases hall : nsch.allowEdge
                (classCnt alive d0.source e0.ty (tyIn alive d0.target)
                  kept + 1)
                e0.ty (tyIn alive d0.source) (tyIn alive d0.target) with
            | none =>
              rw [hall] at h
              exact ih _ kept' h d hd e hmape
            | some er =>
              rw [hall] at h
              cases er with
              | toMany => exact ih kept kept' h d hd e hmape
              | invalidType => exact Except.noConfusion h
          · rw [if_neg hlive] at h
            exact ih kept kept' h d hd e hmape
      · simp [hid] at h

theorem mapNodesSpec_viol (os nsch : Schema)
    (nm : Schema → Schema → NWeight → Option NWeight) :
    ∀ (ns : List NWeight),
    (∀ w ∈ ns, ∀ n, nm os nsch w = some n → n.id = w.id →
      nsch.allowNode n.ty = true) →
    (∃ w ∈ ns, ∃ n, nm os nsch w = some n ∧ n.id ≠ w.id) →
    ∃ a b, mapNodesSpec os nsch nm ns = .error (.inconsistentNodeIds a b) := by
  intro ns
  induction ns with
  | nil => intro _ hviol; simp at hviol
  | cons w0 rest ih =>
    intro hok hviol
    cases hmap : nm os nsch w0 with
    | none =>
      have hrest : ∃ w ∈ rest, ∃ n, nm os nsch w = some n ∧ n.id ≠ w.id := by
        obtain ⟨w, hw, n, hn, hne⟩ := hviol
        rcases List.mem_cons.mp hw with hw | hw
        · subst hw
          rw [hmap] at hn
          exact Option.noConfusion hn
        · exact ⟨w, hw, n, hn, hne⟩
      obtain ⟨a, b, hres⟩ := ih
        (fun w hw => hok w (List.mem_cons_of_mem _ hw)) hrest
      exact ⟨a, b, by simp [mapNodesSpec, hmap, hres]⟩
    | some n0 =>
      by_cases hid : n0.id = w0.id
      · have hty := hok w0 (List.mem_cons_self _ _) n0 hmap hid
        have hrest : ∃ w ∈ rest, ∃ n,
            nm os nsch w = some n ∧ n.id ≠ w.id := by
          obtain ⟨w, hw, n, hn, hne⟩ := hviol
          rcases List.mem_cons.mp hw with hw | hw
          · subst hw
            rw [hmap] at hn
            injection hn with hn
            rw [← hn] at hne
            exact absurd hid hne
          · exact ⟨w, hw, n, hn, hne⟩
        obtain ⟨a, b, hres⟩ := ih
          (fun w hw => hok w (List.mem_cons_of_mem _ hw)) hrest
        refine ⟨a, b, ?_⟩
        have hcond : (nsch.allowNode n0.ty = false) = False := by
          simp [hty]
        simp [mapNodesSpec, hmap, hid, hcond, hres]
      · exact ⟨w0.id, n0.id, by simp [mapNodesSpec, hmap, hid]⟩

theorem sieveDrop_viol (os nsch : Schema)
    (em' : Schema → Schema → EWeight → Option EWeight)
    (alive : List NWeight)
    (hnoinv : ∀ q ety sty tty,
      nsch.allowEdge q ety sty tty ≠ some .invalidType) :
    ∀ (dtos kept : List EdgeDTO),
    (∃ d ∈ dtos, ∃ e, em' os nsch d.weight = some e ∧ e.id ≠ d.weight.id) →
    ∃ a b, sieveDrop os nsch em' alive kept dtos =
      .error (.inconsistentEdgeIds a b) := by
  intro dtos
  induction dtos with
  | nil => intro kept hviol; simp at hviol
  | cons d0 rest ih =>
    intro kept hviol
    cases hmap : em' os nsch d0.weight with
    | none =>
      have hrest : ∃ d ∈ rest, ∃ e,
          em' os nsch d.weight = some e ∧ e.id ≠ d.weight.id := by
        obtain ⟨d, hd, e, he, hne⟩ := hviol
        rcases List.mem_cons.mp hd with hd | hd
        · subst hd
          rw [hmap] at he
          exact Option.noConfusion he
        · exact ⟨d, hd, e, he, hne⟩
      obtain ⟨a, b, hres⟩ := ih kept hrest
      exact ⟨a, b, by simp [sieveDrop, hmap, hres]⟩
    | some e0 =>
      by_cases hid : e0.id = d0.weight.id
      · have hrest : ∃ d ∈ rest, ∃ e,
            em' os nsch d.weight = some e ∧ e.id ≠ d.weight.id := by
          obtain ⟨d, hd, e, he, hne⟩ := hviol
          rcases List.mem_cons.mp hd with hd | hd
          · subst hd
            rw [hmap] at he
            injection he with he
            rw [← he] at hne
            exact absurd hid hne
          · exact ⟨d, hd, e, he, hne⟩
        by_cases hlive : (hasId alive d0.source &&
            hasId alive d0.target) = true
        · cases hall : nsch.allowEdge
              (classCnt alive d0.source e0.ty (tyIn alive d0.target)
                kept + 1)
              e0.ty (tyIn alive d0.source) (tyIn alive d0.target) with
          | none =>
            obtain ⟨a, b, hres⟩ := ih (kept ++ [⟨e0, d0.source, d0.target⟩])
              hrest
            exact ⟨a, b, by
              simp [sieveDrop, hmap, hid, hlive, hall, hres]⟩
          | some er =>
            cases er with
            | toMany =>
              obtain ⟨a, b, hres⟩ := ih kept hrest
              exact ⟨a, b, by
                simp [sieveDrop, hmap, hid, hlive, hall, hres]⟩
            | invalidType => exact absurd hall (hnoinv _ _ _ _)
        · obtain ⟨a, b, hres⟩ := ih kept hrest
          have hlive2 : (hasId alive d0.source &&
              hasId alive d0.target) = false := by
            cases h : (hasId alive d0.source && hasId alive d0.target)
            · rfl
            · exact absurd h hlive
          exact ⟨a, b, by simp [sieveDrop, hmap, hid, hlive2, hres]⟩
      · exact ⟨d0.weight.id, e0.id, by simp [sieveDrop, hmap, hid]⟩

namespace TypedGraph

/-- C8: the id-stability contract of `update_schema`.  A successful
migration implies every node and every edge the mapping functions kept got
back its original id; a mapping that changes any node id (with no earlier
node-type rejection) aborts the whole operation with
`InconsistentNodeIds`, and one that changes any edge id (with the node
pass succeeding and a schema that never rejects with `InvalidType`)
aborts with `InconsistentEdgeIds`; in neither case is a store produced. -/
theorem update_schema_id_stability (g : TypedGraph) (hInv : g.Inv)
    (nsch : Schema)
    (nm : Schema → Schema → NWeight → Option NWeight)
    (em : Schema → Schema → EWeight → Option EWeight) :
    (∀ g', g.update_schema nsch nm em = .ok g' →
      (∀ p ∈ g.nodes, ∀ n, nm g.schema nsch p.2.weight = some n →
        n.id = p.2.weight.id) ∧
      (∀ p ∈ g.edges, ∀ e, em g.schema nsch p.2.weight = some e →
        e.id = p.2.weight.id)) ∧
    ((∀ p ∈ g.nodes, ∀ n, nm g.schema nsch p.2.weight = some n →
        n.id = p.2.weight.id → nsch.allowNode n.ty = true) →
      (∃ p ∈ g.nodes, ∃ n, nm g.schema nsch p.2.weight = some n ∧
        n.id ≠ p.2.weight.id) →
      ∃ a b, g.update_schema nsch nm em =
        .error (.inconsistentNodeIds a b)) ∧
    ((∀ q ety sty tty, nsch.allowEdge q ety sty tty ≠ some .invalidType) →
      (∃ ws, mapNodesSpec g.schema nsch nm
        (g.nodes.map (fun p => p.2.weight)) = .ok ws) →
      (∃ p ∈ g.edges, ∃ e, em g.schema nsch p.2.weight = some e ∧
        e.id ≠ p.2.weight.id) →
      ∃ a b, g.update_schema nsch nm em =
        .error (.inconsistentEdgeIds a b)) := by
  have hspec := update_schema_spec g hInv nsch nm em
  refine ⟨?_, ?_, ?_⟩
  · intro g' hok
    rw [hspec] at hok
    cases hmns : mapNodesSpec g.schema nsch nm
        (g.nodes.map (fun p => p.2.weight)) with
    | error e =>
      rw [hmns] at hok
      exact Except.noConfusion hok
    | ok ws =>
      rw [hmns] at hok
      have hok2 : Except.map (mkGraph nsch ws)
          (sieveDrop g.schema nsch em ws [] (serialize g).edges) =
          .ok g' := hok
      cases hsd : sieveDrop g.schema nsch em ws [] (serialize g).edges with
      | error e =>
        rw [hsd] at hok2
        simp [Except.map] at hok2
      | ok kept' =>
        constructor
        · intro p hp n hn
          exact mapNodesSpec_stable g.schema nsch nm _ ws hmns p.2.weight
            (List.mem_map.mpr ⟨p, hp, rfl⟩) n hn
        · intro p hp e he
          have hem : alookup g.edges p.1 = some p.2 := by
            rcases p with ⟨a, b⟩
            exact alookup_of_mem_nodup hInv.edgesNodup hp
          have hw : (dtoAt g p.1).weight = p.2.weight := by
            simp [dtoAt, hem, unwrapD]
          have hst := sieveDrop_stable g.schema nsch em ws
            (serialize g).edges [] kept' hsd (dtoAt g p.1)
            (dtoAt_mem_serialize hInv hem) e (by rw [hw]; exact he)
          rw [hw] at hst
          exact hst
  · intro hok hviol
    obtain ⟨a, b, hres⟩ := mapNodesSpec_viol g.schema nsch nm
      (g.nodes.map (fun p => p.2.weight))
      (by
        intro w hw n hn hid
        obtain ⟨p, hp, rfl⟩ := List.mem_map.mp hw
        exact hok p hp n hn hid)
      (by
        obtain ⟨p, hp, n, hn, hne⟩ := hviol
        exact ⟨p.2.weight, List.mem_map.mpr ⟨p, hp, rfl⟩, n, hn, hne⟩)
    exact ⟨a, b, by rw [hspec, hres]⟩
  · intro hnoinv hws hviol
    obtain ⟨ws, hmns⟩ := hws
    obtain ⟨a, b, hres⟩ := sieveDrop_viol g.schema nsch em ws hnoinv
      (serialize g).edges []
      (by
        obtain ⟨p, hp, e, he, hne⟩ := hviol
        have hem : alookup g.edges p.1 = some p.2 := by
          rcases p with ⟨a, b⟩
          exact alookup_of_mem_nodup hInv.edgesNodup hp
        have hw : (dtoAt g p.1).weight = p.2.weight := by
          simp [dtoAt, hem, unwrapD]
        exact ⟨dtoAt g p.1, dtoAt_mem_serialize hInv hem, e,
          by rw [hw]; exact he, by rw [hw]; exact hne⟩)
    refine ⟨a, b, ?_⟩
    rw [hspec, hmns]
    simp [Except.map, hres]

end TypedGraph

/-- C8 witness: the stability contract instantiated at a concrete
invariant-satisfying store with the identity mapping functions. -/
theorem update_schema_id_stability_witness :
    exg2.Inv ∧
      ((∀ g', exg2.update_schema allSchema (fun _ _ w => some w)
          (fun _ _ w => some w) = .ok g' →
        (∀ p ∈ exg2.nodes, ∀ n,
          (fun _ _ w => some w) exg2.schema allSchema p.2.weight = some n →
          n.id = p.2.weight.id) ∧
        (∀ p ∈ exg2.edges, ∀ e,
          (fun _ _ w => some w) exg2.schema allSchema p.2.weight = some e →
          e.id = p.2.weight.id)) ∧
      ((∀ p ∈ exg2.nodes, ∀ n,
          (fun _ _ w => some w) exg2.schema allSchema p.2.weight = some n →
          n.id = p.2.weight.id → allSchema.allowNode n.ty = true) →
        (∃ p ∈ exg2.nodes, ∃ n,
          (fun _ _ w => some w) exg2.schema allSchema p.2.weight = some n ∧
          n.id ≠ p.2.weight.id) →
        ∃ a b, exg2.update_schema allSchema (fun _ _ w => some w)
          (fun _ _ w => some w) = .error (.inconsistentNodeIds a b)) ∧
      ((∀ q ety sty tty,
          allSchema.allowEdge q ety sty tty ≠ some .invalidType) →
        (∃ ws, mapNodesSpec exg2.schema allSchema (fun _ _ w => some w)
          (exg2.nodes.map (fun p => p.2.weight)) = .ok ws) →
        (∃ p ∈ exg2.edges, ∃ e,
          (fun _ _ w => some w) exg2.schema allSchema p.2.weight = some e ∧
          e.id ≠ p.2.weight.id) →
        ∃ a b, exg2.update_schema allSchema (fun _ _ w => some w)
          (fun _ _ w => some w) = .error (.inconsistentEdgeIds a b))) :=
  ⟨by decide, TypedGraph.update_schema_id_stability exg2 (by decide)
    allSchema (fun _ _ w => some w) (fun _ _ w => some w)⟩

/- ### quantity-cap trimming -/

/-- A schema that allows every node and rejects every edge class beyond
`N` occurrences, always with `ToMany`. -/
def capN (N : Nat) : Schema :=
  ⟨fun _ => true, fun q _ _ _ => if N < q then some .toMany else none⟩

/-- The sub-sequence of DTOs in one same-(source, edge type, target type)
class. -/
def classFilter (ns : List NWeight) (src ety tty : Nat) :
    List EdgeDTO → List EdgeDTO
  | [] => []
  | d :: rest =>
    if d.source = src ∧ d.weight.ty = ety ∧ tyIn ns d.target = tty then
      d :: classFilter ns src ety tty rest
    else classFilter ns src ety tty rest

theorem classCnt_eq_length (ns : List NWeight) (src ety tty : Nat) :
    ∀ l : List EdgeDTO,
      classCnt ns src ety tty l = (classFilter ns src ety tty l).length := by
  intro l
  induction l with
  | nil => rfl
  | cons d rest ih =>
    by_cases h : d.source = src ∧ d.weight.ty = ety ∧
        tyIn ns d.target = tty
    · simp [classCnt, classFilter, h, ih]
      omega
    · simp [classCnt, classFilter, h, ih]

theorem classFilter_append (ns : List NWeight) (src ety tty : Nat)
    (l1 l2 : List EdgeDTO) :
    classFilter ns src ety tty (l1 ++ l2) =
      classFilter ns src ety tty l1 ++ classFilter ns src ety tty l2 := by
  induction l1 with
  | nil => simp [classFilter]
  | cons d rest ih =>
    by_cases h : d.source = src ∧ d.weight.ty = ety ∧
        tyIn ns d.target = tty <;>
      simp [classFilter, h, ih]

/-- Under a pure quantity cap and an identity edge map, the drop-sieve
accepts everything until each class reaches `N` members and silently drops
the rest: per class, the survivors appended to `kept` are exactly the
earliest `N - (already kept)` DTOs of that class. -/
theorem sieveDrop_cap (os : Schema)
    (em' : Schema → Schema → EWeight → Option EWeight) (N : Nat)
    (ws : List NWeight)
    (hem : ∀ w, em' os (capN N) w = some w) :
    ∀ (dtos kept : List EdgeDTO),
    (∀ d ∈ dtos, hasId ws d.source = true ∧ hasId ws d.target = true) →
    ∃ kept', sieveDrop os (capN N) em' ws kept dtos = .ok kept' ∧
      ∀ src ety tty, classFilter ws src ety tty kept' =
        classFilter ws src ety tty kept ++
          (classFilter ws src ety tty dtos).take
            (N - classCnt ws src ety tty kept) := by
  intro dtos
  induction dtos with
  | nil =>
    intro kept _
    exact ⟨kept, rfl, fun src ety tty => by simp [classFilter]⟩
  | cons d rest ih =>
    intro kept hlive
    have hd := hlive d (List.mem_cons_self _ _)
    have hlive2 : (hasId ws d.source && hasId ws d.target) = true := by
      rw [hd.1, hd.2]
      rfl
    have hlrest := fun d' hd' => hlive d' (List.mem_cons_of_mem _ hd')
    by_cases hcap : N < classCnt ws d.source d.weight.ty
        (tyIn ws d.target) kept + 1
    · obtain ⟨kept', hrun, hcls⟩ := ih kept hlrest
      refine ⟨kept', ?_, ?_⟩
      · have hall : (capN N).allowEdge
            (classCnt ws d.source d.weight.ty (tyIn ws d.target) kept + 1)
            d.weight.ty (tyIn ws d.source) (tyIn ws d.target) =
            some .toMany := by
          simp [capN, hcap]
        simp [sieveDrop, hem d.weight, hlive2, hall, hrun]
      · intro src ety tty
        rw [hcls src ety tty]
        congr 1
        by_cases hc : d.source = src ∧ d.weight.ty = ety ∧
            tyIn ws d.target = tty
        · obtain ⟨hc1, hc2, hc3⟩ := hc
          rw [← hc1, ← hc2, ← hc3]
          have hz : N - classCnt ws d.source d.weight.ty
              (tyIn ws d.target) kept = 0 := by omega
          rw [hz]
          simp [classFilter]
        · simp [classFilter, hc]
    · obtain ⟨kept', hrun, hcls⟩ := ih (kept ++ [d]) hlrest
      refine ⟨kept', ?_, ?_⟩
      · have hall : (capN N).allowEdge
            (classCnt ws d.source d.weight.ty (tyIn ws d.target) kept + 1)
            d.weight.ty (tyIn ws d.source) (tyIn ws d.target) = none := by
          simp [capN]
          omega
        have hpush : (⟨d.weight, d.source, d.target⟩ : EdgeDTO) = d := rfl
        simp [sieveDrop, hem d.weight, hlive2, hall, hpush, hrun]
      · intro src ety tty
        rw [hcls src ety tty, classFilter_append]
        by_cases hc : d.source = src ∧ d.weight.ty = ety ∧
            tyIn ws d.target = tty
        · have hone : classFilter ws src ety tty [d] = [d] := by
            simp [classFilter, hc]
          have hcnt : classCnt ws src ety tty (kept ++ [d]) =
              classCnt ws src ety tty kept + 1 := by
            rw [classCnt_append]
            simp [classCnt, hc]
          have hhead : classFilter ws src ety tty (d :: rest) =
              d :: classFilter ws src ety tty rest := by
            simp [classFilter, hc]
          rw [hone, hcnt, hhead]
          obtain ⟨hc1, hc2, hc3⟩ := hc
          have hle : classCnt ws src ety tty kept + 1 ≤ N := by
            rw [← hc1, ← hc2, ← hc3]
            omega
          rw [show N - classCnt ws src ety tty kept =
            (N - (classCnt ws src ety tty kept + 1)) + 1 by omega]
          simp [List.append_assoc, List.take_succ_cons]
        · have hzero : classFilter ws src ety tty [d] = [] := by
            simp [classFilter, hc]
          have hcnt : classCnt ws src ety tty (kept ++ [d]) =
              classCnt ws src ety tty kept := by
            rw [classCnt_append]
            simp [classCnt, hc]
          have hhead : classFilter ws src ety tty (d :: rest) =
              classFilter ws src ety tty rest := by
            simp [classFilter, hc]
          rw [hzero, hcnt, hhead, List.append_nil]

namespace TypedGraph

/-- C7: the edge pass of `update_schema` re-offers the captured edges in
per-node outgoing order to the new schema, silently dropping exactly the
quantity (`ToMany`) rejections and aborting on any other rejection (the
closed form, first conjunct); consequently under a pure quantity cap `N`
with an identity edge map, each (source, edge type, target type) class
keeps exactly its `N` earliest-in-outgoing-order edges and drops the
later ones (second conjunct). -/
theorem update_schema_edge_semantics (g : TypedGraph) (hInv : g.Inv)
    (nsch : Schema)
    (nm : Schema → Schema → NWeight → Option NWeight)
    (em : Schema → Schema → EWeight → Option EWeight) :
    (g.update_schema nsch nm em =
      match mapNodesSpec g.schema nsch nm
          (g.nodes.map (fun p => p.2.weight)) with
      | .error e => .error e
      | .ok ws =>
        (sieveDrop g.schema nsch em ws [] (serialize g).edges).map
          (mkGraph nsch ws)) ∧
    (∀ N ws, nsch = capN N →
      (∀ w, em g.schema nsch w = some w) →
      mapNodesSpec g.schema nsch nm
        (g.nodes.map (fun p => p.2.weight)) = .ok ws →
      (∀ d ∈ (serialize g).edges,
        hasId ws d.source = true ∧ hasId ws d.target = true) →
      ∃ kept', g.update_schema nsch nm em = .ok (mkGraph nsch ws kept') ∧
        ∀ src ety tty, classFilter ws src ety tty kept' =
          (classFilter ws src ety tty (serialize g).edges).take N) := by
  have hspec := update_schema_spec g hInv nsch nm em
  refine ⟨hspec, ?_⟩
  intro N ws hcapn hem hmns hlive
  subst hcapn
  obtain ⟨kept', hrun, hcls⟩ :=
    sieveDrop_cap g.schema em N ws hem (serialize g).edges [] hlive
  refine ⟨kept', ?_, ?_⟩
  · rw [hspec, hmns]
    simp [hrun, Except.map]
  · intro src ety tty
    have := hcls src ety tty
    simpa [classFilter, classCnt] using this

end TypedGraph

/-- Three same-class edges `0 → 1` of type 7 under the permissive schema. -/
def exgC7 : TypedGraph :=
  (((exg2.add_edge 0 1 ⟨0, 7, 0⟩).2.add_edge 0 1
      ⟨1, 7, 0⟩).2.add_edge 0 1 ⟨2, 7, 0⟩).2

/-- C7 witness: migrating a three-edge class to a cap of 2 with identity
maps keeps, in every class, exactly the two earliest edges of the
outgoing order. -/
theorem update_schema_edge_semantics_witness :
    exgC7.Inv ∧
      ∃ kept', exgC7.update_schema (capN 2) (fun _ _ w => some w)
          (fun _ _ w => some w) =
          .ok (mkGraph (capN 2) [⟨0, 0, 0⟩, ⟨1, 0, 0⟩] kept') ∧
        ∀ src ety tty,
          classFilter [⟨0, 0, 0⟩, ⟨1, 0, 0⟩] src ety tty kept' =
            (classFilter [⟨0, 0, 0⟩, ⟨1, 0, 0⟩] src ety tty
              (TypedGraph.serialize exgC7).edges).take 2 :=
  ⟨by decide,
    (TypedGraph.update_schema_edge_semantics exgC7 (by decide) (capN 2)
        (fun _ _ w => some w) (fun _ _ w => some w)).2
      2 [⟨0, 0, 0⟩, ⟨1, 0, 0⟩] rfl (fun w => rfl) (by decide) (by decide)⟩
